import Mathlib

/-!
# Verification of the rusty-minesweeper game engine

Shallow embedding of the Minesweeper rules engine found in
`src/game/models/cell.rs`, `src/game/models/game.rs`, `src/game/models/board.rs`
and `src/game/state.rs`, together with proofs about the engine's claims.

Modelling conventions:
* `usize` fields become `Nat`, `isize` fields become `Int` with explicit
  saturation bounds where the code saturates.
* `HashSet<CellPosition>` bookkeeping sets in `GameState` become
  `Finset CellPosition`; `Board.mine_positions` becomes a `List CellPosition`
  (the code only ever inserts elements that are not yet present, so a list
  mirrors both the set semantics and an iteration order).
* `Vec<Vec<Cell>>` becomes `List (List Cell)` indexed exactly as the code
  indexes (`cells[pos.x][pos.y]`), with out-of-range writes being no-ops
  (the code never writes out of range: every write is behind a bounds check).
* The `fastrand` RNG is modelled by the list of positions it would return:
  `Board::place_mines` consumes successive draws from that list.  The source
  loop runs until enough mines are placed; the embedding stops early when the
  draw list is exhausted, and theorems about a completed generation assume the
  list carries enough distinct positions.
* `std::time::Instant` is not modelled; the `start_time : Option Instant`
  field becomes `Option Unit` (what the claims observe is only whether the
  clock was started), and `tick` receives the externally measured elapsed
  seconds as an argument.
* `Cell.board_size` (a UI/layout helper field in the source) is kept for
  fidelity but plays no role in the engine logic.
-/

/-- `CellContent` from `src/game/models/cell.rs`. -/
inductive CellContent where
  | Mine
  | Empty
  | One
  | Two
  | Three
  | Four
  | Five
  | Six
  | Seven
  | Eight
deriving DecidableEq, Repr

/-- `CellContent::add_one`: increment the adjacency count, a no-op on
`Mine` and saturating at `Eight`. -/
def CellContent.add_one : CellContent → CellContent
  | .Mine => .Mine
  | .Eight => .Eight
  | .Empty => .One
  | .One => .Two
  | .Two => .Three
  | .Three => .Four
  | .Four => .Five
  | .Five => .Six
  | .Six => .Seven
  | .Seven => .Eight

/-- `CellContent::as_number` (`Mine` is reported as 99). -/
def CellContent.as_number : CellContent → Nat
  | .Mine => 99
  | .Empty => 0
  | .One => 1
  | .Two => 2
  | .Three => 3
  | .Four => 4
  | .Five => 5
  | .Six => 6
  | .Seven => 7
  | .Eight => 8

/-- The content encoding an adjacency count `0 ≤ k ≤ 8`; used to state the
adjacency-count invariant. -/
def CellContent.ofCount : Nat → CellContent
  | 0 => .Empty
  | 1 => .One
  | 2 => .Two
  | 3 => .Three
  | 4 => .Four
  | 5 => .Five
  | 6 => .Six
  | 7 => .Seven
  | _ => .Eight

/-- `CellState` from `src/game/models/cell.rs`. -/
inductive CellState where
  | Hidden
  | Revealed
  | Flagged
deriving DecidableEq, Repr

/-- `CellPosition` from `src/game/models/cell.rs`. -/
structure CellPosition where
  x : Nat
  y : Nat
deriving DecidableEq, Repr

/-- `Cell` from `src/game/models/cell.rs`.  `board_size` is a UI layout
helper in the source and is irrelevant to the engine. -/
structure Cell where
  content : CellContent := .Empty
  state : CellState := .Hidden
  board_size : Nat := 0
deriving DecidableEq, Repr

instance : Inhabited Cell := ⟨{}⟩

def Cell.is_hidden (c : Cell) : Bool := c.state = CellState.Hidden

def Cell.is_revealed (c : Cell) : Bool := c.state = CellState.Revealed

def Cell.is_flagged (c : Cell) : Bool := c.state = CellState.Flagged

def Cell.is_mine (c : Cell) : Bool := c.content = CellContent.Mine

def Cell.is_empty (c : Cell) : Bool := c.content = CellContent.Empty

/-- `Cell::reveal`. -/
def Cell.reveal (c : Cell) : Cell := { c with state := .Revealed }

/-- `Cell::flag`: flags only a hidden cell; returns whether it flagged. -/
def Cell.flag (c : Cell) : Bool × Cell :=
  if c.is_hidden then (true, { c with state := .Flagged }) else (false, c)

/-- `Cell::unflag`: unflags only a flagged cell; returns whether it unflagged. -/
def Cell.unflag (c : Cell) : Bool × Cell :=
  if c.is_flagged then (true, { c with state := .Hidden }) else (false, c)

/-- `GameStatus` from `src/game/models/game.rs`. -/
inductive GameStatus where
  | Won
  | Lost
  | InProgress
  | New
deriving DecidableEq, Repr

def GameStatus.is_over : GameStatus → Bool
  | .Won => true
  | .Lost => true
  | _ => false

def GameStatus.is_lost : GameStatus → Bool
  | .Lost => true
  | _ => false

def GameStatus.is_in_progress : GameStatus → Bool
  | .InProgress => true
  | _ => false

def GameStatus.is_new : GameStatus → Bool
  | .New => true
  | _ => false

/-- `GameDifficulty` from `src/game/models/game.rs`: a `(width, height)`
pair and a mine count. -/
structure GameDifficulty where
  board_size : Nat × Nat
  mines_count : Nat
deriving DecidableEq, Repr

def GameDifficulty.BEGINNER : GameDifficulty := ⟨(9, 9), 10⟩

def GameDifficulty.INTERMEDIATE : GameDifficulty := ⟨(16, 16), 40⟩

def GameDifficulty.EXPERT : GameDifficulty := ⟨(30, 16), 100⟩

def GameDifficulty.CUSTOM : GameDifficulty := ⟨(100, 100), 10⟩

/-- `GameError` from `src/error.rs` (the `IoError` variant carries an OS
error and never arises in the engine; it is omitted). -/
inductive GameError where
  | InvalidBoardSize (n : Nat)
  | InvalidMinesCount (mines : Nat) (size : Nat)
  | InvalidCellPosition (x y : Nat)
deriving DecidableEq, Repr

/-- `RevealResult` from `src/game/models/board.rs`. -/
inductive RevealResult where
  | Continue
  | GameOver (pos : CellPosition)
  | CantReveal
deriving DecidableEq, Repr

/-- `isize::MAX`, used by the saturating arithmetic in the source. -/
def isizeMax : Int := 2 ^ 63 - 1

/-- `isize::MIN`. -/
def isizeMin : Int := -(2 ^ 63)

/-- `usize::MAX`. -/
def usizeMax : Nat := 2 ^ 64 - 1

/-- `isize::saturating_add 1`. -/
def isizeSatAddOne (n : Int) : Int := min (n + 1) isizeMax

/-- `isize::saturating_sub 1`. -/
def isizeSatSubOne (n : Int) : Int := max (n - 1) isizeMin

/-- `usize::saturating_add 1`. -/
def usizeSatAddOne (n : Nat) : Nat := min (n + 1) usizeMax

theorem usizeSatAddOne_eq {n bound : Nat} (h1 : n + 1 ≤ bound) (h2 : bound < 2 ^ 64) :
    usizeSatAddOne n = n + 1 := by
  unfold usizeSatAddOne usizeMax
  omega

/-- `Board` from `src/game/models/board.rs`: a square grid of side `size`,
indexed `cells[x][y]`. -/
structure Board where
  cells : List (List Cell)
  size : Nat
  mine_positions : List CellPosition
  revealed_count : Nat
  flagged_count : Int
deriving DecidableEq, Repr

/-- Read `cells[pos.x][pos.y]` (all reads in the source are behind bounds
checks, so the default is never observed in bounds). -/
def Board.cellAt (b : Board) (pos : CellPosition) : Cell :=
  ((b.cells.getD pos.x []).getD pos.y default)

/-- Write `cells[pos.x][pos.y] := f (cells[pos.x][pos.y])`; a no-op out of
range, matching the fact that the source only writes in bounds. -/
def Board.setCell (b : Board) (pos : CellPosition) (f : Cell → Cell) : Board :=
  { b with cells := b.cells.set pos.x ((b.cells.getD pos.x []).set pos.y (f ((b.cells.getD pos.x []).getD pos.y default))) }

/-- `Board::validate_position`. -/
def Board.validate_position (b : Board) (pos : CellPosition) : Except GameError Unit :=
  if pos.x ≥ b.size ∨ pos.y ≥ b.size then
    .error (.InvalidCellPosition pos.x pos.y)
  else
    .ok ()

/-- `Board::flag`: flags a hidden cell, incrementing `flagged_count`
(saturating) on success. -/
def Board.flag (b : Board) (pos : CellPosition) : Except GameError (Bool × Board) :=
  match b.validate_position pos with
  | .error e => .error e
  | .ok () =>
    let (was_flagged, c) := (b.cellAt pos).flag
    if was_flagged then
      .ok (true, { b.setCell pos (fun _ => c) with flagged_count := isizeSatAddOne b.flagged_count })
    else
      .ok (false, b)

/-- `Board::unflag`: unflags a flagged cell, decrementing `flagged_count`
(saturating) on success. -/
def Board.unflag (b : Board) (pos : CellPosition) : Except GameError (Bool × Board) :=
  match b.validate_position pos with
  | .error e => .error e
  | .ok () =>
    let (was_unflagged, c) := (b.cellAt pos).unflag
    if was_unflagged then
      .ok (true, { b.setCell pos (fun _ => c) with flagged_count := isizeSatSubOne b.flagged_count })
    else
      .ok (false, b)

/-- `Board::reveal`: the single-cell reveal primitive. -/
def Board.reveal (b : Board) (pos : CellPosition) : Except GameError (RevealResult × Board) :=
  match b.validate_position pos with
  | .error e => .error e
  | .ok () =>
    if (b.cellAt pos).is_revealed ∨ (b.cellAt pos).is_flagged then
      .ok (.CantReveal, b)
    else
      let b1 := b.setCell pos Cell.reveal
      if (b1.cellAt pos).is_mine then
        .ok (.GameOver pos, b1)
      else
        .ok (.Continue, { b1 with revealed_count := usizeSatAddOne b1.revealed_count })

/-- The eight neighbor offsets from `Board::adjacent_positions`. -/
def OFFSETS : List (Int × Int) :=
  [(-1, -1), (-1, 0), (-1, 1), (0, -1), (0, 1), (1, -1), (1, 0), (1, 1)]

/-- `usize::checked_add_signed` for our `Nat`/`Int` model: `none` exactly
when the sum would go below zero. -/
def checkedAddSigned (n : Nat) (d : Int) : Option Nat :=
  if 0 ≤ (n : Int) + d then some ((n : Int) + d).toNat else none

/-- `Board::adjacent_positions`: the in-bounds 8-neighbors of `pos`. -/
def Board.adjacent_positions (b : Board) (pos : CellPosition) : List CellPosition :=
  OFFSETS.filterMap fun od =>
    (checkedAddSigned pos.x od.1).bind fun nx =>
      (checkedAddSigned pos.y od.2).bind fun ny =>
        if nx < b.size ∧ ny < b.size then some ⟨nx, ny⟩ else none

/-- Record a freshly placed mine: set the cell content and insert the
position into the mine set. -/
def Board.addMine (b : Board) (pos : CellPosition) : Board :=
  { b.setCell pos (fun c => { c with content := .Mine }) with
      mine_positions := pos :: b.mine_positions }

/-- The loop body of `Board::place_mines`, consuming successive RNG draws:
while mines are still needed, a draw on a non-mine cell places a mine there,
a draw on an existing mine is skipped.  Stops early if draws run out. -/
def Board.place_mines_aux : Board → Nat → List CellPosition → Board
  | b, _, [] => b
  | b, remaining, d :: rest =>
    if remaining = 0 then b
    else if (b.cellAt d).is_mine then b.place_mines_aux remaining rest
    else (b.addMine d).place_mines_aux (remaining - 1) rest

/-- `Board::place_mines`, with the `fastrand` RNG replaced by the list of
positions it would draw. -/
def Board.place_mines (b : Board) (mines_count : Nat) (draws : List CellPosition) : Board :=
  b.place_mines_aux mines_count draws

/-- Apply `CellContent::add_one` to every cell in `ps` (the inner loop of
`Board::calculate_adjacent_mines`). -/
def Board.bumpAll (b : Board) (ps : List CellPosition) : Board :=
  ps.foldl (fun acc q => acc.setCell q (fun c => { c with content := c.content.add_one })) b

/-- `Board::calculate_adjacent_mines`: for every mine, increment the count
of each of its in-bounds neighbors (`add_one` is a no-op on mines). -/
def Board.calculate_adjacent_mines (b : Board) : Board :=
  b.mine_positions.foldl (fun acc m => acc.bumpAll (acc.adjacent_positions m)) b

/-- `Board::reveal_mines`: reveal every mine that is not flagged (used on
loss). -/
def Board.reveal_mines (b : Board) : Board :=
  b.mine_positions.foldl
    (fun acc m => if (acc.cellAt m).is_flagged then acc else acc.setCell m Cell.reveal) b

/-- `Board::flag_mines`: flag every mine (used on win).  Note that the
source calls `Cell::flag` directly on the grid and drops the returned
boolean, so `Board.flagged_count` is *not* updated here. -/
def Board.flag_mines (b : Board) : Board :=
  b.mine_positions.foldl (fun acc m => acc.setCell m (fun c => (c.flag).2)) b

/-- `Board::cell`: bounds-checked read access. -/
def Board.cell (b : Board) (pos : CellPosition) : Except GameError Cell :=
  match b.validate_position pos with
  | .error e => .error e
  | .ok () => .ok (b.cellAt pos)

/-- The all-hidden all-`Empty` grid allocated by `Board::new`. -/
def Board.blankGrid (size : Nat) : List (List Cell) :=
  List.replicate size (List.replicate size ({} : Cell))

/-- The freshly allocated board (before mine placement) of `Board::new`. -/
def Board.blankBoard (size : Nat) : Board :=
  { cells := Board.blankGrid size
    size := size
    mine_positions := []
    revealed_count := 0
    flagged_count := 0 }

/-- `Board::new` from `src/game/models/board.rs` (which reads
`difficulty.board_size` as a single square side): validate, allocate a blank
grid, place the mines, compute the adjacency counts. -/
def Board.new (size mines_count : Nat) (draws : List CellPosition) : Except GameError Board :=
  if size = 0 then .error (.InvalidBoardSize 0)
  else if mines_count ≥ size ^ 2 ∨ mines_count = 0 then
    .error (.InvalidMinesCount mines_count size)
  else
    .ok (((Board.blankBoard size).place_mines mines_count draws).calculate_adjacent_mines)

/-- Modelled from the spec: the loop body of
`Board::generate_mines(difficulty, excluded, pre_flagged)` — the constructor
variant called by `GameState::start_game` with signature
`Board::new(difficulty, revealed_cell, Some(&flagged_cells))`, which is not
among the provided sources.  Per spec §4.1/§9 it samples positions until
`mines_count` distinct, non-excluded, non-pre-flagged positions are chosen. -/
def Board.place_mines_excl_aux (excluded : CellPosition) (preFlagged : Finset CellPosition) :
    Board → Nat → List CellPosition → Board
  | b, _, [] => b
  | b, remaining, d :: rest =>
    if remaining = 0 then b
    else if d = excluded ∨ d ∈ preFlagged ∨ (b.cellAt d).is_mine then
      Board.place_mines_excl_aux excluded preFlagged b remaining rest
    else
      Board.place_mines_excl_aux excluded preFlagged (b.addMine d) (remaining - 1) rest

/-- Modelled from the spec: `Board::new(difficulty, excluded, pre_flagged)`
as called by `GameState` — allocate a blank grid, generate mines avoiding
the excluded cell and the pre-flagged cells, then compute adjacency counts.
The board is square of side `difficulty.board_size.0` (the source `Board`
stores a single square side). -/
def Board.newExcluding (d : GameDifficulty) (excluded : CellPosition)
    (preFlagged : Finset CellPosition) (draws : List CellPosition) : Except GameError Board :=
  let size := d.board_size.1
  if size = 0 then .error (.InvalidBoardSize 0)
  else if d.mines_count ≥ size ^ 2 ∨ d.mines_count = 0 then
    .error (.InvalidMinesCount d.mines_count size)
  else
    .ok ((Board.place_mines_excl_aux excluded preFlagged (Board.blankBoard size)
      d.mines_count draws).calculate_adjacent_mines)

/-- Modelled from the spec: `Board::validate_difficulty` (called by
`GameState::new`, not among the provided sources).  Spec §4.2: valid iff
`width>0 ∧ height>0 ∧ 0<mines_count<width*height`. -/
def Board.validate_difficulty (d : GameDifficulty) : Except GameError Unit :=
  if d.board_size.1 = 0 ∨ d.board_size.2 = 0 then .error (.InvalidBoardSize 0)
  else if d.mines_count = 0 ∨ d.mines_count ≥ d.board_size.1 * d.board_size.2 then
    .error (.InvalidMinesCount d.mines_count d.board_size.1)
  else .ok ()

/-- `GameState` from `src/game/state.rs`.  `start_time : Option Instant`
becomes `Option Unit` (only "is the clock started" is observable here). -/
structure GameState where
  board : Board
  difficulty : GameDifficulty
  status : GameStatus
  start_time : Option Unit
  elapsed_seconds : Nat
  revealed_cells : Finset CellPosition
  flagged_cells : Finset CellPosition
  custom_flags_remaining : Int
deriving DecidableEq

/-- `difficulty.mines_count.try_into().unwrap_or(isize::MAX)`. -/
def GameState.mines_count_isize (gs : GameState) : Int :=
  min (gs.difficulty.mines_count : Int) isizeMax

/-- `GameState::new` (the discarded initial board is built through the
started-board constructor, as in the source). -/
def GameState.new (difficulty : GameDifficulty) (draws : List CellPosition) :
    Except GameError GameState :=
  match Board.validate_difficulty difficulty with
  | .error e => .error e
  | .ok () =>
    match Board.newExcluding difficulty ⟨0, 0⟩ ∅ draws with
    | .error e => .error e
    | .ok b =>
      .ok { board := b
            difficulty := difficulty
            status := .New
            start_time := none
            elapsed_seconds := 0
            revealed_cells := ∅
            flagged_cells := ∅
            custom_flags_remaining := 0 }

/-- `GameState::check_win_condition`: if every non-mine cell is revealed and
the game is not lost, transition to `Won`, flag all mines on the board and
add them to `flagged_cells`. -/
def GameState.check_win_condition (gs : GameState) : Bool × GameState :=
  if gs.board.revealed_count =
      gs.difficulty.board_size.1 * gs.difficulty.board_size.2 - gs.difficulty.mines_count
      ∧ gs.status.is_lost = false then
    let b := gs.board.flag_mines
    (true, { gs with
               status := .Won
               board := b
               flagged_cells := gs.flagged_cells ∪ b.mine_positions.toFinset })
  else
    (false, gs)

/-- `GameState::start_game`: start the clock, build the real (mined) board
excluding the first revealed cell and the pre-flagged cells, and move to
`InProgress`.  The source `.expect`s the constructor to succeed; the error
fallback keeps the old board and is unreachable for valid difficulties. -/
def GameState.start_game (gs : GameState) (revealed_cell : CellPosition)
    (draws : List CellPosition) : GameState :=
  let b :=
    match Board.newExcluding gs.difficulty revealed_cell gs.flagged_cells draws with
    | .ok b => b
    | .error _ => gs.board
  { gs with start_time := some (), board := b, status := .InProgress }

/-- The loop of `GameState::reveal_area`, with explicit queue, visited set
and fuel (`none` = fuel exhausted; the public wrapper supplies fuel that is
proven sufficient).  The inner `self.board.cell(adj_pos)?` reads of the
source are modelled as direct reads: `adjacent_positions` only returns
in-bounds positions of the same board, so those reads cannot error. -/
def GameState.reveal_area_go :
    Nat → GameState → List CellPosition → Finset CellPosition →
    Option (Except GameError (RevealResult × GameState))
  | 0, _, _, _ => none
  | _ + 1, gs, [], _ => some (.ok (.Continue, gs))
  | fuel + 1, gs, pos :: queue, visited =>
    match gs.board.reveal pos with
    | .error e => some (.error e)
    | .ok (.CantReveal, b) => some (.ok (.CantReveal, { gs with board := b }))
    | .ok (.GameOver mine_pos, b) =>
      let b2 := b.reveal_mines
      some (.ok (.GameOver mine_pos,
        { gs with
            board := b2
            status := .Lost
            revealed_cells := insert pos gs.revealed_cells ∪ b2.mine_positions.toFinset }))
    | .ok (.Continue, b) =>
      let gs1 := { gs with board := b, revealed_cells := insert pos gs.revealed_cells }
      if (gs1.board.cellAt pos).is_empty then
        let step :=
          (gs1.board.adjacent_positions pos).foldl
            (fun (acc : Finset CellPosition × List CellPosition) adj =>
              if adj ∈ acc.1 then acc
              else
                let c := gs1.board.cellAt adj
                if c.is_revealed = false ∧ c.is_flagged = false then
                  (insert adj acc.1, acc.2 ++ [adj])
                else
                  (insert adj acc.1, acc.2))
            (visited, queue)
        GameState.reveal_area_go fuel gs1 step.2 step.1
      else
        GameState.reveal_area_go fuel gs1 queue visited

/-- `GameState::reveal_area`: breadth-first flood fill seeded with
`start_pos`, with fuel `size² + 2` (proven sufficient below). -/
def GameState.reveal_area (gs : GameState) (start_pos : CellPosition) :
    Option (Except GameError (RevealResult × GameState)) :=
  GameState.reveal_area_go (gs.board.size ^ 2 + 2) gs [start_pos] {start_pos}

/-- `GameState::reveal_cell`.  `draws` feeds the deferred mine generation
when the game is still `New`. -/
def GameState.reveal_cell (gs : GameState) (draws : List CellPosition) (pos : CellPosition) :
    Option (Except GameError (RevealResult × GameState)) :=
  match gs.board.cell pos with
  | .error e => some (.error e)
  | .ok c =>
    if c.is_revealed ∨ c.is_flagged then some (.ok (.CantReveal, gs))
    else
      let gs1 := if gs.status.is_new then gs.start_game pos draws else gs
      match gs1.reveal_area pos with
      | none => none
      | some (.error e) => some (.error e)
      | some (.ok (.Continue, gs2)) =>
        let gs3 := if gs2.status.is_lost = false then (gs2.check_win_condition).2 else gs2
        some (.ok (.Continue, gs3))
      | some (.ok (.GameOver mp, gs2)) => some (.ok (.GameOver mp, gs2))
      | some (.ok (.CantReveal, gs2)) => some (.ok (.CantReveal, gs2))

/-- `GameState::toggle_flag`. -/
def GameState.toggle_flag (gs : GameState) (pos : CellPosition) :
    Except GameError (Bool × GameState) :=
  if gs.status.is_over then .ok (false, gs)
  else
    match gs.board.cell pos with
    | .error e => .error e
    | .ok c =>
      if c.is_flagged then
        let gs1 := { gs with flagged_cells := gs.flagged_cells.erase pos }
        match gs1.board.unflag pos with
        | .error e => .error e
        | .ok (toggled, b) => .ok (toggled, { gs1 with board := b })
      else if c.is_hidden then
        let gs1 := { gs with flagged_cells := insert pos gs.flagged_cells }
        match gs1.board.flag pos with
        | .error e => .error e
        | .ok (toggled, b) => .ok (toggled, { gs1 with board := b })
      else
        .ok (false, gs)

/-- `GameState::flags_remaining`: returns the animated counter until it has
caught up with `mines_count`, then the live `mines_count - flagged_count`. -/
def GameState.flags_remaining (gs : GameState) : Int :=
  if gs.custom_flags_remaining < gs.mines_count_isize then gs.custom_flags_remaining
  else gs.mines_count_isize - gs.board.flagged_count

/-- `GameState::elapsed_seconds`: display value clamped at 999. -/
def GameState.elapsed_seconds_display (gs : GameState) : Nat :=
  if gs.elapsed_seconds < 999 then gs.elapsed_seconds else 999

/-- `GameState::tick`.  `measured_elapsed` stands for
`start_time.elapsed().as_secs()`, which depends on the wall clock. -/
def GameState.tick (gs : GameState) (measured_elapsed : Nat) : GameState :=
  let gs1 :=
    if gs.status.is_in_progress && gs.start_time.isSome then
      { gs with elapsed_seconds := measured_elapsed }
    else gs
  if gs1.custom_flags_remaining < gs1.mines_count_isize then
    { gs1 with custom_flags_remaining := isizeSatAddOne gs1.custom_flags_remaining }
  else gs1

/-- The aggregation loop of `GameState::chording` over the pre-computed list
of hidden neighbors. -/
def GameState.chord_loop (draws : List CellPosition) :
    GameState → List CellPosition → Bool → CellPosition → Bool →
    Option (Except GameError (RevealResult × GameState))
  | gs, [], game_over, end_cell, revealed =>
    if game_over then some (.ok (.GameOver end_cell, gs))
    else if revealed then some (.ok (.Continue, gs))
    else some (.ok (.CantReveal, gs))
  | gs, adj :: rest, game_over, end_cell, revealed =>
    match gs.reveal_cell draws adj with
    | none => none
    | some (.error e) => some (.error e)
    | some (.ok (.GameOver mp, gs1)) => GameState.chord_loop draws gs1 rest true mp revealed
    | some (.ok (.Continue, gs1)) => GameState.chord_loop draws gs1 rest game_over end_cell true
    | some (.ok (.CantReveal, gs1)) =>
      GameState.chord_loop draws gs1 rest game_over end_cell revealed

/-- `GameState::chording`: reveal all hidden neighbors of a revealed cell
whose flagged-neighbor count matches its number. -/
def GameState.chording (gs : GameState) (draws : List CellPosition) (pos : CellPosition) :
    Option (Except GameError (RevealResult × GameState)) :=
  if gs.status.is_over then some (.ok (.CantReveal, gs))
  else
    match gs.board.cell pos with
    | .error e => some (.error e)
    | .ok c =>
      if c.is_hidden ∨ c.is_flagged then some (.ok (.CantReveal, gs))
      else
        let adj := gs.board.adjacent_positions pos
        let flagged_adjacent := adj.countP (fun q => (gs.board.cellAt q).is_flagged)
        let hidden := adj.filter
          (fun q => (gs.board.cellAt q).is_flagged = false ∧ (gs.board.cellAt q).is_hidden)
        if flagged_adjacent ≠ (gs.board.cellAt pos).content.as_number then
          some (.ok (.CantReveal, gs))
        else
          GameState.chord_loop draws gs hidden false ⟨0, 0⟩ false

/-! ## Basic lemmas: list access, cell predicates -/

theorem List.getD_set_self {α : Type _} (l : List α) (i : Nat) (a d : α) (h : i < l.length) :
    (l.set i a).getD i d = a := by
  induction l generalizing i with
  | nil => simp at h
  | cons hd tl ih =>
    cases i with
    | zero => simp [List.getD]
    | succ j => simpa [List.getD] using ih j (by simpa using h)

theorem List.getD_set_ne {α : Type _} (l : List α) (i j : Nat) (a d : α) (h : i ≠ j) :
    (l.set i a).getD j d = l.getD j d := by
  induction l generalizing i j with
  | nil => simp
  | cons hd tl ih =>
    cases i with
    | zero =>
      cases j with
      | zero => exact absurd rfl h
      | succ k => simp [List.getD]
    | succ i' =>
      cases j with
      | zero => simp [List.getD]
      | succ k => simpa [List.getD] using ih i' k (by omega)

theorem List.getD_set_oob {α : Type _} (l : List α) (i j : Nat) (a d : α) (h : l.length ≤ i) :
    (l.set i a).getD j d = l.getD j d := by
  rw [List.set_eq_of_length_le h]

theorem List.getD_replicate_lt {α : Type _} (n i : Nat) (a d : α) (h : i < n) :
    (List.replicate n a).getD i d = a := by
  rw [List.getD_eq_getElem _ _ (by simpa using h)]
  exact List.getElem_replicate _ _

theorem Cell.is_hidden_iff (c : Cell) : c.is_hidden = true ↔ c.state = .Hidden := by
  simp [Cell.is_hidden]

theorem Cell.is_revealed_iff (c : Cell) : c.is_revealed = true ↔ c.state = .Revealed := by
  simp [Cell.is_revealed]

theorem Cell.is_flagged_iff (c : Cell) : c.is_flagged = true ↔ c.state = .Flagged := by
  simp [Cell.is_flagged]

theorem Cell.is_mine_iff (c : Cell) : c.is_mine = true ↔ c.content = .Mine := by
  simp [Cell.is_mine]

theorem Cell.is_empty_iff (c : Cell) : c.is_empty = true ↔ c.content = .Empty := by
  simp [Cell.is_empty]

/-! ## Grid shape and `setCell`/`cellAt` interaction -/

/-- The grid really is a `size × size` matrix (true of every board the code
builds, and preserved by every operation). -/
def Board.Shaped (b : Board) : Prop :=
  b.cells.length = b.size ∧ ∀ i, i < b.size → (b.cells.getD i []).length = b.size

theorem Board.shaped_blank (size : Nat) mines rc fc :
    Board.Shaped { cells := Board.blankGrid size, size := size, mine_positions := mines,
                   revealed_count := rc, flagged_count := fc } := by
  constructor
  · simp [Board.blankGrid]
  · intro i hi
    simp only [Board.blankGrid]
    rw [List.getD_replicate_lt _ _ _ _ hi]
    simp

@[simp] theorem Board.setCell_size (b : Board) (p : CellPosition) (f : Cell → Cell) :
    (b.setCell p f).size = b.size := rfl

@[simp] theorem Board.setCell_mine_positions (b : Board) (p : CellPosition) (f : Cell → Cell) :
    (b.setCell p f).mine_positions = b.mine_positions := rfl

@[simp] theorem Board.setCell_revealed_count (b : Board) (p : CellPosition) (f : Cell → Cell) :
    (b.setCell p f).revealed_count = b.revealed_count := rfl

@[simp] theorem Board.setCell_flagged_count (b : Board) (p : CellPosition) (f : Cell → Cell) :
    (b.setCell p f).flagged_count = b.flagged_count := rfl

theorem Board.shaped_setCell {b : Board} (hb : b.Shaped) (p : CellPosition) (f : Cell → Cell) :
    (b.setCell p f).Shaped := by
  obtain ⟨h1, h2⟩ := hb
  constructor
  · simpa [Board.setCell] using h1
  · intro i hi
    simp only [Board.setCell_size] at hi
    simp only [Board.setCell]
    by_cases hx : p.x = i
    · subst hx
      by_cases hlen : p.x < b.cells.length
      · rw [List.getD_set_self _ _ _ _ hlen]
        simpa using h2 p.x hi
      · rw [List.getD_set_oob _ _ _ _ _ (by omega)]
        exact h2 _ hi
    · rw [List.getD_set_ne _ _ _ _ _ hx]
      exact h2 _ hi

theorem Board.cellAt_setCell_self {b : Board} (hb : b.Shaped) {p : CellPosition}
    (hx : p.x < b.size) (hy : p.y < b.size) (f : Cell → Cell) :
    (b.setCell p f).cellAt p = f (b.cellAt p) := by
  obtain ⟨h1, h2⟩ := hb
  simp only [Board.setCell, Board.cellAt]
  rw [List.getD_set_self _ _ _ _ (by omega)]
  rw [List.getD_set_self _ _ _ _ (by rw [h2 p.x hx]; omega)]

theorem Board.cellAt_setCell_ne {b : Board} {p q : CellPosition} (h : q ≠ p) (f : Cell → Cell) :
    (b.setCell p f).cellAt q = b.cellAt q := by
  simp only [Board.setCell, Board.cellAt]
  by_cases hx : p.x = q.x
  · have hy : p.y ≠ q.y := by
      intro hy
      exact h (by cases p; cases q; simp_all)
    by_cases hlen : p.x < b.cells.length
    · rw [hx, List.getD_set_self _ _ _ _ (hx ▸ hlen)]
      rw [List.getD_set_ne _ _ _ _ _ hy]
    · rw [List.getD_set_oob _ _ _ _ _ (by omega)]
  · rw [List.getD_set_ne _ _ _ _ _ hx]

/-! ## Adjacency characterization -/

/-- `q` is one of the eight grid neighbors of `p` (bounds not included). -/
def isNeighbor (p q : CellPosition) : Prop :=
  q ≠ p ∧ ((q.x : Int) - p.x).natAbs ≤ 1 ∧ ((q.y : Int) - p.y).natAbs ≤ 1

instance (p q : CellPosition) : Decidable (isNeighbor p q) := by
  unfold isNeighbor; infer_instance

theorem adjacent_entry_eq_some {b : Board} {p q : CellPosition} (od : Int × Int) :
    ((checkedAddSigned p.x od.1).bind fun nx =>
      (checkedAddSigned p.y od.2).bind fun ny =>
        if nx < b.size ∧ ny < b.size then some ⟨nx, ny⟩ else none) = some q
    ↔ ((q.x : Int) = p.x + od.1 ∧ (q.y : Int) = p.y + od.2 ∧ q.x < b.size ∧ q.y < b.size) := by
  simp only [checkedAddSigned]
  by_cases h1 : 0 ≤ (p.x : Int) + od.1
  · by_cases h2 : 0 ≤ (p.y : Int) + od.2
    · rw [if_pos h1, if_pos h2]
      simp only [Option.some_bind, Option.ite_none_right_eq_some, Option.some.injEq]
      constructor
      · rintro ⟨⟨hx, hy⟩, rfl⟩
        refine ⟨?_, ?_, ?_, ?_⟩ <;> dsimp only <;> omega
      · rintro ⟨hx, hy, hbx, hby⟩
        obtain ⟨qx, qy⟩ := q
        dsimp only at hx hy hbx hby
        refine ⟨⟨by omega, by omega⟩, ?_⟩
        simp only [CellPosition.mk.injEq]
        constructor <;> omega
    · rw [if_pos h1, if_neg h2]
      simp only [Option.some_bind, Option.none_bind]
      constructor
      · intro h; exact absurd h (by simp)
      · rintro ⟨hx, hy, _, _⟩; omega
  · rw [if_neg h1]
    simp only [Option.none_bind]
    constructor
    · intro h; exact absurd h (by simp)
    · rintro ⟨hx, hy, _, _⟩; omega

theorem mem_offsets_iff (a b : Int) :
    (a, b) ∈ OFFSETS ↔
      (a = -1 ∨ a = 0 ∨ a = 1) ∧ (b = -1 ∨ b = 0 ∨ b = 1) ∧ ¬(a = 0 ∧ b = 0) := by
  simp only [OFFSETS, List.mem_cons, List.not_mem_nil, or_false, Prod.mk.injEq]
  omega

theorem offsets_shape {od : Int × Int} (hod : od ∈ OFFSETS) :
    (od.1 = -1 ∨ od.1 = 0 ∨ od.1 = 1) ∧ (od.2 = -1 ∨ od.2 = 0 ∨ od.2 = 1) ∧
      ¬(od.1 = 0 ∧ od.2 = 0) := by
  simp only [OFFSETS, List.mem_cons, List.not_mem_nil, or_false] at hod
  rcases hod with rfl | rfl | rfl | rfl | rfl | rfl | rfl | rfl <;> simp

theorem Board.mem_adjacent_iff {b : Board} {p q : CellPosition} :
    q ∈ b.adjacent_positions p ↔ q.x < b.size ∧ q.y < b.size ∧ isNeighbor p q := by
  simp only [Board.adjacent_positions, List.mem_filterMap]
  constructor
  · rintro ⟨od, hod, hf⟩
    rw [adjacent_entry_eq_some] at hf
    obtain ⟨hx, hy, hbx, hby⟩ := hf
    obtain ⟨hd1, hd2, hd0⟩ := offsets_shape hod
    refine ⟨hbx, hby, ?_, by omega, by omega⟩
    intro hqp
    subst hqp
    exact hd0 ⟨by omega, by omega⟩
  · rintro ⟨hbx, hby, hne, hax, hay⟩
    refine ⟨((q.x : Int) - p.x, (q.y : Int) - p.y), ?_, ?_⟩
    · have hne' : ¬(q.x = p.x ∧ q.y = p.y) := by
        rintro ⟨h1, h2⟩
        exact hne (by cases p; cases q; simp_all)
      rw [mem_offsets_iff]
      omega
    · rw [adjacent_entry_eq_some]
      exact ⟨by omega, by omega, hbx, hby⟩

theorem Board.adjacent_nodup (b : Board) (p : CellPosition) :
    (b.adjacent_positions p).Nodup := by
  apply List.Nodup.filterMap
  · intro od od' q hq hq'
    rw [Option.mem_def, adjacent_entry_eq_some] at hq hq'
    obtain ⟨h1, h2, _, _⟩ := hq
    obtain ⟨h1', h2', _, _⟩ := hq'
    cases od; cases od'
    simp only [Prod.mk.injEq]
    constructor <;> omega
  · decide

theorem Board.adjacent_length_le (b : Board) (p : CellPosition) :
    (b.adjacent_positions p).length ≤ 8 := by
  have h := List.length_filterMap_le
    (fun od : Int × Int =>
      (checkedAddSigned p.x od.1).bind fun nx =>
        (checkedAddSigned p.y od.2).bind fun ny =>
          if nx < b.size ∧ ny < b.size then some (CellPosition.mk nx ny) else none) OFFSETS
  simpa [Board.adjacent_positions, OFFSETS] using h

theorem isNeighbor_symm {p q : CellPosition} (h : isNeighbor p q) : isNeighbor q p := by
  obtain ⟨h1, h2, h3⟩ := h
  exact ⟨Ne.symm h1, by omega, by omega⟩

theorem Board.mem_adjacent_symm {b : Board} {p q : CellPosition}
    (h : q ∈ b.adjacent_positions p) (hx : p.x < b.size) (hy : p.y < b.size) :
    p ∈ b.adjacent_positions q := by
  rw [Board.mem_adjacent_iff] at h ⊢
  exact ⟨hx, hy, isNeighbor_symm h.2.2⟩

theorem Board.self_not_mem_adjacent (b : Board) (p : CellPosition) :
    p ∉ b.adjacent_positions p := by
  rw [Board.mem_adjacent_iff]
  rintro ⟨_, _, h, _, _⟩
  exact h rfl

theorem Board.adjacent_congr {b b' : Board} (h : b.size = b'.size) (p : CellPosition) :
    b.adjacent_positions p = b'.adjacent_positions p := by
  simp [Board.adjacent_positions, h]

theorem Board.mem_adjacent_bounds {b : Board} {p q : CellPosition}
    (h : q ∈ b.adjacent_positions p) : q.x < b.size ∧ q.y < b.size := by
  rw [Board.mem_adjacent_iff] at h
  exact ⟨h.1, h.2.1⟩

/-! ## Content arithmetic -/

theorem CellContent.add_one_eq_mine_iff (c : CellContent) :
    c.add_one = .Mine ↔ c = .Mine := by
  cases c <;> simp [CellContent.add_one]

theorem CellContent.add_one_mine : CellContent.Mine.add_one = .Mine := rfl

theorem CellContent.iterate_add_one_mine (k : Nat) :
    CellContent.add_one^[k] .Mine = .Mine := by
  induction k with
  | zero => rfl
  | succ n ih => rw [Function.iterate_succ_apply, CellContent.add_one_mine, ih]

theorem CellContent.iterate_add_one_eq_mine_iff (k : Nat) (c : CellContent) :
    CellContent.add_one^[k] c = .Mine ↔ c = .Mine := by
  induction k generalizing c with
  | zero => simp
  | succ n ih =>
    rw [Function.iterate_succ_apply, ih, CellContent.add_one_eq_mine_iff]

theorem CellContent.iterate_add_one_empty (k : Nat) (h : k ≤ 8) :
    CellContent.add_one^[k] .Empty = CellContent.ofCount k := by
  interval_cases k <;> rfl

theorem CellContent.ofCount_eq_empty_iff (k : Nat) :
    CellContent.ofCount k = .Empty ↔ k = 0 := by
  match k with
  | 0 => simp [CellContent.ofCount]
  | 1 => simp [CellContent.ofCount]
  | 2 => simp [CellContent.ofCount]
  | 3 => simp [CellContent.ofCount]
  | 4 => simp [CellContent.ofCount]
  | 5 => simp [CellContent.ofCount]
  | 6 => simp [CellContent.ofCount]
  | 7 => simp [CellContent.ofCount]
  | n + 8 => simp [CellContent.ofCount]

theorem CellContent.add_one_ne_empty (c : CellContent) : c.add_one ≠ .Empty := by
  cases c <;> simp [CellContent.add_one]

theorem CellContent.iterate_add_one_ne_empty (k : Nat) (c : CellContent) (hk : k ≠ 0) :
    CellContent.add_one^[k] c ≠ .Empty := by
  match k, hk with
  | n + 1, _ =>
    rw [Function.iterate_succ_apply']
    exact CellContent.add_one_ne_empty _

/-! ## `bumpAll` and `calculate_adjacent_mines` -/

theorem Board.bumpAll_nil (b : Board) : b.bumpAll [] = b := rfl

theorem Board.bumpAll_cons (b : Board) (r : CellPosition) (rest : List CellPosition) :
    b.bumpAll (r :: rest) =
      (b.setCell r fun c => { c with content := c.content.add_one }).bumpAll rest := rfl

theorem Board.bumpAll_size (b : Board) (ps : List CellPosition) :
    (b.bumpAll ps).size = b.size := by
  induction ps generalizing b with
  | nil => rfl
  | cons r rest ih => rw [Board.bumpAll_cons, ih]; rfl

theorem Board.bumpAll_mine_positions (b : Board) (ps : List CellPosition) :
    (b.bumpAll ps).mine_positions = b.mine_positions := by
  induction ps generalizing b with
  | nil => rfl
  | cons r rest ih => rw [Board.bumpAll_cons, ih]; rfl

theorem Board.bumpAll_revealed_count (b : Board) (ps : List CellPosition) :
    (b.bumpAll ps).revealed_count = b.revealed_count := by
  induction ps generalizing b with
  | nil => rfl
  | cons r rest ih => rw [Board.bumpAll_cons, ih]; rfl

theorem Board.bumpAll_flagged_count (b : Board) (ps : List CellPosition) :
    (b.bumpAll ps).flagged_count = b.flagged_count := by
  induction ps generalizing b with
  | nil => rfl
  | cons r rest ih => rw [Board.bumpAll_cons, ih]; rfl

theorem Board.bumpAll_shaped {b : Board} (hb : b.Shaped) (ps : List CellPosition) :
    (b.bumpAll ps).Shaped := by
  induction ps generalizing b with
  | nil => exact hb
  | cons r rest ih => rw [Board.bumpAll_cons]; exact ih (Board.shaped_setCell hb _ _)

theorem Board.bumpAll_cellAt {b : Board} (hb : b.Shaped) {ps : List CellPosition}
    (hps : ∀ r ∈ ps, r.x < b.size ∧ r.y < b.size) (q : CellPosition) :
    (b.bumpAll ps).cellAt q =
      { b.cellAt q with content := CellContent.add_one^[ps.count q] (b.cellAt q).content } := by
  induction ps generalizing b with
  | nil => simp [Board.bumpAll_nil, List.count_nil]
  | cons r rest ih =>
    rw [Board.bumpAll_cons]
    have hr := hps r (List.mem_cons_self r rest)
    have hrest : ∀ r' ∈ rest, r'.x < b.size ∧ r'.y < b.size :=
      fun r' hr' => hps r' (List.mem_cons_of_mem r hr')
    rw [ih (Board.shaped_setCell hb _ _) (by simpa using hrest)]
    by_cases hqr : q = r
    · subst hqr
      rw [Board.cellAt_setCell_self hb hr.1 hr.2]
      rw [List.count_cons_self]
      cases hcell : b.cellAt q with
      | mk content state bs =>
        rw [Function.iterate_succ_apply]
    · rw [Board.cellAt_setCell_ne hqr]
      rw [List.count_cons_of_ne hqr]

theorem Board.calcFold_cellAt {ms : List CellPosition} {b : Board} (hb : b.Shaped)
    (q : CellPosition) :
    (ms.foldl (fun acc m => acc.bumpAll (acc.adjacent_positions m)) b).cellAt q =
      { b.cellAt q with
          content :=
            CellContent.add_one^[ms.countP (fun m => decide (q ∈ b.adjacent_positions m))]
              (b.cellAt q).content } := by
  induction ms generalizing b with
  | nil => simp
  | cons m rest ih =>
    rw [List.foldl_cons]
    have hsz : (b.bumpAll (b.adjacent_positions m)).size = b.size := Board.bumpAll_size b _
    have hshape : (b.bumpAll (b.adjacent_positions m)).Shaped := Board.bumpAll_shaped hb _
    rw [ih hshape]
    have hadj : ∀ p : CellPosition,
        (b.bumpAll (b.adjacent_positions m)).adjacent_positions p = b.adjacent_positions p :=
      fun p => Board.adjacent_congr hsz p
    simp only [hadj]
    rw [Board.bumpAll_cellAt hb (fun r hr => (Board.mem_adjacent_bounds hr)) q]
    have hcount : (b.adjacent_positions m).count q =
        if q ∈ b.adjacent_positions m then 1 else 0 := by
      by_cases hq : q ∈ b.adjacent_positions m
      · rw [if_pos hq]
        exact List.nodup_iff_count_eq_one.mp (Board.adjacent_nodup b m) q hq
      · rw [if_neg hq, List.count_eq_zero]
        exact hq
    rw [hcount, List.countP_cons]
    cases hcell : b.cellAt q with
    | mk content state bs =>
      simp only []
      by_cases hq : q ∈ b.adjacent_positions m
      · rw [if_pos hq, if_pos (by simpa using hq)]
        rw [Function.iterate_add_apply]
      · rw [if_neg hq, if_neg (by simpa using hq)]
        rfl

theorem Board.calculate_cellAt {b : Board} (hb : b.Shaped) (q : CellPosition) :
    b.calculate_adjacent_mines.cellAt q =
      { b.cellAt q with
          content :=
            CellContent.add_one^[b.mine_positions.countP
                (fun m => decide (q ∈ b.adjacent_positions m))]
              (b.cellAt q).content } :=
  Board.calcFold_cellAt hb q

theorem Board.calcFold_size (ms : List CellPosition) (b : Board) :
    (ms.foldl (fun acc m => acc.bumpAll (acc.adjacent_positions m)) b).size = b.size := by
  induction ms generalizing b with
  | nil => rfl
  | cons m rest ih => rw [List.foldl_cons, ih, Board.bumpAll_size]

theorem Board.calculate_size (b : Board) : b.calculate_adjacent_mines.size = b.size :=
  Board.calcFold_size b.mine_positions b

theorem Board.calcFold_mine_positions (ms : List CellPosition) (b : Board) :
    (ms.foldl (fun acc m => acc.bumpAll (acc.adjacent_positions m)) b).mine_positions =
      b.mine_positions := by
  induction ms generalizing b with
  | nil => rfl
  | cons m rest ih => rw [List.foldl_cons, ih, Board.bumpAll_mine_positions]

theorem Board.calculate_mine_positions (b : Board) :
    b.calculate_adjacent_mines.mine_positions = b.mine_positions :=
  Board.calcFold_mine_positions b.mine_positions b

theorem Board.calcFold_revealed_count (ms : List CellPosition) (b : Board) :
    (ms.foldl (fun acc m => acc.bumpAll (acc.adjacent_positions m)) b).revealed_count =
      b.revealed_count := by
  induction ms generalizing b with
  | nil => rfl
  | cons m rest ih => rw [List.foldl_cons, ih, Board.bumpAll_revealed_count]

theorem Board.calculate_revealed_count (b : Board) :
    b.calculate_adjacent_mines.revealed_count = b.revealed_count :=
  Board.calcFold_revealed_count b.mine_positions b

theorem Board.calcFold_flagged_count (ms : List CellPosition) (b : Board) :
    (ms.foldl (fun acc m => acc.bumpAll (acc.adjacent_positions m)) b).flagged_count =
      b.flagged_count := by
  induction ms generalizing b with
  | nil => rfl
  | cons m rest ih => rw [List.foldl_cons, ih, Board.bumpAll_flagged_count]

theorem Board.calculate_flagged_count (b : Board) :
    b.calculate_adjacent_mines.flagged_count = b.flagged_count :=
  Board.calcFold_flagged_count b.mine_positions b

theorem Board.calcFold_shaped {ms : List CellPosition} {b : Board} (hb : b.Shaped) :
    (ms.foldl (fun acc m => acc.bumpAll (acc.adjacent_positions m)) b).Shaped := by
  induction ms generalizing b with
  | nil => exact hb
  | cons m rest ih => rw [List.foldl_cons]; exact ih (Board.bumpAll_shaped hb _)

theorem Board.calculate_shaped {b : Board} (hb : b.Shaped) :
    b.calculate_adjacent_mines.Shaped :=
  Board.calcFold_shaped hb

/-! ## Mine placement: effects of `place_mines` -/

theorem Board.cellAt_setCell_oob {b : Board} (hb : b.Shaped) {p : CellPosition}
    (hp : b.size ≤ p.x ∨ b.size ≤ p.y) (f : Cell → Cell) :
    (b.setCell p f).cellAt p = b.cellAt p := by
  obtain ⟨h1, h2⟩ := hb
  rcases hp with hx | hy
  · simp only [Board.setCell, Board.cellAt]
    rw [List.set_eq_of_length_le (by omega)]
  · by_cases hx : p.x < b.size
    · simp only [Board.setCell, Board.cellAt]
      rw [List.getD_set_self _ _ _ _ (by omega)]
      rw [List.set_eq_of_length_le (show (b.cells.getD p.x []).length ≤ p.y by
        rw [h2 p.x hx]; omega)]
    · simp only [Board.setCell, Board.cellAt]
      rw [List.set_eq_of_length_le (by omega)]

theorem Board.place_aux_nil (b : Board) (r : Nat) : b.place_mines_aux r [] = b := rfl

theorem Board.place_aux_cons (b : Board) (r : Nat) (d : CellPosition)
    (rest : List CellPosition) :
    b.place_mines_aux r (d :: rest) =
      if r = 0 then b
      else if (b.cellAt d).is_mine then b.place_mines_aux r rest
      else (b.addMine d).place_mines_aux (r - 1) rest := rfl

@[simp] theorem Board.addMine_size (b : Board) (d : CellPosition) :
    (b.addMine d).size = b.size := rfl

@[simp] theorem Board.addMine_mine_positions (b : Board) (d : CellPosition) :
    (b.addMine d).mine_positions = d :: b.mine_positions := rfl

@[simp] theorem Board.addMine_revealed_count (b : Board) (d : CellPosition) :
    (b.addMine d).revealed_count = b.revealed_count := rfl

@[simp] theorem Board.addMine_flagged_count (b : Board) (d : CellPosition) :
    (b.addMine d).flagged_count = b.flagged_count := rfl

theorem Board.addMine_shaped {b : Board} (hb : b.Shaped) (d : CellPosition) :
    (b.addMine d).Shaped :=
  Board.shaped_setCell hb d (fun c => { c with content := .Mine })

theorem Board.cellAt_addMine_ne {b : Board} {d q : CellPosition} (h : q ≠ d) :
    (b.addMine d).cellAt q = b.cellAt q :=
  Board.cellAt_setCell_ne h (fun c => { c with content := .Mine })

theorem Board.cellAt_addMine_self {b : Board} (hb : b.Shaped) {d : CellPosition}
    (hx : d.x < b.size) (hy : d.y < b.size) :
    (b.addMine d).cellAt d = { b.cellAt d with content := .Mine } :=
  Board.cellAt_setCell_self hb hx hy (fun c => { c with content := .Mine })

theorem Board.cellAt_addMine_state {b : Board} (hb : b.Shaped) (d q : CellPosition) :
    ((b.addMine d).cellAt q).state = (b.cellAt q).state := by
  by_cases hq : q = d
  · subst hq
    by_cases hin : q.x < b.size ∧ q.y < b.size
    · rw [Board.cellAt_addMine_self hb hin.1 hin.2]
    · have : b.size ≤ q.x ∨ b.size ≤ q.y := by omega
      exact congrArg Cell.state
        (Board.cellAt_setCell_oob hb this (fun c => { c with content := .Mine }))
  · rw [Board.cellAt_addMine_ne hq]

theorem Board.place_aux_size (b : Board) (r : Nat) (ds : List CellPosition) :
    (b.place_mines_aux r ds).size = b.size := by
  induction ds generalizing b r with
  | nil => rfl
  | cons d rest ih =>
    rw [Board.place_aux_cons]
    split_ifs with h0 hm
    · rfl
    · exact ih b r
    · rw [ih]; rfl

theorem Board.place_aux_shaped {b : Board} (hb : b.Shaped) (r : Nat) (ds : List CellPosition) :
    (b.place_mines_aux r ds).Shaped := by
  induction ds generalizing b r with
  | nil => exact hb
  | cons d rest ih =>
    rw [Board.place_aux_cons]
    split_ifs with h0 hm
    · exact hb
    · exact ih hb r
    · exact ih (Board.addMine_shaped hb d) (r - 1)

theorem Board.place_aux_revealed_count (b : Board) (r : Nat) (ds : List CellPosition) :
    (b.place_mines_aux r ds).revealed_count = b.revealed_count := by
  induction ds generalizing b r with
  | nil => rfl
  | cons d rest ih =>
    rw [Board.place_aux_cons]
    split_ifs with h0 hm
    · rfl
    · exact ih b r
    · rw [ih]; rfl

theorem Board.place_aux_flagged_count (b : Board) (r : Nat) (ds : List CellPosition) :
    (b.place_mines_aux r ds).flagged_count = b.flagged_count := by
  induction ds generalizing b r with
  | nil => rfl
  | cons d rest ih =>
    rw [Board.place_aux_cons]
    split_ifs with h0 hm
    · rfl
    · exact ih b r
    · rw [ih]; rfl

theorem Board.place_aux_state {b : Board} (hb : b.Shaped) (r : Nat) (ds : List CellPosition)
    (q : CellPosition) :
    ((b.place_mines_aux r ds).cellAt q).state = (b.cellAt q).state := by
  induction ds generalizing b r with
  | nil => rfl
  | cons d rest ih =>
    rw [Board.place_aux_cons]
    split_ifs with h0 hm
    · rfl
    · exact ih hb r
    · rw [ih (Board.addMine_shaped hb d) (r - 1)]
      exact Board.cellAt_addMine_state hb d q

theorem Board.place_aux_mines_from_draws (b : Board) (r : Nat) (ds : List CellPosition) :
    ∃ new : List CellPosition,
      (b.place_mines_aux r ds).mine_positions = new ++ b.mine_positions ∧
        ∀ m ∈ new, m ∈ ds := by
  induction ds generalizing b r with
  | nil => exact ⟨[], rfl, by simp⟩
  | cons d rest ih =>
    rw [Board.place_aux_cons]
    split_ifs with h0 hm
    · exact ⟨[], rfl, by simp⟩
    · obtain ⟨new, hmp, hmem⟩ := ih b r
      exact ⟨new, hmp, fun m hmmem => List.mem_cons_of_mem d (hmem m hmmem)⟩
    · obtain ⟨new, hmp, hmem⟩ := ih (b.addMine d) (r - 1)
      refine ⟨new ++ [d], ?_, ?_⟩
      · rw [hmp, Board.addMine_mine_positions, List.append_assoc]
        rfl
      · intro m hmmem
        rcases List.mem_append.mp hmmem with h | h
        · exact List.mem_cons_of_mem d (hmem m h)
        · simp only [List.mem_singleton] at h
          rw [h]
          exact List.mem_cons_self _ _

/-- The mine set matches the mined cells of the grid. -/
def Board.minesConsistent (b : Board) : Prop :=
  ∀ q : CellPosition, q ∈ b.mine_positions ↔ (b.cellAt q).is_mine = true

theorem Board.place_aux_consistent {b : Board} (hb : b.Shaped) (hcons : b.minesConsistent)
    (hnd : b.mine_positions.Nodup) (r : Nat) {ds : List CellPosition}
    (hds : ∀ d ∈ ds, d.x < b.size ∧ d.y < b.size) :
    (b.place_mines_aux r ds).minesConsistent ∧ (b.place_mines_aux r ds).mine_positions.Nodup := by
  induction ds generalizing b r with
  | nil => exact ⟨hcons, hnd⟩
  | cons d rest ih =>
    rw [Board.place_aux_cons]
    split_ifs with h0 hm
    · exact ⟨hcons, hnd⟩
    · exact ih hb hcons hnd r (fun d' hd' => hds d' (List.mem_cons_of_mem d hd'))
    · have hd := hds d (List.mem_cons_self d rest)
      have hshape' := Board.addMine_shaped hb d
      have hdnotmem : d ∉ b.mine_positions := fun hmem => hm ((hcons d).mp hmem)
      have hcons' : (b.addMine d).minesConsistent := by
        intro q
        by_cases hq : q = d
        · subst hq
          rw [Board.cellAt_addMine_self hb hd.1 hd.2]
          simp [Cell.is_mine]
        · rw [Board.cellAt_addMine_ne hq, Board.addMine_mine_positions]
          simp only [List.mem_cons, hq, false_or]
          exact hcons q
      have hnd' : (b.addMine d).mine_positions.Nodup := by
        rw [Board.addMine_mine_positions]
        exact List.nodup_cons.mpr ⟨hdnotmem, hnd⟩
      exact ih hshape' hcons' hnd' (r - 1)
        (fun d' hd' => hds d' (List.mem_cons_of_mem d hd'))

theorem Board.addMine_consistent {b : Board} (hb : b.Shaped) (hcons : b.minesConsistent)
    {d : CellPosition} (hx : d.x < b.size) (hy : d.y < b.size) :
    (b.addMine d).minesConsistent := by
  intro q
  by_cases hq : q = d
  · subst hq
    rw [Board.cellAt_addMine_self hb hx hy]
    simp [Cell.is_mine]
  · rw [Board.cellAt_addMine_ne hq, Board.addMine_mine_positions]
    simp only [List.mem_cons, hq, false_or]
    exact hcons q

theorem Board.place_aux_length {b : Board} (hb : b.Shaped) (r : Nat)
    {ds : List CellPosition} (hds : ∀ d ∈ ds, d.x < b.size ∧ d.y < b.size) :
    (b.place_mines_aux r ds).mine_positions.length =
      b.mine_positions.length +
        min r ((ds.filter (fun p => !(b.cellAt p).is_mine)).toFinset.card) := by
  induction ds generalizing b r with
  | nil => simp [Board.place_aux_nil]
  | cons d rest ih =>
    rw [Board.place_aux_cons]
    split_ifs with h0 hm
    · simp [h0]
    · have hfil : (d :: rest).filter (fun p => !(b.cellAt p).is_mine) =
          rest.filter (fun p => !(b.cellAt p).is_mine) :=
        List.filter_cons_of_neg (by simp [hm])
      rw [hfil]
      exact ih hb r (fun d' hd' => hds d' (List.mem_cons_of_mem d hd'))
    · have hd := hds d (List.mem_cons_self d rest)
      have hb' := Board.addMine_shaped hb d
      have hds' : ∀ d' ∈ rest, d'.x < (b.addMine d).size ∧ d'.y < (b.addMine d).size := by
        simpa using fun d' hd' => hds d' (List.mem_cons_of_mem d hd')
      rw [ih hb' (r - 1) hds']
      have hfil : (d :: rest).filter (fun p => !(b.cellAt p).is_mine) =
          d :: rest.filter (fun p => !(b.cellAt p).is_mine) :=
        List.filter_cons_of_pos (by simp [hm])
      rw [hfil]
      have herase : (rest.filter (fun p => !((b.addMine d).cellAt p).is_mine)).toFinset =
          (rest.filter (fun p => !(b.cellAt p).is_mine)).toFinset.erase d := by
        ext q
        simp only [Finset.mem_erase, List.mem_toFinset, List.mem_filter]
        constructor
        · rintro ⟨hq, hPq⟩
          by_cases hqd : q = d
          · subst hqd
            rw [Board.cellAt_addMine_self hb hd.1 hd.2] at hPq
            simp [Cell.is_mine] at hPq
          · rw [Board.cellAt_addMine_ne hqd] at hPq
            exact ⟨hqd, hq, hPq⟩
        · rintro ⟨hqd, hq, hPq⟩
          rw [Board.cellAt_addMine_ne hqd]
          exact ⟨hq, hPq⟩
      rw [herase, Board.addMine_mine_positions, List.toFinset_cons]
      by_cases hdmem : d ∈ (rest.filter (fun p => !(b.cellAt p).is_mine)).toFinset
      · have hins : insert d (rest.filter (fun p => !(b.cellAt p).is_mine)).toFinset =
            (rest.filter (fun p => !(b.cellAt p).is_mine)).toFinset :=
          Finset.insert_eq_self.mpr hdmem
        rw [hins, Finset.card_erase_of_mem hdmem]
        have hpos : 0 < (rest.filter (fun p => !(b.cellAt p).is_mine)).toFinset.card :=
          Finset.card_pos.mpr ⟨d, hdmem⟩
        simp only [List.length_cons]
        omega
      · rw [Finset.card_insert_of_not_mem hdmem, Finset.erase_eq_of_not_mem hdmem]
        simp only [List.length_cons]
        omega

/-! ## The blank board and `Board::new` -/

theorem Board.blankBoard_shaped (size : Nat) : (Board.blankBoard size).Shaped :=
  Board.shaped_blank size [] 0 0

theorem Board.cellAt_blankBoard (size : Nat) (q : CellPosition) :
    (Board.blankBoard size).cellAt q = {} := by
  simp only [Board.blankBoard, Board.cellAt, Board.blankGrid]
  by_cases hx : q.x < size
  · rw [List.getD_replicate_lt _ _ _ _ hx]
    by_cases hy : q.y < size
    · rw [List.getD_replicate_lt _ _ _ _ hy]
    · have hlen : (List.replicate size ({} : Cell)).length ≤ q.y := by simpa using hy
      rw [List.getD_eq_default _ _ hlen]
      rfl
  · have hlen : (List.replicate size (List.replicate size ({} : Cell))).length ≤ q.x := by
      simpa using hx
    rw [List.getD_eq_default _ _ hlen]
    rfl

theorem Board.blankBoard_consistent (size : Nat) : (Board.blankBoard size).minesConsistent := by
  intro q
  rw [Board.cellAt_blankBoard]
  simp [Board.blankBoard, Cell.is_mine]

theorem Board.new_eq_ok {size mines : Nat} {draws : List CellPosition} {b : Board}
    (h : Board.new size mines draws = .ok b) :
    size ≠ 0 ∧ mines < size ^ 2 ∧ mines ≠ 0 ∧
      b = ((Board.blankBoard size).place_mines mines draws).calculate_adjacent_mines := by
  unfold Board.new at h
  split_ifs at h with h1 h2
  exact ⟨h1, by omega, by omega, (Except.ok.inj h).symm⟩

theorem Board.cellAt_addMine_oob {b : Board} (hb : b.Shaped) {d : CellPosition}
    (hp : b.size ≤ d.x ∨ b.size ≤ d.y) :
    (b.addMine d).cellAt d = b.cellAt d :=
  Board.cellAt_setCell_oob hb hp (fun c => { c with content := .Mine })

theorem Board.place_aux_zero (b : Board) (ds : List CellPosition) :
    b.place_mines_aux 0 ds = b := by
  cases ds with
  | nil => rfl
  | cons d rest => rw [Board.place_aux_cons, if_pos rfl]

theorem Board.place_aux_cellAt_cases {b : Board} (hb : b.Shaped) (r : Nat)
    (ds : List CellPosition) (q : CellPosition) :
    (b.place_mines_aux r ds).cellAt q = b.cellAt q ∨
      (b.place_mines_aux r ds).cellAt q = { b.cellAt q with content := .Mine } := by
  induction ds generalizing b r with
  | nil => exact Or.inl rfl
  | cons d rest ih =>
    rw [Board.place_aux_cons]
    split_ifs with h0 hm
    · exact Or.inl rfl
    · exact ih hb r
    · rcases ih (Board.addMine_shaped hb d) (r - 1) with h | h <;> rw [h]
      · by_cases hq : q = d
        · subst hq
          by_cases hin : q.x < b.size ∧ q.y < b.size
          · exact Or.inr (Board.cellAt_addMine_self hb hin.1 hin.2)
          · exact Or.inl (Board.cellAt_addMine_oob hb (by omega))
        · exact Or.inl (Board.cellAt_addMine_ne hq)
      · by_cases hq : q = d
        · subst hq
          by_cases hin : q.x < b.size ∧ q.y < b.size
          · rw [Board.cellAt_addMine_self hb hin.1 hin.2]
            exact Or.inr rfl
          · rw [Board.cellAt_addMine_oob hb (by omega)]
            exact Or.inr rfl
        · rw [Board.cellAt_addMine_ne hq]
          exact Or.inr rfl

/-- The exclusion-aware generation loop behaves exactly like the plain
`place_mines` loop run on the draw list purged of excluded and pre-flagged
positions. -/
theorem Board.place_excl_eq_place (excluded : CellPosition) (preFlagged : Finset CellPosition)
    (b : Board) (r : Nat) (ds : List CellPosition) :
    Board.place_mines_excl_aux excluded preFlagged b r ds =
      b.place_mines_aux r
        (ds.filter (fun d => !decide (d = excluded ∨ d ∈ preFlagged))) := by
  induction ds generalizing b r with
  | nil => rfl
  | cons d rest ih =>
    show (if r = 0 then b
      else if d = excluded ∨ d ∈ preFlagged ∨ (b.cellAt d).is_mine then
        Board.place_mines_excl_aux excluded preFlagged b r rest
      else Board.place_mines_excl_aux excluded preFlagged (b.addMine d) (r - 1) rest) = _
    by_cases h0 : r = 0
    · rw [if_pos h0, h0, Board.place_aux_zero]
    · rw [if_neg h0]
      by_cases hskip : d = excluded ∨ d ∈ preFlagged
      · have hfil : (d :: rest).filter (fun d => !decide (d = excluded ∨ d ∈ preFlagged)) =
            rest.filter (fun d => !decide (d = excluded ∨ d ∈ preFlagged)) :=
          List.filter_cons_of_neg (by
            simp only [Bool.not_eq_true', decide_eq_false_iff_not, not_not]
            exact hskip)
        rw [if_pos (by tauto), hfil, ih]
      · have hfil : (d :: rest).filter (fun d => !decide (d = excluded ∨ d ∈ preFlagged)) =
            d :: rest.filter (fun d => !decide (d = excluded ∨ d ∈ preFlagged)) :=
          List.filter_cons_of_pos (by
            simp only [Bool.not_eq_true', decide_eq_false_iff_not]
            exact hskip)
        rw [hfil, Board.place_aux_cons, if_neg h0]
        by_cases hm : (b.cellAt d).is_mine
        · rw [if_pos (by tauto), if_pos hm, ih]
        · rw [if_neg (by tauto), if_neg hm, ih]

theorem countP_mem_swap {l1 l2 : List CellPosition} (h1 : l1.Nodup) (h2 : l2.Nodup) :
    l1.countP (fun a => decide (a ∈ l2)) = l2.countP (fun a => decide (a ∈ l1)) := by
  rw [List.countP_eq_length_filter, List.countP_eq_length_filter]
  rw [← List.toFinset_card_of_nodup (h1.filter _), ← List.toFinset_card_of_nodup (h2.filter _)]
  congr 1
  ext q
  simp only [List.mem_toFinset, List.mem_filter, decide_eq_true_eq]
  exact And.comm

theorem Board.calculate_is_mine {b : Board} (hb : b.Shaped) (q : CellPosition) :
    (b.calculate_adjacent_mines.cellAt q).is_mine = (b.cellAt q).is_mine := by
  rw [Board.calculate_cellAt hb]
  simp [Cell.is_mine, CellContent.iterate_add_one_eq_mine_iff]

theorem Board.calculate_state_eq {b : Board} (hb : b.Shaped) (q : CellPosition) :
    (b.calculate_adjacent_mines.cellAt q).state = (b.cellAt q).state := by
  rw [Board.calculate_cellAt hb]

theorem Board.calculate_consistent {b : Board} (hb : b.Shaped) (hcons : b.minesConsistent) :
    b.calculate_adjacent_mines.minesConsistent := by
  intro q
  rw [Board.calculate_mine_positions, Board.calculate_is_mine hb]
  exact hcons q

/-- Everything the claims need about a freshly generated board: shape, empty
counters, the mine set/grid consistency, all cells hidden, and the adjacency
counts. -/
structure Board.Generated (b : Board) (size : Nat) : Prop where
  shaped : b.Shaped
  size_eq : b.size = size
  rc : b.revealed_count = 0
  fc : b.flagged_count = 0
  consistent : b.minesConsistent
  nodup : b.mine_positions.Nodup
  mines_inb : ∀ m ∈ b.mine_positions, m.x < size ∧ m.y < size
  hidden : ∀ q : CellPosition, (b.cellAt q).state = .Hidden
  counts : ∀ q : CellPosition, q.x < size → q.y < size → (b.cellAt q).is_mine = false →
    (b.cellAt q).content =
      CellContent.ofCount
        ((b.adjacent_positions q).countP (fun v => (b.cellAt v).is_mine))

theorem Board.generated_of_place_calc {size mines : Nat} {draws : List CellPosition}
    (hdr : ∀ d ∈ draws, d.x < size ∧ d.y < size) :
    (((Board.blankBoard size).place_mines mines draws).calculate_adjacent_mines).Generated
      size := by
  have hb0s : (Board.blankBoard size).Shaped := Board.blankBoard_shaped size
  have hds : ∀ d ∈ draws, d.x < (Board.blankBoard size).size ∧
      d.y < (Board.blankBoard size).size := by
    simpa [Board.blankBoard] using hdr
  have hb1s : ((Board.blankBoard size).place_mines mines draws).Shaped :=
    Board.place_aux_shaped hb0s mines draws
  have hsz1 : ((Board.blankBoard size).place_mines mines draws).size = size :=
    Board.place_aux_size _ mines draws
  have hcn1 := Board.place_aux_consistent hb0s (Board.blankBoard_consistent size)
    (by simp [Board.blankBoard]) mines hds
  have hminb1 : ∀ m ∈ ((Board.blankBoard size).place_mines mines draws).mine_positions,
      m.x < size ∧ m.y < size := by
    obtain ⟨new, hmp, hmem⟩ := Board.place_aux_mines_from_draws (Board.blankBoard size)
      mines draws
    intro m hm
    rw [Board.place_mines] at hm
    rw [hmp] at hm
    simp only [Board.blankBoard, List.append_nil] at hm
    exact hdr m (hmem m hm)
  set b1 := (Board.blankBoard size).place_mines mines draws with hb1def
  refine ⟨Board.calculate_shaped hb1s, by rw [Board.calculate_size, hsz1], ?_, ?_,
    Board.calculate_consistent hb1s hcn1.1,
    by rw [Board.calculate_mine_positions]; exact hcn1.2,
    by rw [Board.calculate_mine_positions]; exact hminb1, ?_, ?_⟩
  · rw [Board.calculate_revealed_count]
    exact Board.place_aux_revealed_count _ mines draws
  · rw [Board.calculate_flagged_count]
    exact Board.place_aux_flagged_count _ mines draws
  · intro q
    rw [Board.calculate_state_eq hb1s, hb1def, Board.place_mines,
      Board.place_aux_state hb0s mines draws q, Board.cellAt_blankBoard]
  · intro q hqx hqy hqm
    have hqx1 : q.x < b1.size := by omega
    have hqy1 : q.y < b1.size := by omega
    have hqm1 : (b1.cellAt q).is_mine = false := by
      rw [← Board.calculate_is_mine hb1s]
      exact hqm
    have hempty : (b1.cellAt q).content = .Empty := by
      rcases Board.place_aux_cellAt_cases hb0s mines draws q with h | h
      · rw [hb1def, Board.place_mines, h, Board.cellAt_blankBoard]
      · exfalso
        rw [hb1def, Board.place_mines] at hqm1
        rw [h] at hqm1
        simp [Cell.is_mine] at hqm1
    have hadjc : ∀ p : CellPosition,
        (b1.calculate_adjacent_mines).adjacent_positions p = b1.adjacent_positions p :=
      fun p => Board.adjacent_congr (Board.calculate_size b1) p
    have hpred : (b1.adjacent_positions q).countP
          (fun v => ((b1.calculate_adjacent_mines).cellAt v).is_mine) =
        (b1.adjacent_positions q).countP (fun v => (b1.cellAt v).is_mine) :=
      List.countP_congr (fun v _ => by rw [Board.calculate_is_mine hb1s])
    have s1 : b1.mine_positions.countP (fun m => decide (q ∈ b1.adjacent_positions m)) =
        b1.mine_positions.countP (fun m => decide (m ∈ b1.adjacent_positions q)) := by
      refine List.countP_congr (fun m hm => ?_)
      have hmb := hminb1 m hm
      simp only [decide_eq_true_eq]
      constructor
      · intro h
        exact Board.mem_adjacent_symm h (by omega) (by omega)
      · intro h
        exact Board.mem_adjacent_symm h hqx1 hqy1
    have s2 : b1.mine_positions.countP (fun a => decide (a ∈ b1.adjacent_positions q)) =
        (b1.adjacent_positions q).countP (fun a => decide (a ∈ b1.mine_positions)) :=
      countP_mem_swap hcn1.2 (Board.adjacent_nodup b1 q)
    have s3 : (b1.adjacent_positions q).countP (fun v => decide (v ∈ b1.mine_positions)) =
        (b1.adjacent_positions q).countP (fun v => (b1.cellAt v).is_mine) := by
      refine List.countP_congr (fun v _ => ?_)
      simp only [decide_eq_true_eq]
      exact hcn1.1 v
    rw [Board.calculate_cellAt hb1s]
    rw [hadjc q, hpred]
    show CellContent.add_one^[b1.mine_positions.countP
        (fun m => decide (q ∈ b1.adjacent_positions m))] (b1.cellAt q).content = _
    rw [hempty, s1, s2, s3]
    exact CellContent.iterate_add_one_empty _ (le_trans (List.countP_le_length _)
      (Board.adjacent_length_le b1 q))

/-- No mine is adjacent to an `Empty` (zero-count) in-bounds cell.  This is
the consequence of correct adjacency counts that the flood fill relies on. -/
def Board.noMineAdjacentToEmpty (b : Board) : Prop :=
  ∀ x : Nat, x < b.size → ∀ y : Nat, y < b.size → (b.cellAt ⟨x, y⟩).is_empty = true →
    ∀ v ∈ b.adjacent_positions ⟨x, y⟩, (b.cellAt v).is_mine = false

instance (b : Board) : Decidable b.noMineAdjacentToEmpty := by
  unfold Board.noMineAdjacentToEmpty; infer_instance

instance (b : Board) : Decidable b.Shaped := by
  unfold Board.Shaped; infer_instance

theorem Board.Generated.noMineAdjEmpty {b : Board} {size : Nat} (hg : b.Generated size) :
    b.noMineAdjacentToEmpty := by
  intro x hx y hy hu v hv
  rw [hg.size_eq] at hx hy
  have hum : (b.cellAt ⟨x, y⟩).is_mine = false := by
    rw [Cell.is_empty] at hu
    rw [Cell.is_mine]
    simp only [decide_eq_true_eq] at hu
    simp [hu]
  have hc := hg.counts ⟨x, y⟩ hx hy hum
  rw [Cell.is_empty] at hu
  simp only [decide_eq_true_eq] at hu
  rw [hu] at hc
  have hzero : (b.adjacent_positions ⟨x, y⟩).countP (fun v => (b.cellAt v).is_mine) = 0 := by
    have := (CellContent.ofCount_eq_empty_iff _).mp hc.symm
    exact this
  have := List.countP_eq_zero.mp hzero v hv
  simpa using this

theorem Board.new_generated {size mines : Nat} {draws : List CellPosition} {b : Board}
    (h : Board.new size mines draws = .ok b)
    (hdr : ∀ d ∈ draws, d.x < size ∧ d.y < size) : b.Generated size := by
  obtain ⟨_, _, _, hb⟩ := Board.new_eq_ok h
  rw [hb]
  exact Board.generated_of_place_calc hdr

theorem Board.new_mines_length {size mines : Nat} {draws : List CellPosition} {b : Board}
    (h : Board.new size mines draws = .ok b)
    (hdr : ∀ d ∈ draws, d.x < size ∧ d.y < size)
    (hcard : mines ≤ draws.toFinset.card) :
    b.mine_positions.length = mines := by
  obtain ⟨h1, h2, h3, hb⟩ := Board.new_eq_ok h
  rw [hb, Board.calculate_mine_positions, Board.place_mines]
  have hfil : draws.filter (fun p => !((Board.blankBoard size).cellAt p).is_mine) = draws := by
    refine List.filter_eq_self.mpr (fun a _ => ?_)
    rw [Board.cellAt_blankBoard]
    rfl
  have hlen := @Board.place_aux_length (Board.blankBoard size)
    (Board.blankBoard_shaped size) mines draws (by simpa [Board.blankBoard] using hdr)
  rw [hfil] at hlen
  rw [hlen]
  simp only [Board.blankBoard, List.length_nil, Nat.zero_add]
  omega

theorem Board.newExcluding_eq_ok {d : GameDifficulty} {excluded : CellPosition}
    {preFlagged : Finset CellPosition} {draws : List CellPosition} {b : Board}
    (h : Board.newExcluding d excluded preFlagged draws = .ok b) :
    d.board_size.1 ≠ 0 ∧ d.mines_count < d.board_size.1 ^ 2 ∧ d.mines_count ≠ 0 ∧
      b = ((Board.blankBoard d.board_size.1).place_mines d.mines_count
          (draws.filter (fun p => !decide (p = excluded ∨ p ∈ preFlagged)))).calculate_adjacent_mines := by
  unfold Board.newExcluding at h
  dsimp only at h
  split_ifs at h with h1 h2
  have heq := Board.place_excl_eq_place excluded preFlagged
    (Board.blankBoard d.board_size.1) d.mines_count draws
  refine ⟨h1, by omega, by omega, ?_⟩
  rw [Board.place_mines, ← heq]
  exact (Except.ok.inj h).symm

theorem Board.newExcluding_generated {d : GameDifficulty} {excluded : CellPosition}
    {preFlagged : Finset CellPosition} {draws : List CellPosition} {b : Board}
    (h : Board.newExcluding d excluded preFlagged draws = .ok b)
    (hdr : ∀ p ∈ draws, p.x < d.board_size.1 ∧ p.y < d.board_size.1) :
    b.Generated d.board_size.1 := by
  obtain ⟨_, _, _, hb⟩ := Board.newExcluding_eq_ok h
  rw [hb]
  exact Board.generated_of_place_calc
    (fun p hp => hdr p (List.mem_of_mem_filter hp))

/-- The spec-modelled constructor honors its exclusions: neither the first
revealed cell nor any pre-flagged cell ever receives a mine. -/
theorem Board.newExcluding_respects_exclusions {d : GameDifficulty} {excluded : CellPosition}
    {preFlagged : Finset CellPosition} {draws : List CellPosition} {b : Board}
    (h : Board.newExcluding d excluded preFlagged draws = .ok b) :
    excluded ∉ b.mine_positions ∧ ∀ p ∈ preFlagged, p ∉ b.mine_positions := by
  obtain ⟨_, _, _, hb⟩ := Board.newExcluding_eq_ok h
  have hmem : ∀ m ∈ b.mine_positions,
      m ∈ draws.filter (fun p => !decide (p = excluded ∨ p ∈ preFlagged)) := by
    intro m hm
    rw [hb, Board.calculate_mine_positions, Board.place_mines] at hm
    obtain ⟨new, hmp, hmemd⟩ := Board.place_aux_mines_from_draws
      (Board.blankBoard d.board_size.1) d.mines_count
      (draws.filter (fun p => !decide (p = excluded ∨ p ∈ preFlagged)))
    rw [hmp] at hm
    simp only [Board.blankBoard, List.append_nil] at hm
    exact hmemd m hm
  constructor
  · intro hmem2
    have := hmem excluded hmem2
    rw [List.mem_filter] at this
    simp at this
  · intro p hp hmem2
    have := hmem p hmem2
    rw [List.mem_filter] at this
    simp only [Bool.not_eq_true', decide_eq_false_iff_not] at this
    exact this.2 (Or.inr hp)

/-! ## Single-cell Board primitives -/

theorem Board.reveal_oob {b : Board} {pos : CellPosition}
    (h : b.size ≤ pos.x ∨ b.size ≤ pos.y) :
    b.reveal pos = .error (.InvalidCellPosition pos.x pos.y) := by
  unfold Board.reveal Board.validate_position
  rw [if_pos (by omega)]

theorem Board.cell_oob {b : Board} {pos : CellPosition}
    (h : b.size ≤ pos.x ∨ b.size ≤ pos.y) :
    b.cell pos = .error (.InvalidCellPosition pos.x pos.y) := by
  unfold Board.cell Board.validate_position
  rw [if_pos (by omega)]

theorem Board.cell_inb {b : Board} {pos : CellPosition}
    (hx : pos.x < b.size) (hy : pos.y < b.size) :
    b.cell pos = .ok (b.cellAt pos) := by
  unfold Board.cell Board.validate_position
  rw [if_neg (by omega)]

theorem Board.reveal_cantreveal {b : Board} {pos : CellPosition}
    (hx : pos.x < b.size) (hy : pos.y < b.size)
    (h : (b.cellAt pos).is_revealed = true ∨ (b.cellAt pos).is_flagged = true) :
    b.reveal pos = .ok (.CantReveal, b) := by
  unfold Board.reveal Board.validate_position
  rw [if_neg (by omega)]
  rw [if_pos h]

theorem Board.reveal_gameover {b : Board} (hb : b.Shaped) {pos : CellPosition}
    (hx : pos.x < b.size) (hy : pos.y < b.size)
    (hrev : (b.cellAt pos).is_revealed = false) (hfl : (b.cellAt pos).is_flagged = false)
    (hm : (b.cellAt pos).is_mine = true) :
    b.reveal pos = .ok (.GameOver pos, b.setCell pos Cell.reveal) := by
  unfold Board.reveal Board.validate_position
  rw [if_neg (by omega)]
  rw [if_neg (by simp [hrev, hfl])]
  rw [if_pos (by
    rw [Board.cellAt_setCell_self hb hx hy]
    simpa [Cell.is_mine, Cell.reveal] using hm)]

theorem Board.reveal_continue {b : Board} (hb : b.Shaped) {pos : CellPosition}
    (hx : pos.x < b.size) (hy : pos.y < b.size)
    (hrev : (b.cellAt pos).is_revealed = false) (hfl : (b.cellAt pos).is_flagged = false)
    (hm : (b.cellAt pos).is_mine = false) :
    b.reveal pos = .ok (.Continue,
      { b.setCell pos Cell.reveal with revealed_count := usizeSatAddOne b.revealed_count }) := by
  unfold Board.reveal Board.validate_position
  rw [if_neg (by omega)]
  rw [if_neg (by simp [hrev, hfl])]
  rw [if_neg (by
    rw [Board.cellAt_setCell_self hb hx hy]
    simpa [Cell.is_mine, Cell.reveal] using hm)]
  rfl

theorem Board.flag_hidden {b : Board} {pos : CellPosition}
    (hx : pos.x < b.size) (hy : pos.y < b.size)
    (hh : (b.cellAt pos).is_hidden = true) :
    b.flag pos = .ok (true,
      { b.setCell pos (fun _ => ((b.cellAt pos).flag).2) with
          flagged_count := isizeSatAddOne b.flagged_count }) := by
  unfold Board.flag Board.validate_position
  rw [if_neg (by omega)]
  simp only [Cell.flag, hh, if_true]

theorem Board.flag_not_hidden {b : Board} {pos : CellPosition}
    (hx : pos.x < b.size) (hy : pos.y < b.size)
    (hh : (b.cellAt pos).is_hidden = false) :
    b.flag pos = .ok (false, b) := by
  unfold Board.flag Board.validate_position
  rw [if_neg (by omega)]
  simp only [Cell.flag, hh, Bool.false_eq_true, if_false]

/-! ## Bulk end-of-game operations -/

theorem Board.revealFold_fields (b : Board) (ms : List CellPosition) :
    (ms.foldl (fun acc m => if (acc.cellAt m).is_flagged then acc
        else acc.setCell m Cell.reveal) b).size = b.size ∧
    (ms.foldl (fun acc m => if (acc.cellAt m).is_flagged then acc
        else acc.setCell m Cell.reveal) b).mine_positions = b.mine_positions ∧
    (ms.foldl (fun acc m => if (acc.cellAt m).is_flagged then acc
        else acc.setCell m Cell.reveal) b).revealed_count = b.revealed_count ∧
    (ms.foldl (fun acc m => if (acc.cellAt m).is_flagged then acc
        else acc.setCell m Cell.reveal) b).flagged_count = b.flagged_count := by
  induction ms generalizing b with
  | nil => exact ⟨rfl, rfl, rfl, rfl⟩
  | cons m rest ih =>
    rw [List.foldl_cons]
    obtain ⟨i1, i2, i3, i4⟩ := ih (if (b.cellAt m).is_flagged then b else b.setCell m Cell.reveal)
    refine ⟨?_, ?_, ?_, ?_⟩ <;>
      [rw [i1]; rw [i2]; rw [i3]; rw [i4]] <;> by_cases hf : (b.cellAt m).is_flagged <;>
      simp [hf]

theorem Board.revealFold_shaped {b : Board} (hb : b.Shaped) (ms : List CellPosition) :
    (ms.foldl (fun acc m => if (acc.cellAt m).is_flagged then acc
        else acc.setCell m Cell.reveal) b).Shaped := by
  induction ms generalizing b with
  | nil => exact hb
  | cons m rest ih =>
    rw [List.foldl_cons]
    by_cases hf : (b.cellAt m).is_flagged
    · rw [if_pos hf]; exact ih hb
    · rw [if_neg hf]; exact ih (Board.shaped_setCell hb _ _)

theorem Board.revealFold_cellAt {b : Board} (hb : b.Shaped) (ms : List CellPosition)
    (q : CellPosition) :
    (ms.foldl (fun acc m => if (acc.cellAt m).is_flagged then acc
        else acc.setCell m Cell.reveal) b).cellAt q =
      if q ∈ ms ∧ (b.cellAt q).is_flagged = false ∧ q.x < b.size ∧ q.y < b.size
      then { b.cellAt q with state := .Revealed }
      else b.cellAt q := by
  induction ms generalizing b with
  | nil => simp
  | cons m rest ih =>
    rw [List.foldl_cons]
    by_cases hf : (b.cellAt m).is_flagged
    · rw [if_pos hf, ih hb]
      by_cases hq : q = m
      · subst hq
        simp [hf]
      · simp only [List.mem_cons, hq, false_or]
    · rw [if_neg hf]
      have hb' := Board.shaped_setCell hb m Cell.reveal
      rw [ih hb']
      by_cases hq : q = m
      · subst hq
        by_cases hin : q.x < b.size ∧ q.y < b.size
        · have hself : (b.setCell q Cell.reveal).cellAt q = { b.cellAt q with state := .Revealed } :=
            Board.cellAt_setCell_self hb hin.1 hin.2 Cell.reveal
          rw [hself]
          simp only [Board.setCell_size]
          by_cases hmem : q ∈ rest
          · rw [if_pos ⟨hmem, by simp [Cell.is_flagged], hin.1, hin.2⟩]
            rw [if_pos ⟨List.mem_cons_self q rest, by simpa using hf, hin.1, hin.2⟩]
          · rw [if_neg (by tauto)]
            rw [if_pos ⟨List.mem_cons_self q rest, by simpa using hf, hin.1, hin.2⟩]
        · have hoob : (b.setCell q Cell.reveal).cellAt q = b.cellAt q :=
            Board.cellAt_setCell_oob hb (by omega) Cell.reveal
          rw [hoob]
          simp only [Board.setCell_size]
          rw [if_neg (by tauto), if_neg (by tauto)]
      · have hne : (b.setCell m Cell.reveal).cellAt q = b.cellAt q :=
          Board.cellAt_setCell_ne hq Cell.reveal
        rw [hne]
        simp only [Board.setCell_size, List.mem_cons, hq, false_or]

theorem Board.reveal_mines_cellAt {b : Board} (hb : b.Shaped) (q : CellPosition) :
    b.reveal_mines.cellAt q =
      if q ∈ b.mine_positions ∧ (b.cellAt q).is_flagged = false ∧ q.x < b.size ∧ q.y < b.size
      then { b.cellAt q with state := .Revealed }
      else b.cellAt q :=
  Board.revealFold_cellAt hb b.mine_positions q

theorem Board.reveal_mines_fields (b : Board) :
    b.reveal_mines.size = b.size ∧ b.reveal_mines.mine_positions = b.mine_positions ∧
      b.reveal_mines.revealed_count = b.revealed_count ∧
      b.reveal_mines.flagged_count = b.flagged_count :=
  Board.revealFold_fields b b.mine_positions

theorem Board.reveal_mines_shaped {b : Board} (hb : b.Shaped) : b.reveal_mines.Shaped :=
  Board.revealFold_shaped hb b.mine_positions

theorem Board.flagFold_fields (b : Board) (ms : List CellPosition) :
    (ms.foldl (fun acc m => acc.setCell m (fun c => (c.flag).2)) b).size = b.size ∧
    (ms.foldl (fun acc m => acc.setCell m (fun c => (c.flag).2)) b).mine_positions =
      b.mine_positions ∧
    (ms.foldl (fun acc m => acc.setCell m (fun c => (c.flag).2)) b).revealed_count =
      b.revealed_count ∧
    (ms.foldl (fun acc m => acc.setCell m (fun c => (c.flag).2)) b).flagged_count =
      b.flagged_count := by
  induction ms generalizing b with
  | nil => exact ⟨rfl, rfl, rfl, rfl⟩
  | cons m rest ih =>
    rw [List.foldl_cons]
    obtain ⟨i1, i2, i3, i4⟩ := ih (b.setCell m (fun c => (c.flag).2))
    exact ⟨by rw [i1]; rfl, by rw [i2]; rfl, by rw [i3]; rfl, by rw [i4]; rfl⟩

theorem Board.flagFold_shaped {b : Board} (hb : b.Shaped) (ms : List CellPosition) :
    (ms.foldl (fun acc m => acc.setCell m (fun c => (c.flag).2)) b).Shaped := by
  induction ms generalizing b with
  | nil => exact hb
  | cons m rest ih =>
    rw [List.foldl_cons]
    exact ih (Board.shaped_setCell hb _ _)

theorem Board.flagFold_cellAt {b : Board} (hb : b.Shaped) (ms : List CellPosition)
    (q : CellPosition) :
    (ms.foldl (fun acc m => acc.setCell m (fun c => (c.flag).2)) b).cellAt q =
      if q ∈ ms ∧ (b.cellAt q).is_hidden = true ∧ q.x < b.size ∧ q.y < b.size
      then { b.cellAt q with state := .Flagged }
      else b.cellAt q := by
  induction ms generalizing b with
  | nil => simp
  | cons m rest ih =>
    rw [List.foldl_cons]
    have hb' := Board.shaped_setCell hb m (fun c => (c.flag).2)
    rw [ih hb']
    by_cases hq : q = m
    · subst hq
      by_cases hin : q.x < b.size ∧ q.y < b.size
      · have hself := Board.cellAt_setCell_self hb hin.1 hin.2 (fun c => (c.flag).2)
        rw [hself]
        simp only [Board.setCell_size]
        by_cases hh : (b.cellAt q).is_hidden
        · have hflag : ((b.cellAt q).flag).2 = { b.cellAt q with state := .Flagged } := by
            simp [Cell.flag, hh]
          rw [hflag]
          rw [if_neg (by simp [Cell.is_hidden])]
          rw [if_pos ⟨List.mem_cons_self q rest, hh, hin.1, hin.2⟩]
        · have hflag : ((b.cellAt q).flag).2 = b.cellAt q := by
            simp [Cell.flag, hh]
          rw [hflag]
          rw [if_neg (by simp [hh]), if_neg (by simp [hh])]
      · have hoob := @Board.cellAt_setCell_oob b hb q (by omega) (fun c => (c.flag).2)
        rw [hoob]
        simp only [Board.setCell_size]
        rw [if_neg (by tauto), if_neg (by tauto)]
    · have hne : (b.setCell m (fun c => (c.flag).2)).cellAt q = b.cellAt q :=
        Board.cellAt_setCell_ne hq (fun c => (c.flag).2)
      rw [hne]
      simp only [Board.setCell_size, List.mem_cons, hq, false_or]

theorem Board.flag_mines_cellAt {b : Board} (hb : b.Shaped) (q : CellPosition) :
    b.flag_mines.cellAt q =
      if q ∈ b.mine_positions ∧ (b.cellAt q).is_hidden = true ∧ q.x < b.size ∧ q.y < b.size
      then { b.cellAt q with state := .Flagged }
      else b.cellAt q :=
  Board.flagFold_cellAt hb b.mine_positions q

theorem Board.flag_mines_fields (b : Board) :
    b.flag_mines.size = b.size ∧ b.flag_mines.mine_positions = b.mine_positions ∧
      b.flag_mines.revealed_count = b.revealed_count ∧
      b.flag_mines.flagged_count = b.flagged_count :=
  Board.flagFold_fields b b.mine_positions

theorem Board.flag_mines_shaped {b : Board} (hb : b.Shaped) : b.flag_mines.Shaped :=
  Board.flagFold_shaped hb b.mine_positions


/-! ## Inversion lemmas for `Board.reveal` -/

theorem Board.reveal_ok_continue_inv {b b1 : Board} (hb : b.Shaped) {pos : CellPosition}
    (h : b.reveal pos = .ok (.Continue, b1)) :
    pos.x < b.size ∧ pos.y < b.size ∧ (b.cellAt pos).is_revealed = false ∧
      (b.cellAt pos).is_flagged = false ∧ (b.cellAt pos).is_mine = false ∧
      b1 = { b.setCell pos Cell.reveal with
               revealed_count := usizeSatAddOne b.revealed_count } := by
  unfold Board.reveal Board.validate_position at h
  by_cases hbound : pos.x ≥ b.size ∨ pos.y ≥ b.size
  · rw [if_pos hbound] at h
    exact absurd h (by simp)
  · rw [if_neg hbound] at h
    dsimp only at h
    by_cases hcr : (b.cellAt pos).is_revealed = true ∨ (b.cellAt pos).is_flagged = true
    · rw [if_pos hcr] at h
      have heq := Except.ok.inj h
      rw [Prod.mk.injEq] at heq
      exact absurd heq.1 (by simp)
    · rw [if_neg hcr] at h
      have hself : (b.setCell pos Cell.reveal).cellAt pos =
          { b.cellAt pos with state := .Revealed } :=
        Board.cellAt_setCell_self hb (by omega) (by omega) Cell.reveal
      by_cases hm : (b.cellAt pos).is_mine = true
      · rw [if_pos (by rw [hself]; simpa [Cell.is_mine] using hm)] at h
        have heq := Except.ok.inj h
        rw [Prod.mk.injEq] at heq
        exact absurd heq.1 (by simp)
      · rw [if_neg (by rw [hself]; simpa [Cell.is_mine] using hm)] at h
        have heq := Except.ok.inj h
        rw [Prod.mk.injEq] at heq
        refine ⟨by omega, by omega, ?_, ?_, by simpa using hm, heq.2.symm⟩
        · rcases Bool.eq_false_or_eq_true (b.cellAt pos).is_revealed with hr | hr
          · exact absurd (Or.inl hr) hcr
          · exact hr
        · rcases Bool.eq_false_or_eq_true (b.cellAt pos).is_flagged with hr | hr
          · exact absurd (Or.inr hr) hcr
          · exact hr

theorem Board.reveal_ok_gameover_inv {b b1 : Board} (hb : b.Shaped)
    {pos mp : CellPosition} (h : b.reveal pos = .ok (.GameOver mp, b1)) :
    mp = pos ∧ pos.x < b.size ∧ pos.y < b.size ∧ (b.cellAt pos).is_revealed = false ∧
      (b.cellAt pos).is_flagged = false ∧ (b.cellAt pos).is_mine = true ∧
      b1 = b.setCell pos Cell.reveal := by
  unfold Board.reveal Board.validate_position at h
  by_cases hbound : pos.x ≥ b.size ∨ pos.y ≥ b.size
  · rw [if_pos hbound] at h
    exact absurd h (by simp)
  · rw [if_neg hbound] at h
    dsimp only at h
    by_cases hcr : (b.cellAt pos).is_revealed = true ∨ (b.cellAt pos).is_flagged = true
    · rw [if_pos hcr] at h
      have heq := Except.ok.inj h
      rw [Prod.mk.injEq] at heq
      exact absurd heq.1 (by simp)
    · rw [if_neg hcr] at h
      have hself : (b.setCell pos Cell.reveal).cellAt pos =
          { b.cellAt pos with state := .Revealed } :=
        Board.cellAt_setCell_self hb (by omega) (by omega) Cell.reveal
      by_cases hm : (b.cellAt pos).is_mine = true
      · rw [if_pos (by rw [hself]; simpa [Cell.is_mine] using hm)] at h
        have heq := Except.ok.inj h
        rw [Prod.mk.injEq] at heq
        refine ⟨(RevealResult.GameOver.inj heq.1).symm, by omega, by omega, ?_, ?_, hm,
          heq.2.symm⟩
        · rcases Bool.eq_false_or_eq_true (b.cellAt pos).is_revealed with hr | hr
          · exact absurd (Or.inl hr) hcr
          · exact hr
        · rcases Bool.eq_false_or_eq_true (b.cellAt pos).is_flagged with hr | hr
          · exact absurd (Or.inr hr) hcr
          · exact hr
      · rw [if_neg (by rw [hself]; simpa [Cell.is_mine] using hm)] at h
        have heq := Except.ok.inj h
        rw [Prod.mk.injEq] at heq
        exact absurd heq.1 (by simp)

theorem Board.reveal_ok_cantreveal_inv {b b1 : Board} (hb : b.Shaped)
    {pos : CellPosition} (h : b.reveal pos = .ok (.CantReveal, b1)) :
    pos.x < b.size ∧ pos.y < b.size ∧
      ((b.cellAt pos).is_revealed = true ∨ (b.cellAt pos).is_flagged = true) ∧ b1 = b := by
  unfold Board.reveal Board.validate_position at h
  by_cases hbound : pos.x ≥ b.size ∨ pos.y ≥ b.size
  · rw [if_pos hbound] at h
    exact absurd h (by simp)
  · rw [if_neg hbound] at h
    dsimp only at h
    by_cases hcr : (b.cellAt pos).is_revealed = true ∨ (b.cellAt pos).is_flagged = true
    · rw [if_pos hcr] at h
      have heq := Except.ok.inj h
      rw [Prod.mk.injEq] at heq
      exact ⟨by omega, by omega, hcr, heq.2.symm⟩
    · rw [if_neg hcr] at h
      have hself : (b.setCell pos Cell.reveal).cellAt pos =
          { b.cellAt pos with state := .Revealed } :=
        Board.cellAt_setCell_self hb (by omega) (by omega) Cell.reveal
      by_cases hm : (b.cellAt pos).is_mine = true
      · rw [if_pos (by rw [hself]; simpa [Cell.is_mine] using hm)] at h
        have heq := Except.ok.inj h
        rw [Prod.mk.injEq] at heq
        exact absurd heq.1 (by simp)
      · rw [if_neg (by rw [hself]; simpa [Cell.is_mine] using hm)] at h
        have heq := Except.ok.inj h
        rw [Prod.mk.injEq] at heq
        exact absurd heq.1 (by simp)

/-! ## Position universe, revealed-count faithfulness, flood reachability -/

/-- The finite set of in-bounds positions of a board. -/
def Board.allPositions (b : Board) : Finset CellPosition :=
  (Finset.range b.size ×ˢ Finset.range b.size).image fun xy => ⟨xy.1, xy.2⟩

theorem Board.mem_allPositions {b : Board} {q : CellPosition} :
    q ∈ b.allPositions ↔ q.x < b.size ∧ q.y < b.size := by
  unfold Board.allPositions
  simp only [Finset.mem_image, Finset.mem_product, Finset.mem_range]
  constructor
  · rintro ⟨⟨x, y⟩, ⟨hx, hy⟩, rfl⟩
    exact ⟨hx, hy⟩
  · rintro ⟨hx, hy⟩
    exact ⟨(q.x, q.y), ⟨hx, hy⟩, by cases q; rfl⟩

theorem Board.allPositions_card (b : Board) : b.allPositions.card = b.size ^ 2 := by
  unfold Board.allPositions
  rw [Finset.card_image_of_injective _ (fun a a' ha => by
    cases a; cases a'
    simpa [CellPosition.mk.injEq, Prod.ext_iff] using ha)]
  rw [Finset.card_product, Finset.card_range]
  ring

/-- The number of in-bounds, revealed, non-mine cells on the grid. -/
def Board.revealedNonMineCount (b : Board) : Nat :=
  (b.allPositions.filter
    (fun q => (b.cellAt q).is_revealed = true ∧ (b.cellAt q).is_mine = false)).card

/-- `revealed_count` really counts the revealed non-mine cells. -/
def Board.rcFaithful (b : Board) : Prop :=
  b.revealed_count = b.revealedNonMineCount

instance (b : Board) : Decidable b.rcFaithful := by
  unfold Board.rcFaithful; infer_instance

/-- One traversal step of the flood fill, read off the pre-traversal board:
from a hidden zero-count cell to a hidden in-bounds neighbor. -/
def floodStep (b : Board) (u v : CellPosition) : Prop :=
  (b.cellAt u).state = .Hidden ∧ (b.cellAt u).is_empty = true ∧
    v ∈ b.adjacent_positions u ∧ (b.cellAt v).state = .Hidden

/-- Flood-fill reachability from the seed on the pre-traversal board. -/
def Reach (b : Board) (s q : CellPosition) : Prop :=
  Relation.ReflTransGen (floodStep b) s q

/-- The neighbor scan loop inside `reveal_area`: mark all neighbors visited,
enqueue the fresh hidden ones. -/
theorem flood_fold_spec (bb : Board) (l : List CellPosition) (hl : l.Nodup)
    (vis : Finset CellPosition) (qu : List CellPosition) :
    l.foldl
      (fun (acc : Finset CellPosition × List CellPosition) adj =>
        if adj ∈ acc.1 then acc
        else
          if (bb.cellAt adj).is_revealed = false ∧ (bb.cellAt adj).is_flagged = false then
            (insert adj acc.1, acc.2 ++ [adj])
          else
            (insert adj acc.1, acc.2))
      (vis, qu) =
    (vis ∪ l.toFinset,
      qu ++ l.filter (fun a => decide (a ∉ vis ∧ (bb.cellAt a).is_revealed = false ∧
        (bb.cellAt a).is_flagged = false))) := by
  induction l generalizing vis qu with
  | nil => simp
  | cons a rest ih =>
    rw [List.foldl_cons]
    obtain ⟨hanotin, hrestnd⟩ := List.nodup_cons.mp hl
    by_cases hav : a ∈ vis
    · rw [if_pos hav]
      rw [ih hrestnd vis qu]
      have hfa : (a :: rest).filter (fun a => decide (a ∉ vis ∧
          (bb.cellAt a).is_revealed = false ∧ (bb.cellAt a).is_flagged = false)) =
          rest.filter (fun a => decide (a ∉ vis ∧ (bb.cellAt a).is_revealed = false ∧
            (bb.cellAt a).is_flagged = false)) :=
        List.filter_cons_of_neg (by simp [hav])
      rw [hfa]
      congr 1
      ext q
      simp only [Finset.mem_union, List.mem_toFinset, List.mem_cons]
      constructor
      · rintro (h | h) <;> tauto
      · rintro (h | rfl | h) <;> tauto
    · rw [if_neg hav]
      have hsetcongr : ∀ qu2, (rest.foldl
          (fun (acc : Finset CellPosition × List CellPosition) adj =>
            if adj ∈ acc.1 then acc
            else
              if (bb.cellAt adj).is_revealed = false ∧ (bb.cellAt adj).is_flagged = false then
                (insert adj acc.1, acc.2 ++ [adj])
              else
                (insert adj acc.1, acc.2))
          (insert a vis, qu2)) =
          (insert a vis ∪ rest.toFinset,
            qu2 ++ rest.filter (fun x => decide (x ∉ insert a vis ∧
              (bb.cellAt x).is_revealed = false ∧ (bb.cellAt x).is_flagged = false))) :=
        fun qu2 => ih hrestnd (insert a vis) qu2
      have hfilcongr : rest.filter (fun x => decide (x ∉ insert a vis ∧
            (bb.cellAt x).is_revealed = false ∧ (bb.cellAt x).is_flagged = false)) =
          rest.filter (fun x => decide (x ∉ vis ∧
            (bb.cellAt x).is_revealed = false ∧ (bb.cellAt x).is_flagged = false)) := by
        apply List.filter_congr
        intro x hx
        have hxa : x ≠ a := fun hc => hanotin (hc ▸ hx)
        simp [Finset.mem_insert, hxa]
      have hvisset : insert a vis ∪ rest.toFinset = vis ∪ (a :: rest).toFinset := by
        ext q
        simp only [Finset.mem_union, Finset.mem_insert, List.mem_toFinset, List.mem_cons]
        tauto
      by_cases hcond : (bb.cellAt a).is_revealed = false ∧ (bb.cellAt a).is_flagged = false
      · rw [if_pos hcond, hsetcongr, hfilcongr, hvisset]
        have hfa : (a :: rest).filter (fun x => decide (x ∉ vis ∧
            (bb.cellAt x).is_revealed = false ∧ (bb.cellAt x).is_flagged = false)) =
            a :: rest.filter (fun x => decide (x ∉ vis ∧
              (bb.cellAt x).is_revealed = false ∧ (bb.cellAt x).is_flagged = false)) :=
          List.filter_cons_of_pos (by simp [hav, hcond])
        rw [hfa]
        simp [List.append_assoc]
      · rw [if_neg hcond, hsetcongr, hfilcongr, hvisset]
        have hfa : (a :: rest).filter (fun x => decide (x ∉ vis ∧
            (bb.cellAt x).is_revealed = false ∧ (bb.cellAt x).is_flagged = false)) =
            rest.filter (fun x => decide (x ∉ vis ∧
              (bb.cellAt x).is_revealed = false ∧ (bb.cellAt x).is_flagged = false)) :=
          List.filter_cons_of_neg (by simp [hcond])
        rw [hfa]

theorem Cell.state_hidden_of_not {c : Cell} (h1 : c.is_revealed = false)
    (h2 : c.is_flagged = false) : c.state = .Hidden := by
  cases hc : c.state
  · rfl
  · rw [Cell.is_revealed, hc] at h1
    simp at h1
  · rw [Cell.is_flagged, hc] at h2
    simp at h2

theorem Cell.hidden_not_revealed {c : Cell} (h : c.state = .Hidden) :
    c.is_revealed = false := by
  rw [Cell.is_revealed, h]
  simp

theorem Cell.hidden_not_flagged {c : Cell} (h : c.state = .Hidden) :
    c.is_flagged = false := by
  rw [Cell.is_flagged, h]
  simp

theorem Board.revealedNonMineCount_setReveal {b : Board} (hb : b.Shaped) {pos : CellPosition}
    (hx : pos.x < b.size) (hy : pos.y < b.size) (hrev : (b.cellAt pos).is_revealed = false)
    (hm : (b.cellAt pos).is_mine = false) :
    (b.setCell pos Cell.reveal).revealedNonMineCount = b.revealedNonMineCount + 1 := by
  unfold Board.revealedNonMineCount
  have hall : (b.setCell pos Cell.reveal).allPositions = b.allPositions := rfl
  rw [hall]
  have hfil : b.allPositions.filter
      (fun q => ((b.setCell pos Cell.reveal).cellAt q).is_revealed = true ∧
        ((b.setCell pos Cell.reveal).cellAt q).is_mine = false) =
      insert pos (b.allPositions.filter
        (fun q => (b.cellAt q).is_revealed = true ∧ (b.cellAt q).is_mine = false)) := by
    ext q
    simp only [Finset.mem_insert, Finset.mem_filter]
    by_cases hq : q = pos
    · subst hq
      have hcell : (b.setCell q Cell.reveal).cellAt q =
          { b.cellAt q with state := .Revealed } :=
        Board.cellAt_setCell_self hb hx hy Cell.reveal
      constructor
      · intro _
        exact Or.inl rfl
      · intro _
        refine ⟨Board.mem_allPositions.mpr ⟨hx, hy⟩, ?_, ?_⟩
        · rw [hcell]
          simp [Cell.is_revealed]
        · rw [hcell]
          simpa [Cell.is_mine] using hm
    · rw [Board.cellAt_setCell_ne hq Cell.reveal]
      simp [hq]
  rw [hfil]
  rw [Finset.card_insert_of_not_mem (by
    simp only [Finset.mem_filter]
    rintro ⟨-, hr, -⟩
    rw [hrev] at hr
    exact absurd hr (by simp))]

theorem Board.revealedNonMineCount_le {b : Board} {pos : CellPosition}
    (hx : pos.x < b.size) (hy : pos.y < b.size)
    (hrev : (b.cellAt pos).is_revealed = false) :
    b.revealedNonMineCount + 1 ≤ b.size ^ 2 := by
  unfold Board.revealedNonMineCount
  have hsub : b.allPositions.filter
      (fun q => (b.cellAt q).is_revealed = true ∧ (b.cellAt q).is_mine = false) ⊆
      b.allPositions.erase pos := by
    intro q hq
    rw [Finset.mem_filter] at hq
    rw [Finset.mem_erase]
    refine ⟨?_, hq.1⟩
    rintro rfl
    rw [hrev] at hq
    exact absurd hq.2.1 (by simp)
  have hle := Finset.card_le_card hsub
  rw [Finset.card_erase_of_mem (Board.mem_allPositions.mpr ⟨hx, hy⟩)] at hle
  rw [Board.allPositions_card] at hle
  have h1 : 0 < b.size := lt_of_le_of_lt (Nat.zero_le _) hx
  have hpos : 0 < b.size ^ 2 := by positivity
  omega

theorem GameState.reveal_area_go_nil (fuel : Nat) (gs : GameState)
    (visited : Finset CellPosition) :
    GameState.reveal_area_go (fuel + 1) gs [] visited = some (.ok (.Continue, gs)) := rfl

theorem GameState.reveal_area_go_cons (fuel : Nat) (gs : GameState) (pos : CellPosition)
    (queue : List CellPosition) (visited : Finset CellPosition) :
    GameState.reveal_area_go (fuel + 1) gs (pos :: queue) visited =
      match gs.board.reveal pos with
      | .error e => some (.error e)
      | .ok (.CantReveal, b) => some (.ok (.CantReveal, { gs with board := b }))
      | .ok (.GameOver mine_pos, b) =>
        let b2 := b.reveal_mines
        some (.ok (.GameOver mine_pos,
          { gs with
              board := b2
              status := .Lost
              revealed_cells := insert pos gs.revealed_cells ∪ b2.mine_positions.toFinset }))
      | .ok (.Continue, b) =>
        let gs1 := { gs with board := b, revealed_cells := insert pos gs.revealed_cells }
        if (gs1.board.cellAt pos).is_empty then
          let step :=
            (gs1.board.adjacent_positions pos).foldl
              (fun (acc : Finset CellPosition × List CellPosition) adj =>
                if adj ∈ acc.1 then acc
                else
                  let c := gs1.board.cellAt adj
                  if c.is_revealed = false ∧ c.is_flagged = false then
                    (insert adj acc.1, acc.2 ++ [adj])
                  else
                    (insert adj acc.1, acc.2))
              (visited, queue)
          GameState.reveal_area_go fuel gs1 step.2 step.1
        else
          GameState.reveal_area_go fuel gs1 queue visited := rfl

/-- Loop invariant of the flood-fill traversal, tying the current loop state
(board `gs`, work queue, visited set) to the entry state `gs0`, the seed `s`
and the set `P` of already-popped (hence revealed) positions. -/
structure FloodInv (gs0 : GameState) (s : CellPosition) (gs : GameState)
    (queue : List CellPosition) (visited : Finset CellPosition)
    (P : Finset CellPosition) : Prop where
  shaped0 : gs0.board.Shaped
  nm0 : gs0.board.noMineAdjacentToEmpty
  hsz64 : gs0.board.size ^ 2 < 2 ^ 64
  cell_in : ∀ q ∈ P, gs.board.cellAt q = { gs0.board.cellAt q with state := .Revealed }
  cell_out : ∀ q : CellPosition, q ∉ P → gs.board.cellAt q = gs0.board.cellAt q
  size_eq : gs.board.size = gs0.board.size
  mines_eq : gs.board.mine_positions = gs0.board.mine_positions
  fc_eq : gs.board.flagged_count = gs0.board.flagged_count
  shaped : gs.board.Shaped
  rcf : gs0.board.rcFaithful → gs.board.rcFaithful
  P_props : ∀ q ∈ P, Reach gs0.board s q ∧ (gs0.board.cellAt q).state = .Hidden ∧
    (gs0.board.cellAt q).is_mine = false ∧ q.x < gs0.board.size ∧ q.y < gs0.board.size
  P_sub_vis : P ⊆ visited
  q_props : ∀ q ∈ queue, Reach gs0.board s q ∧ (gs0.board.cellAt q).state = .Hidden ∧
    (gs0.board.cellAt q).is_mine = false ∧ q.x < gs0.board.size ∧ q.y < gs0.board.size
  q_nodup : queue.Nodup
  q_notP : ∀ q ∈ queue, q ∉ P
  q_sub_vis : ∀ q ∈ queue, q ∈ visited
  vis_closure : ∀ v ∈ visited, (gs0.board.cellAt v).state = .Hidden → v ∈ P ∨ v ∈ queue
  expand_closure : ∀ u ∈ P, (gs0.board.cellAt u).is_empty = true →
    ∀ v ∈ gs0.board.adjacent_positions u, v ∈ visited
  s_vis : s ∈ visited
  status_eq : gs.status = gs0.status
  diff_eq : gs.difficulty = gs0.difficulty
  st_eq : gs.start_time = gs0.start_time
  el_eq : gs.elapsed_seconds = gs0.elapsed_seconds
  fcs_eq : gs.flagged_cells = gs0.flagged_cells
  cr_eq : gs.custom_flags_remaining = gs0.custom_flags_remaining
  rev_eq : ∀ q : CellPosition, q ∈ gs.revealed_cells ↔ q ∈ gs0.revealed_cells ∨ q ∈ P

/-- Everything the claims need about a `Continue` outcome of the flood fill:
the revealed set is exactly the hidden flood-reachable set, every other cell
and every other field is untouched. -/
structure FloodOut (gs0 : GameState) (s : CellPosition) (gs' : GameState)
    (P' : Finset CellPosition) : Prop where
  popped : ∀ q : CellPosition,
    q ∈ P' ↔ ((gs0.board.cellAt q).state = .Hidden ∧ Reach gs0.board s q)
  cell_in : ∀ q ∈ P', gs'.board.cellAt q = { gs0.board.cellAt q with state := .Revealed }
  cell_out : ∀ q : CellPosition, q ∉ P' → gs'.board.cellAt q = gs0.board.cellAt q
  nonmine : ∀ q ∈ P', (gs0.board.cellAt q).is_mine = false
  size_eq : gs'.board.size = gs0.board.size
  mines_eq : gs'.board.mine_positions = gs0.board.mine_positions
  fc_eq : gs'.board.flagged_count = gs0.board.flagged_count
  shaped : gs'.board.Shaped
  rcf : gs0.board.rcFaithful → gs'.board.rcFaithful
  status_eq : gs'.status = gs0.status
  diff_eq : gs'.difficulty = gs0.difficulty
  st_eq : gs'.start_time = gs0.start_time
  el_eq : gs'.elapsed_seconds = gs0.elapsed_seconds
  fcs_eq : gs'.flagged_cells = gs0.flagged_cells
  cr_eq : gs'.custom_flags_remaining = gs0.custom_flags_remaining
  rev_eq : ∀ q : CellPosition, q ∈ gs'.revealed_cells ↔ q ∈ gs0.revealed_cells ∨ q ∈ P'


theorem reveal_area_go_continue_spec (fuel : Nat) :
    ∀ (gs0 gs : GameState) (s : CellPosition) (queue : List CellPosition)
      (visited P : Finset CellPosition),
      FloodInv gs0 s gs queue visited P →
      (gs0.board.allPositions \ visited).card + queue.length < fuel →
      ∃ gs' P', GameState.reveal_area_go fuel gs queue visited =
          some (.ok (.Continue, gs')) ∧ FloodOut gs0 s gs' P' := by
  induction fuel with
  | zero =>
    intro _ _ _ _ _ _ _ hm
    omega
  | succ n ih =>
    intro gs0 gs s queue visited P hinv hm
    match queue with
    | [] =>
      rw [GameState.reveal_area_go_nil]
      refine ⟨gs, P, rfl, ?_⟩
      have hpopped : ∀ q : CellPosition,
          q ∈ P ↔ ((gs0.board.cellAt q).state = .Hidden ∧ Reach gs0.board s q) := by
        intro q
        constructor
        · intro hq
          exact ⟨(hinv.P_props q hq).2.1, (hinv.P_props q hq).1⟩
        · rintro ⟨hhid, hreach⟩
          unfold Reach at hreach
          revert hhid
          induction hreach with
          | refl =>
            intro hhid
            exact (hinv.vis_closure s hinv.s_vis hhid).resolve_right (List.not_mem_nil s)
          | @tail u q hru hstep ihq =>
            intro hhid
            obtain ⟨hhu, hempu, hadj, -⟩ := hstep
            have huP : u ∈ P := ihq hhu
            have hqvis : q ∈ visited := hinv.expand_closure u huP hempu q hadj
            exact (hinv.vis_closure q hqvis hhid).resolve_right (List.not_mem_nil q)
      exact ⟨hpopped, hinv.cell_in, hinv.cell_out,
        fun q hq => (hinv.P_props q hq).2.2.1, hinv.size_eq, hinv.mines_eq, hinv.fc_eq,
        hinv.shaped, hinv.rcf, hinv.status_eq, hinv.diff_eq, hinv.st_eq, hinv.el_eq,
        hinv.fcs_eq, hinv.cr_eq, hinv.rev_eq⟩
    | pos :: rest =>
      obtain ⟨hreachp, hhidp, hminep, hpx0, hpy0⟩ :=
        hinv.q_props pos (List.mem_cons_self pos rest)
      have hposnotP : pos ∉ P := hinv.q_notP pos (List.mem_cons_self pos rest)
      have hposvis : pos ∈ visited := hinv.q_sub_vis pos (List.mem_cons_self pos rest)
      have hposnotrest : pos ∉ rest := (List.nodup_cons.mp hinv.q_nodup).1
      have hrestnd : rest.Nodup := (List.nodup_cons.mp hinv.q_nodup).2
      have hcellp : gs.board.cellAt pos = gs0.board.cellAt pos := hinv.cell_out pos hposnotP
      have hpx : pos.x < gs.board.size := by rw [hinv.size_eq]; exact hpx0
      have hpy : pos.y < gs.board.size := by rw [hinv.size_eq]; exact hpy0
      have hrevp : (gs.board.cellAt pos).is_revealed = false := by
        rw [hcellp]; exact Cell.hidden_not_revealed hhidp
      have hflp : (gs.board.cellAt pos).is_flagged = false := by
        rw [hcellp]; exact Cell.hidden_not_flagged hhidp
      have hmip : (gs.board.cellAt pos).is_mine = false := by rw [hcellp]; exact hminep
      have hrev := Board.reveal_continue hinv.shaped hpx hpy hrevp hflp hmip
      set bnew : Board := { gs.board.setCell pos Cell.reveal with
          revealed_count := usizeSatAddOne gs.board.revealed_count } with hbnewdef
      -- facts about the successor board
      have hbnshape : bnew.Shaped := Board.shaped_setCell hinv.shaped pos Cell.reveal
      have hbnsize : bnew.size = gs0.board.size := hinv.size_eq
      have hbnmines : bnew.mine_positions = gs0.board.mine_positions := hinv.mines_eq
      have hbnfc : bnew.flagged_count = gs0.board.flagged_count := hinv.fc_eq
      have hbncell_self : bnew.cellAt pos = { gs0.board.cellAt pos with state := .Revealed } := by
        have : bnew.cellAt pos = (gs.board.setCell pos Cell.reveal).cellAt pos := rfl
        rw [this, Board.cellAt_setCell_self hinv.shaped hpx hpy Cell.reveal, hcellp]
        rfl
      have hbncell_ne : ∀ q : CellPosition, q ≠ pos → bnew.cellAt q = gs.board.cellAt q :=
        fun q hq => Board.cellAt_setCell_ne hq Cell.reveal
      have hbncell_in : ∀ q ∈ insert pos P,
          bnew.cellAt q = { gs0.board.cellAt q with state := .Revealed } := by
        intro q hq
        rcases Finset.mem_insert.mp hq with rfl | hq
        · exact hbncell_self
        · have hqne : q ≠ pos := fun hc => hposnotP (hc ▸ hq)
          rw [hbncell_ne q hqne]
          exact hinv.cell_in q hq
      have hbncell_out : ∀ q : CellPosition, q ∉ insert pos P →
          bnew.cellAt q = gs0.board.cellAt q := by
        intro q hq
        have hqne : q ≠ pos := fun hc => hq (hc ▸ Finset.mem_insert_self pos P)
        rw [hbncell_ne q hqne]
        exact hinv.cell_out q (fun hc => hq (Finset.mem_insert_of_mem hc))
      have hbnrcf : gs0.board.rcFaithful → bnew.rcFaithful := by
        intro h0
        have hgsrcf := hinv.rcf h0
        have hcount : bnew.revealedNonMineCount = gs.board.revealedNonMineCount + 1 := by
          have : bnew.revealedNonMineCount =
              (gs.board.setCell pos Cell.reveal).revealedNonMineCount := rfl
          rw [this, Board.revealedNonMineCount_setReveal hinv.shaped hpx hpy hrevp hmip]
        have hbound := Board.revealedNonMineCount_le hpx hpy hrevp
        unfold Board.rcFaithful at hgsrcf ⊢
        rw [hcount]
        have hrc : bnew.revealed_count = usizeSatAddOne gs.board.revealed_count := rfl
        rw [hrc, hgsrcf]
        have hsz : gs.board.size = gs0.board.size := hinv.size_eq
        have h64 : gs.board.size ^ 2 < 2 ^ 64 := by rw [hsz]; exact hinv.hsz64
        exact usizeSatAddOne_eq hbound h64
      have hreven : ∀ q : CellPosition,
          q ∈ insert pos gs.revealed_cells ↔ q ∈ gs0.revealed_cells ∨ q ∈ insert pos P := by
        intro q
        rw [Finset.mem_insert, Finset.mem_insert, hinv.rev_eq q]
        tauto
      have hstep : GameState.reveal_area_go (n + 1) gs (pos :: rest) visited =
          (if (bnew.cellAt pos).is_empty = true then
            GameState.reveal_area_go n
              { gs with board := bnew, revealed_cells := insert pos gs.revealed_cells }
              (rest ++ (bnew.adjacent_positions pos).filter
                (fun a => decide (a ∉ visited ∧ (bnew.cellAt a).is_revealed = false ∧
                  (bnew.cellAt a).is_flagged = false)))
              (visited ∪ (bnew.adjacent_positions pos).toFinset)
          else
            GameState.reveal_area_go n
              { gs with board := bnew, revealed_cells := insert pos gs.revealed_cells }
              rest visited) := by
        rw [GameState.reveal_area_go_cons, hrev]
        dsimp only
        rw [flood_fold_spec bnew (bnew.adjacent_positions pos)
          (Board.adjacent_nodup bnew pos) visited rest]
      rw [hstep]
      by_cases hemp : (bnew.cellAt pos).is_empty = true
      · rw [if_pos hemp]
        have hempty0 : (gs0.board.cellAt pos).is_empty = true := by
          rw [hbncell_self] at hemp
          simpa [Cell.is_empty] using hemp
        have hadjcongr : bnew.adjacent_positions pos = gs0.board.adjacent_positions pos :=
          Board.adjacent_congr hbnsize pos
        have hposeta : (⟨pos.x, pos.y⟩ : CellPosition) = pos := by cases pos; rfl
        have hnm := hinv.nm0 pos.x hpx0 pos.y hpy0
        rw [hposeta] at hnm
        have hnonmine0 : ∀ v ∈ gs0.board.adjacent_positions pos,
            (gs0.board.cellAt v).is_mine = false := hnm hempty0
        -- characterize the freshly enqueued positions
        have hnewE_mem : ∀ a, a ∈ (bnew.adjacent_positions pos).filter
              (fun a => decide (a ∉ visited ∧ (bnew.cellAt a).is_revealed = false ∧
                (bnew.cellAt a).is_flagged = false)) ↔
            (a ∈ gs0.board.adjacent_positions pos ∧ a ∉ visited ∧
              (gs0.board.cellAt a).state = .Hidden) := by
          intro a
          rw [List.mem_filter, hadjcongr]
          constructor
          · rintro ⟨hmem, hdec⟩
            rw [decide_eq_true_eq] at hdec
            obtain ⟨hnvis, hnr, hnf⟩ := hdec
            have hane : a ≠ pos := fun hc => hnvis (hc ▸ hposvis)
            have hanotP : a ∉ P := fun hc => hnvis (hinv.P_sub_vis hc)
            have hcella : bnew.cellAt a = gs0.board.cellAt a := by
              rw [hbncell_ne a hane]
              exact hinv.cell_out a hanotP
            rw [hcella] at hnr hnf
            exact ⟨hmem, hnvis, Cell.state_hidden_of_not hnr hnf⟩
          · rintro ⟨hmem, hnvis, hhid⟩
            refine ⟨hmem, ?_⟩
            rw [decide_eq_true_eq]
            have hane : a ≠ pos := fun hc => hnvis (hc ▸ hposvis)
            have hanotP : a ∉ P := fun hc => hnvis (hinv.P_sub_vis hc)
            have hcella : bnew.cellAt a = gs0.board.cellAt a := by
              rw [hbncell_ne a hane]
              exact hinv.cell_out a hanotP
            rw [hcella]
            exact ⟨hnvis, Cell.hidden_not_revealed hhid, Cell.hidden_not_flagged hhid⟩
        have hnewEnd : ((bnew.adjacent_positions pos).filter
            (fun a => decide (a ∉ visited ∧ (bnew.cellAt a).is_revealed = false ∧
              (bnew.cellAt a).is_flagged = false))).Nodup :=
          (Board.adjacent_nodup bnew pos).filter _
        -- the new invariant
        refine ih gs0 _ s _ _ (insert pos P) ?_ ?_
        · refine ⟨hinv.shaped0, hinv.nm0, hinv.hsz64, hbncell_in, hbncell_out, hbnsize,
            hbnmines, hbnfc, hbnshape, hbnrcf, ?_, ?_, ?_, ?_, ?_, ?_, ?_, ?_, ?_,
            hinv.status_eq, hinv.diff_eq, hinv.st_eq, hinv.el_eq, hinv.fcs_eq, hinv.cr_eq,
            hreven⟩
          · -- P_props for insert pos P
            intro q hq
            rcases Finset.mem_insert.mp hq with rfl | hq
            · exact ⟨hreachp, hhidp, hminep, hpx0, hpy0⟩
            · exact hinv.P_props q hq
          · -- P_sub_vis
            intro q hq
            rcases Finset.mem_insert.mp hq with rfl | hq
            · exact Finset.mem_union_left _ hposvis
            · exact Finset.mem_union_left _ (hinv.P_sub_vis hq)
          · -- q_props
            intro q hq
            rcases List.mem_append.mp hq with hq | hq
            · exact hinv.q_props q (List.mem_cons_of_mem pos hq)
            · obtain ⟨hmem, hnvis, hhid⟩ := (hnewE_mem q).mp hq
              have hbounds := Board.mem_adjacent_bounds hmem
              refine ⟨?_, hhid, hnonmine0 q hmem, hbounds.1, hbounds.2⟩
              exact Relation.ReflTransGen.tail hreachp ⟨hhidp, hempty0, hmem, hhid⟩
          · -- q_nodup
            rw [List.nodup_append]
            refine ⟨hrestnd, hnewEnd, ?_⟩
            intro a ha hanew
            obtain ⟨-, hnvis, -⟩ := (hnewE_mem a).mp hanew
            exact hnvis (hinv.q_sub_vis a (List.mem_cons_of_mem pos ha))
          · -- q_notP
            intro q hq
            rcases List.mem_append.mp hq with hq1 | hq1
            · intro hc
              rcases Finset.mem_insert.mp hc with hc2 | hc2
              · subst hc2
                exact hposnotrest hq1
              · exact hinv.q_notP q (List.mem_cons_of_mem pos hq1) hc2
            · obtain ⟨-, hnvis, -⟩ := (hnewE_mem q).mp hq1
              intro hc
              rcases Finset.mem_insert.mp hc with hc2 | hc2
              · subst hc2
                exact hnvis hposvis
              · exact hnvis (hinv.P_sub_vis hc2)
          · -- q_sub_vis
            intro q hq
            rcases List.mem_append.mp hq with hq | hq
            · exact Finset.mem_union_left _
                (hinv.q_sub_vis q (List.mem_cons_of_mem pos hq))
            · obtain ⟨hmem, -, -⟩ := (hnewE_mem q).mp hq
              refine Finset.mem_union_right _ ?_
              rw [List.mem_toFinset, hadjcongr]
              exact hmem
          · -- vis_closure
            intro v hv hhidv
            rcases Finset.mem_union.mp hv with hv | hv
            · rcases hinv.vis_closure v hv hhidv with hv2 | hv2
              · exact Or.inl (Finset.mem_insert_of_mem hv2)
              · rcases List.mem_cons.mp hv2 with rfl | hv3
                · exact Or.inl (Finset.mem_insert_self v P)
                · exact Or.inr (List.mem_append_left _ hv3)
            · by_cases hvvis : v ∈ visited
              · rcases hinv.vis_closure v hvvis hhidv with hv2 | hv2
                · exact Or.inl (Finset.mem_insert_of_mem hv2)
                · rcases List.mem_cons.mp hv2 with rfl | hv3
                  · exact Or.inl (Finset.mem_insert_self v P)
                  · exact Or.inr (List.mem_append_left _ hv3)
              · rw [List.mem_toFinset, hadjcongr] at hv
                refine Or.inr (List.mem_append_right _ ?_)
                exact (hnewE_mem v).mpr ⟨hv, hvvis, hhidv⟩
          · -- expand_closure
            intro u hu hempu v hv
            rcases Finset.mem_insert.mp hu with rfl | hu
            · refine Finset.mem_union_right _ ?_
              rw [List.mem_toFinset, hadjcongr]
              exact hv
            · exact Finset.mem_union_left _ (hinv.expand_closure u hu hempu v hv)
          · -- s_vis
            exact Finset.mem_union_left _ hinv.s_vis
        · -- the measure decreases
          rw [List.length_append]
          have hlen : ((bnew.adjacent_positions pos).filter
              (fun a => decide (a ∉ visited ∧ (bnew.cellAt a).is_revealed = false ∧
                (bnew.cellAt a).is_flagged = false))).length =
              ((bnew.adjacent_positions pos).filter
                (fun a => decide (a ∉ visited ∧ (bnew.cellAt a).is_revealed = false ∧
                  (bnew.cellAt a).is_flagged = false))).toFinset.card :=
            (List.toFinset_card_of_nodup hnewEnd).symm
          rw [hlen]
          have hkey : (gs0.board.allPositions \
                (visited ∪ (bnew.adjacent_positions pos).toFinset)).card +
              ((bnew.adjacent_positions pos).filter
                (fun a => decide (a ∉ visited ∧ (bnew.cellAt a).is_revealed = false ∧
                  (bnew.cellAt a).is_flagged = false))).toFinset.card ≤
              (gs0.board.allPositions \ visited).card := by
            rw [← Finset.card_union_of_disjoint (by
              rw [Finset.disjoint_left]
              intro a ha hafin
              rw [Finset.mem_sdiff, Finset.mem_union] at ha
              rw [List.mem_toFinset] at hafin
              exact ha.2 (Or.inr (by
                rw [List.mem_toFinset]
                exact List.mem_of_mem_filter hafin)))]
            apply Finset.card_le_card
            intro a ha
            rcases Finset.mem_union.mp ha with ha | ha
            · rw [Finset.mem_sdiff, Finset.mem_union] at ha
              rw [Finset.mem_sdiff]
              exact ⟨ha.1, fun hc => ha.2 (Or.inl hc)⟩
            · rw [List.mem_toFinset] at ha
              obtain ⟨hmem, hnvis, -⟩ := (hnewE_mem a).mp ha
              have hbounds := Board.mem_adjacent_bounds hmem
              rw [Finset.mem_sdiff, Board.mem_allPositions]
              exact ⟨⟨hbounds.1, hbounds.2⟩, hnvis⟩
          simp only [List.length_cons] at hm
          omega
      · rw [if_neg hemp]
        have hempty0 : (gs0.board.cellAt pos).is_empty = false := by
          rcases Bool.eq_false_or_eq_true ((gs0.board.cellAt pos).is_empty) with h | h
          · exfalso
            apply hemp
            rw [hbncell_self]
            simp only [Cell.is_empty] at h ⊢
            simpa using h
          · exact h
        refine ih gs0 _ s _ _ (insert pos P) ?_ ?_
        · refine ⟨hinv.shaped0, hinv.nm0, hinv.hsz64, hbncell_in, hbncell_out, hbnsize,
            hbnmines, hbnfc, hbnshape, hbnrcf, ?_, ?_, ?_, hrestnd, ?_, ?_, ?_, ?_,
            hinv.s_vis, hinv.status_eq, hinv.diff_eq, hinv.st_eq, hinv.el_eq, hinv.fcs_eq,
            hinv.cr_eq, hreven⟩
          · intro q hq
            rcases Finset.mem_insert.mp hq with rfl | hq
            · exact ⟨hreachp, hhidp, hminep, hpx0, hpy0⟩
            · exact hinv.P_props q hq
          · intro q hq
            rcases Finset.mem_insert.mp hq with rfl | hq
            · exact hposvis
            · exact hinv.P_sub_vis hq
          · intro q hq
            exact hinv.q_props q (List.mem_cons_of_mem pos hq)
          · intro q hq
            intro hc
            rcases Finset.mem_insert.mp hc with rfl | hc
            · exact hposnotrest hq
            · exact hinv.q_notP q (List.mem_cons_of_mem pos hq) hc
          · intro q hq
            exact hinv.q_sub_vis q (List.mem_cons_of_mem pos hq)
          · intro v hv hhidv
            rcases hinv.vis_closure v hv hhidv with hv2 | hv2
            · exact Or.inl (Finset.mem_insert_of_mem hv2)
            · rcases List.mem_cons.mp hv2 with rfl | hv3
              · exact Or.inl (Finset.mem_insert_self v P)
              · exact Or.inr hv3
          · intro u hu hempu v hv
            rcases Finset.mem_insert.mp hu with rfl | hu
            · rw [hempu] at hempty0
              exact absurd hempty0 (by simp)
            · exact hinv.expand_closure u hu hempu v hv
        · simp only [List.length_cons] at hm
          omega

theorem reveal_area_continue_spec {gs : GameState} {s : CellPosition}
    (hb : gs.board.Shaped) (hnm : gs.board.noMineAdjacentToEmpty)
    (hsz64 : gs.board.size ^ 2 < 2 ^ 64)
    (hsx : s.x < gs.board.size) (hsy : s.y < gs.board.size)
    (hhid : (gs.board.cellAt s).state = .Hidden)
    (hsm : (gs.board.cellAt s).is_mine = false) :
    ∃ gs' P', gs.reveal_area s = some (.ok (.Continue, gs')) ∧ FloodOut gs s gs' P' := by
  have hinv : FloodInv gs s gs [s] {s} ∅ := by
    refine ⟨hb, hnm, hsz64, by simp, fun q _ => rfl, rfl, rfl, rfl, hb, fun h => h,
      by simp, by simp, ?_, by simp, by simp, ?_, ?_, by simp, ?_, rfl, rfl,
      rfl, rfl, rfl, rfl, fun q => by simp⟩
    · intro q hq
      rw [List.mem_singleton] at hq
      subst hq
      exact ⟨Relation.ReflTransGen.refl, hhid, hsm, hsx, hsy⟩
    · intro q hq
      rw [List.mem_singleton] at hq
      subst hq
      exact Finset.mem_singleton_self q
    · intro v hv _
      rw [Finset.mem_singleton] at hv
      subst hv
      exact Or.inr (List.mem_singleton_self v)
    · exact Finset.mem_singleton_self s
  have hm : (gs.board.allPositions \ ({s} : Finset CellPosition)).card + [s].length <
      gs.board.size ^ 2 + 2 := by
    have hcard : (gs.board.allPositions \ {s}).card ≤ gs.board.allPositions.card :=
      Finset.card_le_card (Finset.sdiff_subset)
    rw [Board.allPositions_card] at hcard
    simp only [List.length_singleton]
    omega
  unfold GameState.reveal_area
  exact reveal_area_go_continue_spec (gs.board.size ^ 2 + 2) gs gs s [s] {s} ∅ hinv hm

theorem reveal_area_go_gameover_spec (fuel : Nat) :
    ∀ (gs : GameState) (queue : List CellPosition) (visited : Finset CellPosition)
      (mp : CellPosition) (gs' : GameState),
      gs.board.Shaped →
      (∀ m ∈ gs.board.mine_positions, m.x < gs.board.size ∧ m.y < gs.board.size) →
      GameState.reveal_area_go fuel gs queue visited = some (.ok (.GameOver mp, gs')) →
      gs'.status = .Lost ∧
      gs'.board.mine_positions = gs.board.mine_positions ∧
      (∀ m ∈ gs'.board.mine_positions,
        (gs'.board.cellAt m).is_flagged = true ∨ (gs'.board.cellAt m).is_revealed = true) ∧
      (∀ m ∈ gs'.board.mine_positions, m ∈ gs'.revealed_cells) ∧
      (gs'.board.cellAt mp).is_mine = true ∧ (gs'.board.cellAt mp).is_revealed = true ∧
      gs'.difficulty = gs.difficulty ∧ gs'.start_time = gs.start_time := by
  induction fuel with
  | zero =>
    intro gs queue visited mp gs' _ _ h
    exact absurd h (by unfold GameState.reveal_area_go; simp)
  | succ n ih =>
    intro gs queue visited mp gs' hb hminb h
    match queue with
    | [] =>
      rw [GameState.reveal_area_go_nil] at h
      simp at h
    | pos :: rest =>
      rw [GameState.reveal_area_go_cons] at h
      cases hrev : gs.board.reveal pos with
      | error e =>
        rw [hrev] at h
        simp at h
      | ok rb =>
        obtain ⟨r, b⟩ := rb
        cases r with
        | CantReveal =>
          rw [hrev] at h
          simp at h
        | GameOver mp2 =>
          rw [hrev] at h
          dsimp only at h
          obtain ⟨hmp2, hpx, hpy, hrevealed, hflagged, hmine, hbdef⟩ :=
            Board.reveal_ok_gameover_inv hb hrev
          rw [Option.some.injEq] at h
          have hpair := Except.ok.inj h
          rw [Prod.mk.injEq] at hpair
          obtain ⟨hres, hgs'⟩ := hpair
          have hmppos : pos = mp := (RevealResult.GameOver.inj hres ▸ hmp2).symm
          rw [hmppos] at hrev hbdef hpx hpy hrevealed hflagged hmine
          have hbshape : b.Shaped := by
            rw [hbdef]
            exact Board.shaped_setCell hb mp Cell.reveal
          have hbsize : b.size = gs.board.size := by rw [hbdef]; rfl
          have hbmines : b.mine_positions = gs.board.mine_positions := by rw [hbdef]; rfl
          have hcellb_self : b.cellAt mp = { gs.board.cellAt mp with state := .Revealed } := by
            rw [hbdef]
            exact Board.cellAt_setCell_self hb hpx hpy Cell.reveal
          have hrm := Board.reveal_mines_fields b
          subst hgs'
          refine ⟨rfl, by rw [hrm.2.1, hbmines], ?_, ?_, ?_, ?_, rfl, rfl⟩
          · intro m hm
            rw [hrm.2.1, hbmines] at hm
            rw [Board.reveal_mines_cellAt hbshape m]
            by_cases hf : (b.cellAt m).is_flagged = true
            · rw [if_neg (by simp [hf])]
              exact Or.inl hf
            · have hmb := hminb m hm
              rw [if_pos ⟨by rw [hbmines]; exact hm, by simpa using hf, by omega, by omega⟩]
              refine Or.inr ?_
              simp [Cell.is_revealed]
          · intro m hm
            refine Finset.mem_union_right _ ?_
            rw [List.mem_toFinset]
            rw [hrm.2.1] at hm ⊢
            exact hm
          · have : (b.reveal_mines.cellAt mp).content = (b.cellAt mp).content := by
              rw [Board.reveal_mines_cellAt hbshape mp]
              by_cases hc : mp ∈ b.mine_positions ∧ (b.cellAt mp).is_flagged = false ∧
                  mp.x < b.size ∧ mp.y < b.size
              · rw [if_pos hc]
              · rw [if_neg hc]
            rw [Cell.is_mine, this, hcellb_self]
            simpa [Cell.is_mine] using hmine
          · have hstate : (b.reveal_mines.cellAt mp).state = .Revealed := by
              rw [Board.reveal_mines_cellAt hbshape mp]
              by_cases hc : mp ∈ b.mine_positions ∧ (b.cellAt mp).is_flagged = false ∧
                  mp.x < b.size ∧ mp.y < b.size
              · rw [if_pos hc]
              · rw [if_neg hc, hcellb_self]
            rw [Cell.is_revealed, hstate]
            simp
        | Continue =>
          rw [hrev] at h
          dsimp only at h
          obtain ⟨hpx, hpy, hrevealed, hflagged, hmine, hbdef⟩ :=
            Board.reveal_ok_continue_inv hb hrev
          have hbshape : b.Shaped := by
            rw [hbdef]
            exact Board.shaped_setCell hb pos Cell.reveal
          have hbsize : b.size = gs.board.size := by rw [hbdef]; rfl
          have hbmines : b.mine_positions = gs.board.mine_positions := by rw [hbdef]; rfl
          have hminb' : ∀ m ∈ b.mine_positions, m.x < b.size ∧ m.y < b.size := by
            intro m hm
            rw [hbmines] at hm
            rw [hbsize]
            exact hminb m hm
          split at h
          · have hres := ih _ _ _ _ _ hbshape hminb' h
            refine ⟨hres.1, by rw [hres.2.1, hbmines], hres.2.2.1, hres.2.2.2.1,
              hres.2.2.2.2.1, hres.2.2.2.2.2.1, hres.2.2.2.2.2.2.1,
              hres.2.2.2.2.2.2.2⟩
          · have hres := ih _ _ _ _ _ hbshape hminb' h
            refine ⟨hres.1, by rw [hres.2.1, hbmines], hres.2.2.1, hres.2.2.2.1,
              hres.2.2.2.2.1, hres.2.2.2.2.2.1, hres.2.2.2.2.2.2.1,
              hres.2.2.2.2.2.2.2⟩

/-! ## `check_win_condition`, `start_game` and `reveal_cell` basics -/

theorem Board.cellAt_rcUpdate (b : Board) (n : Nat) (q : CellPosition) :
    Board.cellAt { b with revealed_count := n } q = b.cellAt q := rfl

theorem Board.shaped_rcUpdate {b : Board} (hb : b.Shaped) (n : Nat) :
    Board.Shaped { b with revealed_count := n } := hb

theorem GameState.check_win_cases (gs : GameState) :
    (gs.check_win_condition).2 = gs ∨
      (gs.check_win_condition).2 =
        { gs with
            status := .Won
            board := gs.board.flag_mines
            flagged_cells := gs.flagged_cells ∪ gs.board.flag_mines.mine_positions.toFinset } := by
  unfold GameState.check_win_condition
  split_ifs with h
  · exact Or.inr rfl
  · exact Or.inl rfl

theorem GameState.check_win_pos {gs : GameState}
    (hc : gs.board.revealed_count =
      gs.difficulty.board_size.1 * gs.difficulty.board_size.2 - gs.difficulty.mines_count)
    (hl : gs.status.is_lost = false) :
    (gs.check_win_condition).2 =
      { gs with
          status := .Won
          board := gs.board.flag_mines
          flagged_cells := gs.flagged_cells ∪ gs.board.flag_mines.mine_positions.toFinset } := by
  unfold GameState.check_win_condition
  rw [if_pos ⟨hc, hl⟩]

theorem GameState.check_win_mine_positions (gs : GameState) :
    ((gs.check_win_condition).2).board.mine_positions = gs.board.mine_positions := by
  rcases GameState.check_win_cases gs with h | h
  · rw [h]
  · rw [h]
    exact (Board.flag_mines_fields gs.board).2.1

theorem GameState.reveal_cell_oob_eq {gs : GameState} {draws : List CellPosition}
    {pos : CellPosition} (h : gs.board.size ≤ pos.x ∨ gs.board.size ≤ pos.y) :
    gs.reveal_cell draws pos = some (.error (.InvalidCellPosition pos.x pos.y)) := by
  unfold GameState.reveal_cell
  rw [Board.cell_oob h]

theorem GameState.reveal_cell_cantreveal_eq {gs : GameState} {draws : List CellPosition}
    {pos : CellPosition} (hx : pos.x < gs.board.size) (hy : pos.y < gs.board.size)
    (h : (gs.board.cellAt pos).is_revealed = true ∨ (gs.board.cellAt pos).is_flagged = true) :
    gs.reveal_cell draws pos = some (.ok (.CantReveal, gs)) := by
  unfold GameState.reveal_cell
  rw [Board.cell_inb hx hy]
  dsimp only
  rw [if_pos (by rcases h with h | h <;> simp [h])]

theorem GameState.start_game_fields (gs : GameState) (pos : CellPosition)
    (draws : List CellPosition) :
    (gs.start_game pos draws).difficulty = gs.difficulty ∧
      (gs.start_game pos draws).status = .InProgress ∧
      (gs.start_game pos draws).start_time = some () ∧
      (gs.start_game pos draws).flagged_cells = gs.flagged_cells ∧
      (gs.start_game pos draws).revealed_cells = gs.revealed_cells ∧
      (gs.start_game pos draws).elapsed_seconds = gs.elapsed_seconds ∧
      (gs.start_game pos draws).custom_flags_remaining = gs.custom_flags_remaining :=
  ⟨rfl, rfl, rfl, rfl, rfl, rfl, rfl⟩

theorem GameState.start_game_board (gs : GameState) (pos : CellPosition)
    (draws : List CellPosition) :
    (gs.start_game pos draws).board =
      match Board.newExcluding gs.difficulty pos gs.flagged_cells draws with
      | .ok b => b
      | .error _ => gs.board := rfl

/-- The board of the state entering `reveal_area` (after the optional lazy
start) is well-shaped with in-bounds mines, whenever the caller's board is
and the supplied draws are in range of the difficulty. -/
theorem GameState.start_game_board_facts (gs : GameState) (pos : CellPosition)
    (draws : List CellPosition) (hb : gs.board.Shaped)
    (hminb : ∀ m ∈ gs.board.mine_positions, m.x < gs.board.size ∧ m.y < gs.board.size)
    (hdraws : ∀ p ∈ draws, p.x < gs.difficulty.board_size.1 ∧
      p.y < gs.difficulty.board_size.1) :
    (gs.start_game pos draws).board.Shaped ∧
      ∀ m ∈ (gs.start_game pos draws).board.mine_positions,
        m.x < (gs.start_game pos draws).board.size ∧
        m.y < (gs.start_game pos draws).board.size := by
  rw [GameState.start_game_board]
  cases hok : Board.newExcluding gs.difficulty pos gs.flagged_cells draws with
  | error e => exact ⟨hb, hminb⟩
  | ok b =>
    have hgen := Board.newExcluding_generated hok hdraws
    refine ⟨hgen.shaped, fun m hm => ?_⟩
    rw [hgen.size_eq]
    exact hgen.mines_inb m hm

/-- Inversion of a `Continue` outcome of the flood-fill loop: the traversal
preserves status, difficulty, clock, flag bookkeeping, board shape, size and
mine set, never changes any cell's content, leaves mined cells untouched and
never un-reveals a revealed cell. -/
theorem reveal_area_go_continue_inv (fuel : Nat) :
    ∀ (gs : GameState) (queue : List CellPosition) (visited : Finset CellPosition)
      (gs' : GameState), gs.board.Shaped →
      GameState.reveal_area_go fuel gs queue visited = some (.ok (.Continue, gs')) →
      gs'.status = gs.status ∧ gs'.difficulty = gs.difficulty ∧
      gs'.start_time = gs.start_time ∧ gs'.flagged_cells = gs.flagged_cells ∧
      gs'.board.Shaped ∧ gs'.board.size = gs.board.size ∧
      gs'.board.mine_positions = gs.board.mine_positions ∧
      gs'.board.flagged_count = gs.board.flagged_count ∧
      (∀ q : CellPosition, ((gs'.board.cellAt q)).content = (gs.board.cellAt q).content) ∧
      (∀ q : CellPosition, (gs.board.cellAt q).is_mine = true →
        gs'.board.cellAt q = gs.board.cellAt q) ∧
      (∀ q : CellPosition, (gs.board.cellAt q).is_revealed = true →
        (gs'.board.cellAt q).is_revealed = true) := by
  induction fuel with
  | zero =>
    intro gs queue visited gs' _ h
    exact absurd h (by unfold GameState.reveal_area_go; simp)
  | succ n ih =>
    intro gs queue visited gs' hb h
    match queue with
    | [] =>
      rw [GameState.reveal_area_go_nil] at h
      rw [Option.some.injEq] at h
      have hpair := Except.ok.inj h
      rw [Prod.mk.injEq] at hpair
      rw [← hpair.2]
      exact ⟨rfl, rfl, rfl, rfl, hb, rfl, rfl, rfl, fun q => rfl, fun q _ => rfl,
        fun q hq => hq⟩
    | pos :: rest =>
      rw [GameState.reveal_area_go_cons] at h
      cases hrev : gs.board.reveal pos with
      | error e =>
        rw [hrev] at h
        simp at h
      | ok rb =>
        obtain ⟨r, b⟩ := rb
        cases r with
        | CantReveal =>
          rw [hrev] at h
          simp at h
        | GameOver mp2 =>
          rw [hrev] at h
          dsimp only at h
          rw [Option.some.injEq] at h
          have hpair := Except.ok.inj h
          rw [Prod.mk.injEq] at hpair
          exact absurd hpair.1 (by simp)
        | Continue =>
          rw [hrev] at h
          dsimp only at h
          obtain ⟨hpx, hpy, hrevd, hflg, hmine, hbdef⟩ :=
            Board.reveal_ok_continue_inv hb hrev
          have hcell : ∀ q : CellPosition,
              b.cellAt q = if q = pos then { gs.board.cellAt pos with state := .Revealed }
                else gs.board.cellAt q := by
            intro q
            rw [hbdef, Board.cellAt_rcUpdate]
            by_cases hq : q = pos
            · subst hq
              rw [if_pos rfl]
              exact Board.cellAt_setCell_self hb hpx hpy Cell.reveal
            · rw [if_neg hq]
              exact Board.cellAt_setCell_ne hq Cell.reveal
          have hbshape : b.Shaped := by
            rw [hbdef]
            exact Board.shaped_rcUpdate (Board.shaped_setCell hb pos Cell.reveal) _
          have hbsize : b.size = gs.board.size := by rw [hbdef]; rfl
          have hbmines : b.mine_positions = gs.board.mine_positions := by rw [hbdef]; rfl
          have hbfc : b.flagged_count = gs.board.flagged_count := by rw [hbdef]; rfl
          have hstep : ∀ (q2 : List CellPosition) (v2 : Finset CellPosition),
              GameState.reveal_area_go n
                { gs with board := b, revealed_cells := insert pos gs.revealed_cells }
                q2 v2 = some (.ok (.Continue, gs')) →
              gs'.status = gs.status ∧ gs'.difficulty = gs.difficulty ∧
              gs'.start_time = gs.start_time ∧ gs'.flagged_cells = gs.flagged_cells ∧
              gs'.board.Shaped ∧ gs'.board.size = gs.board.size ∧
              gs'.board.mine_positions = gs.board.mine_positions ∧
              gs'.board.flagged_count = gs.board.flagged_count ∧
              (∀ q : CellPosition,
                ((gs'.board.cellAt q)).content = (gs.board.cellAt q).content) ∧
              (∀ q : CellPosition, (gs.board.cellAt q).is_mine = true →
                gs'.board.cellAt q = gs.board.cellAt q) ∧
              (∀ q : CellPosition, (gs.board.cellAt q).is_revealed = true →
                (gs'.board.cellAt q).is_revealed = true) := by
            intro q2 v2 h2
            obtain ⟨i1, i2, i3, i4, i5, i6, i7, i8, i9, i10, i11⟩ := ih _ q2 v2 gs' hbshape h2
            refine ⟨i1, i2, i3, i4, i5, by rw [i6]; exact hbsize,
              by rw [i7]; exact hbmines, by rw [i8]; exact hbfc, ?_, ?_, ?_⟩
            · intro q
              rw [i9 q, hcell q]
              by_cases hq : q = pos
              · subst hq; rw [if_pos rfl]
              · rw [if_neg hq]
            · intro q hqm
              have hqpos : q ≠ pos := by
                rintro rfl
                rw [hqm] at hmine
                exact absurd hmine (by simp)
              have hbq : b.cellAt q = gs.board.cellAt q := by
                rw [hcell q, if_neg hqpos]
              rw [i10 q (by rw [hbq]; exact hqm), hbq]
            · intro q hqr
              refine i11 q ?_
              rw [hcell q]
              by_cases hq : q = pos
              · subst hq
                rw [if_pos rfl]
                simp [Cell.is_revealed]
              · rw [if_neg hq]
                exact hqr
          split at h
          · exact hstep _ _ h
          · exact hstep _ _ h

/-- `reveal_area` version of `reveal_area_go_continue_inv`. -/
theorem reveal_area_continue_inv {gs gs' : GameState} {s : CellPosition}
    (hb : gs.board.Shaped)
    (h : gs.reveal_area s = some (.ok (.Continue, gs'))) :
    gs'.status = gs.status ∧ gs'.difficulty = gs.difficulty ∧
    gs'.start_time = gs.start_time ∧ gs'.flagged_cells = gs.flagged_cells ∧
    gs'.board.Shaped ∧ gs'.board.size = gs.board.size ∧
    gs'.board.mine_positions = gs.board.mine_positions ∧
    gs'.board.flagged_count = gs.board.flagged_count ∧
    (∀ q : CellPosition, ((gs'.board.cellAt q)).content = (gs.board.cellAt q).content) ∧
    (∀ q : CellPosition, (gs.board.cellAt q).is_mine = true →
      gs'.board.cellAt q = gs.board.cellAt q) ∧
    (∀ q : CellPosition, (gs.board.cellAt q).is_revealed = true →
      (gs'.board.cellAt q).is_revealed = true) :=
  reveal_area_go_continue_inv _ gs [s] {s} gs' hb h

/-! ## Concrete states used by witnesses and counterexamples -/

/-- Extract the state carried by a successful engine result (used only to
name concretely computed states in witnesses). -/
def stateOf (r : Option (Except GameError (RevealResult × GameState)))
    (dflt : GameState) : GameState :=
  match r with
  | some (.ok (_, g)) => g
  | _ => dflt

/-- A 1×1 board whose only cell is flagged. -/
def exFlagBoard : Board :=
  { cells := [[{ content := .Empty, state := .Flagged, board_size := 0 }]]
    size := 1
    mine_positions := []
    revealed_count := 0
    flagged_count := 1 }

/-- A fresh game over `exFlagBoard` whose only cell is already flagged. -/
def exFlagState : GameState :=
  { board := exFlagBoard
    difficulty := ⟨(1, 1), 0⟩
    status := .New
    start_time := none
    elapsed_seconds := 0
    revealed_cells := ∅
    flagged_cells := {⟨0, 0⟩}
    custom_flags_remaining := 0 }

/-- The generated 2×2 board with a single mine at `(1, 1)`. -/
def gen2Board : Board :=
  ((Board.blankBoard 2).place_mines 1 [⟨1, 1⟩]).calculate_adjacent_mines

/-- The generated 3×3 board with a single mine at `(0, 0)`. -/
def gen3Board : Board :=
  ((Board.blankBoard 3).place_mines 1 [⟨0, 0⟩]).calculate_adjacent_mines

/-- An in-progress game on `gen3Board` with nothing revealed yet. -/
def gen3State : GameState :=
  { board := gen3Board
    difficulty := ⟨(3, 3), 1⟩
    status := .InProgress
    start_time := some ()
    elapsed_seconds := 0
    revealed_cells := ∅
    flagged_cells := ∅
    custom_flags_remaining := 0 }

/-! ## C7 and C10 -/

/-- C7: for an in-bounds position whose cell is already revealed or already
flagged, `reveal_cell` answers `CantReveal` and returns the input state
itself — in particular a `New` game stays `New`, no board is rebuilt and the
start instant stays unset, because the early return happens before the
lazy-start branch. -/
theorem reveal_cell_on_revealed_or_flagged_is_frame {gs : GameState}
    {draws : List CellPosition} {pos : CellPosition}
    (hx : pos.x < gs.board.size) (hy : pos.y < gs.board.size)
    (h : (gs.board.cellAt pos).is_revealed = true ∨ (gs.board.cellAt pos).is_flagged = true) :
    gs.reveal_cell draws pos = some (.ok (.CantReveal, gs)) :=
  GameState.reveal_cell_cantreveal_eq hx hy h

theorem reveal_cell_on_revealed_or_flagged_is_frame_witness :
    exFlagState.reveal_cell [] ⟨0, 0⟩ = some (.ok (.CantReveal, exFlagState)) :=
  reveal_cell_on_revealed_or_flagged_is_frame (by decide) (by decide) (by decide)

/-- C10: for an out-of-bounds position, `reveal_cell` stops at the very
first bounds-checked `Board::cell` read with an `InvalidCellPosition` error;
the early `?`-return precedes the lazy-start branch, so no mines are placed,
the timer stays unset and the status is untouched (the embedding is pure:
an error result carries no successor state at all). -/
theorem reveal_cell_oob_is_error {gs : GameState} {draws : List CellPosition}
    {pos : CellPosition} (h : gs.board.size ≤ pos.x ∨ gs.board.size ≤ pos.y) :
    gs.reveal_cell draws pos = some (.error (.InvalidCellPosition pos.x pos.y)) :=
  GameState.reveal_cell_oob_eq h

theorem reveal_cell_oob_is_error_witness :
    exFlagState.reveal_cell [] ⟨1, 0⟩ = some (.error (.InvalidCellPosition 1 0)) :=
  reveal_cell_oob_is_error (by decide)

/-- How `reveal_cell` unfolds on a hidden, in-bounds target. -/
theorem GameState.reveal_cell_eq_of_hidden {gs : GameState} {draws : List CellPosition}
    {pos : CellPosition} (hx : pos.x < gs.board.size) (hy : pos.y < gs.board.size)
    (hhid : (gs.board.cellAt pos).state = .Hidden) :
    gs.reveal_cell draws pos =
      match (if gs.status.is_new then gs.start_game pos draws else gs).reveal_area pos with
      | none => none
      | some (.error e) => some (.error e)
      | some (.ok (.Continue, gs2)) =>
        some (.ok (.Continue,
          if gs2.status.is_lost = false then (gs2.check_win_condition).2 else gs2))
      | some (.ok (.GameOver mp, gs2)) => some (.ok (.GameOver mp, gs2))
      | some (.ok (.CantReveal, gs2)) => some (.ok (.CantReveal, gs2)) := by
  unfold GameState.reveal_cell
  rw [Board.cell_inb hx hy]
  dsimp only
  rw [if_neg (by simp [Cell.hidden_not_revealed hhid, Cell.hidden_not_flagged hhid])]

/-! ## C1 -/

/-- C1: a `reveal_cell` call on a hidden in-bounds cell of a `New` game
performs the deferred mine generation excluding that very cell, so the call
comes back `Continue` (never `GameOver`) and the revealed position carries no
mine.  The generation is the spec-modelled three-argument `Board::new`; its
success (`hok`) and in-range draws stand for the source's `.expect` and the
RNG's `usize::gen_range` bounds. -/
theorem first_reveal_never_mine {gs : GameState} {draws : List CellPosition}
    {pos : CellPosition} {b : Board}
    (hnew : gs.status = .New)
    (hx : pos.x < gs.board.size) (hy : pos.y < gs.board.size)
    (hhid : (gs.board.cellAt pos).state = .Hidden)
    (hok : Board.newExcluding gs.difficulty pos gs.flagged_cells draws = .ok b)
    (hdraws : ∀ p ∈ draws, p.x < gs.difficulty.board_size.1 ∧
      p.y < gs.difficulty.board_size.1)
    (hsz64 : gs.difficulty.board_size.1 ^ 2 < 2 ^ 64)
    (hpx1 : pos.x < gs.difficulty.board_size.1) (hpy1 : pos.y < gs.difficulty.board_size.1) :
    ∃ gs', gs.reveal_cell draws pos = some (.ok (.Continue, gs')) ∧
      pos ∉ gs'.board.mine_positions := by
  have hgen := Board.newExcluding_generated hok hdraws
  have hexcl := (Board.newExcluding_respects_exclusions hok).1
  have hboard : (gs.start_game pos draws).board = b := by
    rw [GameState.start_game_board, hok]
  rw [GameState.reveal_cell_eq_of_hidden hx hy hhid]
  have hgs1 : (if gs.status.is_new then gs.start_game pos draws else gs) =
      gs.start_game pos draws := by
    rw [hnew]
    rfl
  rw [hgs1]
  have hmine : ((gs.start_game pos draws).board.cellAt pos).is_mine = false := by
    rw [hboard]
    rcases Bool.eq_false_or_eq_true (b.cellAt pos).is_mine with ht | hf
    · exact absurd ((hgen.consistent pos).mpr ht) hexcl
    · exact hf
  obtain ⟨gs2, P', harea, hout⟩ :=
    @reveal_area_continue_spec (gs.start_game pos draws) pos
      (by rw [hboard]; exact hgen.shaped)
      (by rw [hboard]; exact hgen.noMineAdjEmpty)
      (by rw [hboard, hgen.size_eq]; exact hsz64)
      (by rw [hboard, hgen.size_eq]; exact hpx1)
      (by rw [hboard, hgen.size_eq]; exact hpy1)
      (by rw [hboard]; exact hgen.hidden pos)
      hmine
  rw [harea]
  have hlost : gs2.status.is_lost = false := by
    rw [hout.status_eq, (GameState.start_game_fields gs pos draws).2.1]
    rfl
  dsimp only
  rw [if_pos hlost]
  refine ⟨_, rfl, ?_⟩
  rw [GameState.check_win_mine_positions, hout.mines_eq, hboard]
  exact hexcl

/-- A fresh 2×2 game that has not started yet. -/
def c1StartState : GameState :=
  { board := Board.blankBoard 2
    difficulty := ⟨(2, 2), 1⟩
    status := .New
    start_time := none
    elapsed_seconds := 0
    revealed_cells := ∅
    flagged_cells := ∅
    custom_flags_remaining := 0 }

theorem first_reveal_never_mine_witness :
    ∃ gs', c1StartState.reveal_cell [⟨1, 1⟩] ⟨0, 0⟩ = some (.ok (.Continue, gs')) ∧
      (⟨0, 0⟩ : CellPosition) ∉ gs'.board.mine_positions :=
  @first_reveal_never_mine c1StartState [⟨1, 1⟩] ⟨0, 0⟩ gen2Board (by decide) (by decide)
    (by decide) (by decide) (by rfl) (by decide) (by decide) (by decide) (by decide)

/-! ## C2 -/

/-- C2: whenever `Board::new` succeeds, i.e. right after mine generation,
the mine-position list has exactly `mines_count` entries, every listed
position holds a `Mine`, and every in-bounds non-mine cell's content is the
count of its in-bounds 8-neighbors that are mines.  The draw hypotheses
stand for the RNG: `gen_range` only produces in-range positions, and the
retry loop runs until `mines_count` distinct positions have been hit. -/
theorem generation_invariant {size mines : Nat} {draws : List CellPosition} {b : Board}
    (hok : Board.new size mines draws = .ok b)
    (hdr : ∀ d ∈ draws, d.x < size ∧ d.y < size)
    (hcard : mines ≤ draws.toFinset.card) :
    b.mine_positions.length = mines ∧
      (∀ m ∈ b.mine_positions, (b.cellAt m).content = .Mine) ∧
      (∀ q : CellPosition, q.x < size → q.y < size → (b.cellAt q).is_mine = false →
        (b.cellAt q).content =
          CellContent.ofCount
            ((b.adjacent_positions q).countP (fun v => (b.cellAt v).is_mine))) := by
  have hgen := Board.new_generated hok hdr
  refine ⟨Board.new_mines_length hok hdr hcard, ?_, hgen.counts⟩
  intro m hm
  have := (hgen.consistent m).mp hm
  rw [Cell.is_mine] at this
  simpa using this

theorem generation_invariant_witness :
    gen2Board.mine_positions.length = 1 ∧
      (∀ m ∈ gen2Board.mine_positions, (gen2Board.cellAt m).content = .Mine) ∧
      (∀ q : CellPosition, q.x < 2 → q.y < 2 → (gen2Board.cellAt q).is_mine = false →
        (gen2Board.cellAt q).content =
          CellContent.ofCount
            ((gen2Board.adjacent_positions q).countP
              (fun v => (gen2Board.cellAt v).is_mine))) :=
  generation_invariant (by rfl) (by decide) (by decide)

/-! ## C5 -/

/-- C5: whenever `reveal_cell` comes back `GameOver mp` — the only way the
call can reveal a mine, directly or through the flood fill — the resulting
status is `Lost`, every mine that is not flagged is revealed (flagged mines
are skipped by `Board::reveal_mines`), every mine position has been added to
`revealed_cells`, and `mp` really is a revealed mine on the final board. -/
theorem reveal_mine_loses {gs gs' : GameState} {draws : List CellPosition}
    {pos mp : CellPosition}
    (hb : gs.board.Shaped)
    (hminb : ∀ m ∈ gs.board.mine_positions, m.x < gs.board.size ∧ m.y < gs.board.size)
    (hdraws : ∀ p ∈ draws, p.x < gs.difficulty.board_size.1 ∧
      p.y < gs.difficulty.board_size.1)
    (h : gs.reveal_cell draws pos = some (.ok (.GameOver mp, gs'))) :
    gs'.status = .Lost ∧
      (∀ m ∈ gs'.board.mine_positions,
        (gs'.board.cellAt m).is_flagged = true ∨ (gs'.board.cellAt m).is_revealed = true) ∧
      (∀ m ∈ gs'.board.mine_positions, m ∈ gs'.revealed_cells) ∧
      (gs'.board.cellAt mp).is_mine = true ∧ (gs'.board.cellAt mp).is_revealed = true := by
  unfold GameState.reveal_cell at h
  by_cases hoob : gs.board.size ≤ pos.x ∨ gs.board.size ≤ pos.y
  · rw [Board.cell_oob hoob] at h
    simp at h
  · have hx : pos.x < gs.board.size := by omega
    have hy : pos.y < gs.board.size := by omega
    rw [Board.cell_inb hx hy] at h
    dsimp only at h
    by_cases hrf : (gs.board.cellAt pos).is_revealed = true ∨
        (gs.board.cellAt pos).is_flagged = true
    · rw [if_pos hrf] at h
      simp at h
    · rw [if_neg hrf] at h
      have hfacts : (if gs.status.is_new then gs.start_game pos draws else gs).board.Shaped ∧
          ∀ m ∈ (if gs.status.is_new then gs.start_game pos draws
              else gs).board.mine_positions,
            m.x < (if gs.status.is_new then gs.start_game pos draws else gs).board.size ∧
            m.y < (if gs.status.is_new then gs.start_game pos draws else gs).board.size := by
        by_cases hnew : gs.status.is_new = true
        · rw [if_pos hnew]
          exact GameState.start_game_board_facts gs pos draws hb hminb hdraws
        · rw [if_neg hnew]
          exact ⟨hb, hminb⟩
      cases hra : (if gs.status.is_new then gs.start_game pos draws else gs).reveal_area pos with
      | none =>
        rw [hra] at h
        simp at h
      | some r =>
        rw [hra] at h
        cases r with
        | error e => simp at h
        | ok p =>
          obtain ⟨rr, gs2⟩ := p
          cases rr with
          | Continue => simp at h
          | CantReveal => simp at h
          | GameOver mp2 =>
            dsimp only at h
            rw [Option.some.injEq] at h
            have hpair := Except.ok.inj h
            rw [Prod.mk.injEq] at hpair
            obtain ⟨hres, hgs2⟩ := hpair
            obtain rfl : mp2 = mp := RevealResult.GameOver.inj hres
            subst hgs2
            unfold GameState.reveal_area at hra
            obtain ⟨o1, _, o3, o4, o5, o6, _, _⟩ :=
              reveal_area_go_gameover_spec _ _ _ _ _ _ hfacts.1 hfacts.2 hra
            exact ⟨o1, o3, o4, o5, o6⟩

/-- The state reached from `gen3State` by revealing the mine at `(0, 0)`. -/
def lostState3 : GameState := stateOf (gen3State.reveal_cell [] ⟨0, 0⟩) gen3State

theorem reveal_mine_loses_witness :
    lostState3.status = .Lost ∧
      (∀ m ∈ lostState3.board.mine_positions,
        (lostState3.board.cellAt m).is_flagged = true ∨
          (lostState3.board.cellAt m).is_revealed = true) ∧
      (∀ m ∈ lostState3.board.mine_positions, m ∈ lostState3.revealed_cells) ∧
      (lostState3.board.cellAt ⟨0, 0⟩).is_mine = true ∧
      (lostState3.board.cellAt ⟨0, 0⟩).is_revealed = true :=
  @reveal_mine_loses gen3State lostState3 [] ⟨0, 0⟩ ⟨0, 0⟩ (by decide) (by decide)
    (by decide) (by rfl)

/-! ## C4 -/

theorem GameStatus.is_lost_eq_false {s : GameStatus} (h : s ≠ .Lost) : s.is_lost = false := by
  cases s
  · rfl
  · exact absurd rfl h
  · rfl
  · rfl

/-- Besides shape, the lazily started board keeps mines unrevealed and
mine-marked, provided the caller's board did. -/
theorem GameState.start_game_mine_facts (gs : GameState) (pos : CellPosition)
    (draws : List CellPosition)
    (hmnr : ∀ m ∈ gs.board.mine_positions, (gs.board.cellAt m).is_revealed = false)
    (hcons : ∀ m ∈ gs.board.mine_positions, (gs.board.cellAt m).is_mine = true)
    (hdraws : ∀ p ∈ draws, p.x < gs.difficulty.board_size.1 ∧
      p.y < gs.difficulty.board_size.1) :
    (∀ m ∈ (gs.start_game pos draws).board.mine_positions,
      ((gs.start_game pos draws).board.cellAt m).is_revealed = false) ∧
    ∀ m ∈ (gs.start_game pos draws).board.mine_positions,
      ((gs.start_game pos draws).board.cellAt m).is_mine = true := by
  rw [GameState.start_game_board]
  cases hok : Board.newExcluding gs.difficulty pos gs.flagged_cells draws with
  | error e => exact ⟨hmnr, hcons⟩
  | ok b =>
    have hgen := Board.newExcluding_generated hok hdraws
    refine ⟨fun m _ => ?_, fun m hm => (hgen.consistent m).mp hm⟩
    rw [Cell.is_revealed, hgen.hidden m]
    simp

/-- C4: when a `reveal_cell` call answers `Continue` and leaves
`Board.revealed_count` equal to `width·height − mines_count`, and the game
was not already lost, the final status is `Won`, every mine cell is flagged
on the final board, and every mine position has been added to
`flagged_cells` — the effect of `check_win_condition` firing.  The mine
hypotheses say the caller's board is one the engine built: mines are
mine-marked and unrevealed. -/
theorem revealing_all_nonmines_wins {gs gs' : GameState} {draws : List CellPosition}
    {pos : CellPosition}
    (hb : gs.board.Shaped)
    (hminb : ∀ m ∈ gs.board.mine_positions, m.x < gs.board.size ∧ m.y < gs.board.size)
    (hdraws : ∀ p ∈ draws, p.x < gs.difficulty.board_size.1 ∧
      p.y < gs.difficulty.board_size.1)
    (hnl : gs.status ≠ .Lost)
    (hmnr : ∀ m ∈ gs.board.mine_positions, (gs.board.cellAt m).is_revealed = false)
    (hcons : ∀ m ∈ gs.board.mine_positions, (gs.board.cellAt m).is_mine = true)
    (h : gs.reveal_cell draws pos = some (.ok (.Continue, gs')))
    (hcount : gs'.board.revealed_count =
      gs.difficulty.board_size.1 * gs.difficulty.board_size.2 - gs.difficulty.mines_count) :
    gs'.status = .Won ∧
      (∀ m ∈ gs'.board.mine_positions, (gs'.board.cellAt m).is_flagged = true) ∧
      (∀ m ∈ gs'.board.mine_positions, m ∈ gs'.flagged_cells) := by
  unfold GameState.reveal_cell at h
  by_cases hoob : gs.board.size ≤ pos.x ∨ gs.board.size ≤ pos.y
  · rw [Board.cell_oob hoob] at h
    simp at h
  · have hx : pos.x < gs.board.size := by omega
    have hy : pos.y < gs.board.size := by omega
    rw [Board.cell_inb hx hy] at h
    dsimp only at h
    by_cases hrf : (gs.board.cellAt pos).is_revealed = true ∨
        (gs.board.cellAt pos).is_flagged = true
    · rw [if_pos hrf] at h
      simp at h
    · rw [if_neg hrf] at h
      have hshape1 : (if gs.status.is_new then gs.start_game pos draws
            else gs).board.Shaped ∧
          ∀ m ∈ (if gs.status.is_new then gs.start_game pos draws
              else gs).board.mine_positions,
            m.x < (if gs.status.is_new then gs.start_game pos draws else gs).board.size ∧
            m.y < (if gs.status.is_new then gs.start_game pos draws else gs).board.size := by
        by_cases hnew : gs.status.is_new = true
        · rw [if_pos hnew]
          exact GameState.start_game_board_facts gs pos draws hb hminb hdraws
        · rw [if_neg hnew]
          exact ⟨hb, hminb⟩
      have hmine1 : (∀ m ∈ (if gs.status.is_new then gs.start_game pos draws
            else gs).board.mine_positions,
            ((if gs.status.is_new then gs.start_game pos draws
              else gs).board.cellAt m).is_revealed = false) ∧
          ∀ m ∈ (if gs.status.is_new then gs.start_game pos draws
              else gs).board.mine_positions,
            ((if gs.status.is_new then gs.start_game pos draws
              else gs).board.cellAt m).is_mine = true := by
        by_cases hnew : gs.status.is_new = true
        · rw [if_pos hnew]
          exact GameState.start_game_mine_facts gs pos draws hmnr hcons hdraws
        · rw [if_neg hnew]
          exact ⟨hmnr, hcons⟩
      have hst1 : (if gs.status.is_new then gs.start_game pos draws else gs).status ≠
          .Lost := by
        by_cases hnew : gs.status.is_new = true
        · rw [if_pos hnew, (GameState.start_game_fields gs pos draws).2.1]
          simp
        · rw [if_neg hnew]
          exact hnl
      have hdiff1 : (if gs.status.is_new then gs.start_game pos draws else gs).difficulty =
          gs.difficulty := by
        by_cases hnew : gs.status.is_new = true
        · rw [if_pos hnew]
          exact (GameState.start_game_fields gs pos draws).1
        · rw [if_neg hnew]
      cases hra : (if gs.status.is_new then gs.start_game pos draws
          else gs).reveal_area pos with
      | none =>
        rw [hra] at h
        simp at h
      | some r =>
        rw [hra] at h
        cases r with
        | error e => simp at h
        | ok p =>
          obtain ⟨rr, gs2⟩ := p
          cases rr with
          | GameOver mp2 => simp at h
          | CantReveal => simp at h
          | Continue =>
            dsimp only at h
            rw [Option.some.injEq] at h
            have hpair := Except.ok.inj h
            rw [Prod.mk.injEq] at hpair
            obtain ⟨-, hgs3⟩ := hpair
            obtain ⟨i1, i2, i3, i4, i5, i6, i7, i8, i9, i10, i11⟩ :=
              reveal_area_continue_inv hshape1.1 hra
            have hlost2 : gs2.status.is_lost = false := by
              rw [i1]
              exact GameStatus.is_lost_eq_false hst1
            rw [if_pos hlost2] at hgs3
            have hdiff2 : gs2.difficulty = gs.difficulty := by rw [i2, hdiff1]
            have hmines2 : ∀ m ∈ gs2.board.mine_positions,
                gs2.board.cellAt m = (if gs.status.is_new then gs.start_game pos draws
                  else gs).board.cellAt m := by
              intro m hm
              rw [i7] at hm
              exact i10 m (hmine1.2 m hm)
            have hrc2 : gs2.board.revealed_count =
                gs.difficulty.board_size.1 * gs.difficulty.board_size.2 -
                  gs.difficulty.mines_count := by
              rw [← hgs3] at hcount
              rcases GameState.check_win_cases gs2 with hc | hc
              · rw [hc] at hcount
                exact hcount
              · rw [hc] at hcount
                dsimp only at hcount
                rw [(Board.flag_mines_fields gs2.board).2.2.1] at hcount
                exact hcount
            have hfire := GameState.check_win_pos (by rw [hdiff2]; exact hrc2) hlost2
            rw [hfire] at hgs3
            subst hgs3
            refine ⟨rfl, ?_, ?_⟩
            · intro m hm
              dsimp only at hm ⊢
              rw [(Board.flag_mines_fields gs2.board).2.1] at hm
              rw [Board.flag_mines_cellAt i5 m]
              have hcell2 := hmines2 m hm
              have hbound2 : m.x < gs2.board.size ∧ m.y < gs2.board.size := by
                rw [i6]
                rw [i7] at hm
                exact hshape1.2 m hm
              have hnrev2 : (gs2.board.cellAt m).is_revealed = false := by
                rw [hcell2]
                rw [i7] at hm
                exact hmine1.1 m hm
              by_cases hh : (gs2.board.cellAt m).is_hidden = true
              · rw [if_pos ⟨hm, hh, hbound2.1, hbound2.2⟩]
                rfl
              · rw [if_neg (by simp [hh])]
                rw [Cell.is_hidden] at hh
                rw [Cell.is_revealed] at hnrev2
                rw [Cell.is_flagged]
                simp only [decide_eq_true_eq] at hh ⊢
                simp only [decide_eq_false_iff_not] at hnrev2
                cases hcase : (gs2.board.cellAt m).state
                · exact absurd hcase hh
                · exact absurd hcase hnrev2
                · rfl
            · intro m hm
              dsimp only at hm ⊢
              refine Finset.mem_union_right _ ?_
              rw [List.mem_toFinset]
              exact hm

/-- The state reached from `gen3State` by revealing `(2, 2)`: the flood fill
reveals all eight non-mine cells, so this single call wins the game. -/
def wonState3 : GameState := stateOf (gen3State.reveal_cell [] ⟨2, 2⟩) gen3State

theorem revealing_all_nonmines_wins_witness :
    wonState3.status = .Won ∧
      (∀ m ∈ wonState3.board.mine_positions,
        (wonState3.board.cellAt m).is_flagged = true) ∧
      (∀ m ∈ wonState3.board.mine_positions, m ∈ wonState3.flagged_cells) :=
  @revealing_all_nonmines_wins gen3State wonState3 [] ⟨2, 2⟩ (by decide) (by decide)
    (by decide) (by decide) (by decide) (by decide) (by rfl) (by decide)

/-! ## C9 -/

/-- C9: the claim fails on the code.  After winning from `gen3State` with
zero player flags, one tick brings the animated counter up to
`mines_count`, the board's mine is flagged — yet `flags_remaining` answers
`1`, not `0`: `Board::flag_mines` flags the cells directly without ever
updating `Board::flagged_count`, so the `mines_count - flagged_count`
branch still sees zero flags. -/
theorem flags_remaining_after_win_bug :
    wonState3.status = .Won ∧
      (∀ m ∈ wonState3.board.mine_positions,
        (wonState3.board.cellAt m).is_flagged = true) ∧
      (wonState3.tick 1).custom_flags_remaining = (wonState3.tick 1).mines_count_isize ∧
      (wonState3.tick 1).flags_remaining = 1 := by
  decide

/-! ## C8 -/

/-- C8: refuted as stated.  Flagging a hidden cell of a `New` game succeeds
(`toggle_flag` answers `ok true`), yet the status stays `New`, the start
instant stays unset and no mine is placed: unlike `reveal_cell`, the source
`toggle_flag` never calls `start_game`. -/
theorem toggle_flag_does_not_start_game :
    ∃ gs', c1StartState.toggle_flag ⟨0, 0⟩ = .ok (true, gs') ∧
      gs'.status = .New ∧ gs'.start_time = none ∧ gs'.board.mine_positions = [] :=
  ⟨_, rfl, rfl, rfl, rfl⟩

/-- C8 (amended): a successful flag of a hidden cell while the status is
`New` does *not* start the game: the status, the start instant and the mine
list are all left untouched; only the cell, the flag counter and
`flagged_cells` change. -/
theorem toggle_flag_leaves_new_game_unstarted {gs : GameState} {pos : CellPosition}
    (hnew : gs.status = .New)
    (hx : pos.x < gs.board.size) (hy : pos.y < gs.board.size)
    (hhid : (gs.board.cellAt pos).is_hidden = true) :
    ∃ gs', gs.toggle_flag pos = .ok (true, gs') ∧
      gs'.status = gs.status ∧ gs'.start_time = gs.start_time ∧
      gs'.board.mine_positions = gs.board.mine_positions ∧
      gs'.flagged_cells = insert pos gs.flagged_cells := by
  unfold GameState.toggle_flag
  rw [if_neg (by rw [hnew]; simp [GameStatus.is_over])]
  rw [Board.cell_inb hx hy]
  dsimp only
  have hfl : (gs.board.cellAt pos).is_flagged = false := by
    rw [Cell.is_hidden] at hhid
    rw [Cell.is_flagged]
    simp only [decide_eq_true_eq] at hhid
    simp [hhid]
  rw [if_neg (by simp [hfl]), if_pos hhid]
  rw [Board.flag_hidden hx hy hhid]
  exact ⟨_, rfl, hnew ▸ rfl, rfl, rfl, rfl⟩

theorem toggle_flag_leaves_new_game_unstarted_witness :
    ∃ gs', c1StartState.toggle_flag ⟨0, 1⟩ = .ok (true, gs') ∧
      gs'.status = c1StartState.status ∧ gs'.start_time = c1StartState.start_time ∧
      gs'.board.mine_positions = c1StartState.board.mine_positions ∧
      gs'.flagged_cells = insert ⟨0, 1⟩ c1StartState.flagged_cells :=
  toggle_flag_leaves_new_game_unstarted (by decide) (by decide) (by decide) (by decide)

/-! ## C3 -/

/-- One hop of the claim's region: from a zero-count cell to an adjacent
zero-count cell.  This renders the claim's "8-connected region of zero-count
cells" (spec wording), deliberately ignoring cell states, and is used to
state C3 and its counterexample. -/
def zeroStep (b : Board) (u v : CellPosition) : Prop :=
  (b.cellAt u).is_empty = true ∧ v ∈ b.adjacent_positions u ∧ (b.cellAt v).is_empty = true

/-- Membership of the claim's connected zero-count region containing `s`. -/
def zeroReach (b : Board) (s q : CellPosition) : Prop :=
  Relation.ReflTransGen (zeroStep b) s q

/-- The 4×4 board with one mine at `(3, 3)` and a player flag on the
zero-count cell `(0, 3)`. -/
def c3Board : Board :=
  { (((Board.blankBoard 4).place_mines 1 [⟨3, 3⟩]).calculate_adjacent_mines).setCell ⟨0, 3⟩
      (fun c => { c with state := .Flagged }) with
    flagged_count := 1 }

/-- The in-progress game over `c3Board`. -/
def c3State : GameState :=
  { board := c3Board
    difficulty := ⟨(4, 4), 1⟩
    status := .InProgress
    start_time := some ()
    elapsed_seconds := 0
    revealed_cells := ∅
    flagged_cells := {⟨0, 3⟩}
    custom_flags_remaining := 0 }

/-- The state after flood-filling `c3State` from `(0, 0)`. -/
def c3After : GameState := stateOf (c3State.reveal_area ⟨0, 0⟩) c3State

/-- C3: refuted as stated.  `(0, 3)` is a zero-count cell of
the very zero-region that contains the hidden, unflagged, zero-count start
`(0, 0)` — so the claim's "exactly the region plus its border" demands it be
revealed — yet after `reveal_area` it is still not revealed, because the
flood fill skips flagged cells. -/
theorem flood_fill_skips_flagged_zero_cell :
    (c3State.board.cellAt ⟨0, 0⟩).state = .Hidden ∧
      (c3State.board.cellAt ⟨0, 0⟩).is_empty = true ∧
      (c3State.board.cellAt ⟨0, 0⟩).is_flagged = false ∧
      zeroReach c3State.board ⟨0, 0⟩ ⟨0, 3⟩ ∧
      c3State.reveal_area ⟨0, 0⟩ = some (.ok (.Continue, c3After)) ∧
      (c3After.board.cellAt ⟨0, 3⟩).state ≠ .Revealed := by
  refine ⟨by decide, by decide, by decide, ?_, by rfl, by decide⟩
  have h1 : zeroStep c3State.board ⟨0, 0⟩ ⟨0, 1⟩ := ⟨by decide, by decide, by decide⟩
  have h2 : zeroStep c3State.board ⟨0, 1⟩ ⟨0, 2⟩ := ⟨by decide, by decide, by decide⟩
  have h3 : zeroStep c3State.board ⟨0, 2⟩ ⟨0, 3⟩ := ⟨by decide, by decide, by decide⟩
  exact Relation.ReflTransGen.head h1
    (Relation.ReflTransGen.head h2 (Relation.ReflTransGen.single h3))

/-- C3 (amended): from a hidden non-mine start, `reveal_area` answers
`Continue` and reveals exactly the cells that are *flood-reachable* from the
start on the pre-traversal board: the hidden cells connected to the start
through hidden zero-count cells — the zero region plus its numbered border,
except that flagged and already-revealed cells are skipped (and block
propagation).  Every other cell keeps its state, so nothing is revealed
twice and no flagged or revealed cell is touched. -/
theorem reveal_area_reveals_exactly_reachable {gs : GameState} {s : CellPosition}
    (hb : gs.board.Shaped) (hnm : gs.board.noMineAdjacentToEmpty)
    (hsz64 : gs.board.size ^ 2 < 2 ^ 64)
    (hsx : s.x < gs.board.size) (hsy : s.y < gs.board.size)
    (hhid : (gs.board.cellAt s).state = .Hidden)
    (hsm : (gs.board.cellAt s).is_mine = false) :
    ∃ gs', gs.reveal_area s = some (.ok (.Continue, gs')) ∧
      ∀ q : CellPosition, (gs'.board.cellAt q).state = .Revealed ↔
        ((gs.board.cellAt q).state = .Revealed ∨
          ((gs.board.cellAt q).state = .Hidden ∧ Reach gs.board s q)) := by
  obtain ⟨gs', P', harea, hout⟩ := reveal_area_continue_spec hb hnm hsz64 hsx hsy hhid hsm
  refine ⟨gs', harea, fun q => ?_⟩
  constructor
  · intro hrevq
    by_cases hq : q ∈ P'
    · exact Or.inr ((hout.popped q).mp hq)
    · rw [hout.cell_out q hq] at hrevq
      exact Or.inl hrevq
  · intro hcase
    rcases hcase with hrevq | ⟨hhidq, hreach⟩
    · by_cases hq : q ∈ P'
      · rw [hout.cell_in q hq]
      · rw [hout.cell_out q hq]
        exact hrevq
    · rw [hout.cell_in q ((hout.popped q).mpr ⟨hhidq, hreach⟩)]

theorem reveal_area_reveals_exactly_reachable_witness :
    ∃ gs', gen3State.reveal_area ⟨2, 2⟩ = some (.ok (.Continue, gs')) ∧
      ∀ q : CellPosition, (gs'.board.cellAt q).state = .Revealed ↔
        ((gen3State.board.cellAt q).state = .Revealed ∨
          ((gen3State.board.cellAt q).state = .Hidden ∧
            Reach gen3State.board ⟨2, 2⟩ q)) :=
  reveal_area_reveals_exactly_reachable (by decide) (by decide) (by decide) (by decide)
    (by decide) (by decide) (by decide)

/-! ## C6 -/

/-- `noMineAdjacentToEmpty` only looks at sizes and cell contents, so it
transfers along state-only board changes. -/
theorem Board.noMineAdjEmpty_transfer {b b' : Board} (hsz : b'.size = b.size)
    (hcontent : ∀ q : CellPosition, (b'.cellAt q).content = (b.cellAt q).content)
    (h : b.noMineAdjacentToEmpty) : b'.noMineAdjacentToEmpty := by
  intro x hx y hy hemp v hv
  have hxb : x < b.size := by rw [← hsz]; exact hx
  have hyb : y < b.size := by rw [← hsz]; exact hy
  have hadj : b'.adjacent_positions ⟨x, y⟩ = b.adjacent_positions ⟨x, y⟩ :=
    Board.adjacent_congr hsz ⟨x, y⟩
  have hemp' : (b.cellAt ⟨x, y⟩).is_empty = true := by
    rw [Cell.is_empty] at hemp ⊢
    rw [hcontent] at hemp
    exact hemp
  have := h x hxb y hyb hemp' v (by rw [← hadj]; exact hv)
  rw [Cell.is_mine] at this ⊢
  rw [hcontent v]
  exact this

/-- Invariant carried through the chording loop, tying the running state `s`
back to the base state `gs`: the board only ever changes by revealing
non-mine cells and by `check_win_condition` flagging mines, the geometry and
mine list never move, and the status stays `InProgress` until a win. -/
structure ChordInv (gs s : GameState) : Prop where
  shaped : s.board.Shaped
  size_eq : s.board.size = gs.board.size
  mines_eq : s.board.mine_positions = gs.board.mine_positions
  status_ok : s.status = .InProgress ∨ s.status = .Won
  content_eq : ∀ q : CellPosition, (s.board.cellAt q).content = (gs.board.cellAt q).content
  cell_cases : ∀ q : CellPosition, q ∉ gs.board.mine_positions →
    s.board.cellAt q = gs.board.cellAt q ∨
    s.board.cellAt q = { gs.board.cellAt q with state := .Revealed }

theorem GameState.chord_loop_cons (draws : List CellPosition) (s : GameState)
    (a : CellPosition) (l : List CellPosition) (go : Bool) (ec : CellPosition) (rv : Bool) :
    GameState.chord_loop draws s (a :: l) go ec rv =
      match s.reveal_cell draws a with
      | none => none
      | some (.error e) => some (.error e)
      | some (.ok (.GameOver mp, gs1)) => GameState.chord_loop draws gs1 l true mp rv
      | some (.ok (.Continue, gs1)) => GameState.chord_loop draws gs1 l go ec true
      | some (.ok (.CantReveal, gs1)) => GameState.chord_loop draws gs1 l go ec rv := rfl

/-- Everything the chording loop needs about `check_win_condition`: it
either does nothing, or flags the mines and moves to `Won` — geometry, mine
list, contents, non-mine cells and revealed cells are all preserved. -/
theorem GameState.check_win_chord_facts (gs2 : GameState) (hb2 : gs2.board.Shaped) :
    ((gs2.check_win_condition).2).board.Shaped ∧
      ((gs2.check_win_condition).2).board.size = gs2.board.size ∧
      ((gs2.check_win_condition).2).board.mine_positions = gs2.board.mine_positions ∧
      (((gs2.check_win_condition).2).status = gs2.status ∨
        ((gs2.check_win_condition).2).status = .Won) ∧
      (∀ q : CellPosition, (((gs2.check_win_condition).2).board.cellAt q).content =
        (gs2.board.cellAt q).content) ∧
      (∀ q : CellPosition, q ∉ gs2.board.mine_positions →
        ((gs2.check_win_condition).2).board.cellAt q = gs2.board.cellAt q) ∧
      (∀ q : CellPosition, (gs2.board.cellAt q).state = .Revealed →
        (((gs2.check_win_condition).2).board.cellAt q).state = .Revealed) := by
  rcases GameState.check_win_cases gs2 with hc | hc <;> rw [hc]
  · exact ⟨hb2, rfl, rfl, Or.inl rfl, fun q => rfl, fun q _ => rfl, fun q h => h⟩
  · dsimp only
    refine ⟨Board.flag_mines_shaped hb2, (Board.flag_mines_fields _).1,
      (Board.flag_mines_fields _).2.1, Or.inr rfl, ?_, ?_, ?_⟩
    · intro q
      rw [Board.flag_mines_cellAt hb2 q]
      split_ifs
      · rfl
      · rfl
    · intro q hq
      rw [Board.flag_mines_cellAt hb2 q]
      rw [if_neg (fun hcond => hq hcond.1)]
    · intro q hq
      rw [Board.flag_mines_cellAt hb2 q]
      rw [if_neg (fun hcond => by
        have := hcond.2.1
        rw [Cell.is_hidden, hq] at this
        simp at this)]
      exact hq

/-- The chording loop over a list of hidden non-mine neighbors reveals every
listed cell, preserves the invariant, never loses, and answers `Continue` as
soon as it revealed anything. -/
theorem chord_loop_spec (gs : GameState) (draws : List CellPosition)
    (hnm : gs.board.noMineAdjacentToEmpty) (hsz64 : gs.board.size ^ 2 < 2 ^ 64) :
    ∀ (l : List CellPosition) (s : GameState) (ec : CellPosition) (rv : Bool),
      ChordInv gs s →
      (∀ a ∈ l, a.x < gs.board.size ∧ a.y < gs.board.size ∧
        (gs.board.cellAt a).state = .Hidden ∧ (gs.board.cellAt a).is_mine = false ∧
        a ∉ gs.board.mine_positions) →
      (rv = false → ∀ a ∈ l, s.board.cellAt a = gs.board.cellAt a) →
      ∃ s', GameState.chord_loop draws s l false ec rv =
          some (.ok ((if rv = true ∨ l ≠ [] then .Continue else .CantReveal), s')) ∧
        ChordInv gs s' ∧
        (∀ a ∈ l, (s'.board.cellAt a).state = .Revealed) ∧
        (∀ q : CellPosition, (s.board.cellAt q).state = .Revealed →
          (s'.board.cellAt q).state = .Revealed) := by
  intro l
  induction l with
  | nil =>
    intro s ec rv hinv hl hrv
    refine ⟨s, ?_, hinv, by simp, fun q h => h⟩
    cases rv with
    | false => rfl
    | true => rfl
  | cons a rest ih =>
    intro s ec rv hinv hl hrv
    obtain ⟨hax, hay, hahid, hamine, ham⟩ := hl a (List.mem_cons_self a rest)
    have hrest := fun a' h' => hl a' (List.mem_cons_of_mem a h')
    have hx' : a.x < s.board.size := by rw [hinv.size_eq]; exact hax
    have hy' : a.y < s.board.size := by rw [hinv.size_eq]; exact hay
    have hnotnew : s.status.is_new = false := by
      rcases hinv.status_ok with h | h <;> rw [h] <;> rfl
    rcases hinv.cell_cases a ham with hsame | hrevd
    · -- `a` is still hidden in `s`: its reveal floods and then checks the win.
      have hhid' : (s.board.cellAt a).state = .Hidden := by rw [hsame]; exact hahid
      have hmine' : (s.board.cellAt a).is_mine = false := by
        rw [Cell.is_mine] at hamine ⊢
        rw [hinv.content_eq a]
        exact hamine
      obtain ⟨gs2, P', harea, hout⟩ :=
        @reveal_area_continue_spec s a hinv.shaped
          (Board.noMineAdjEmpty_transfer hinv.size_eq hinv.content_eq hnm)
          (by rw [hinv.size_eq]; exact hsz64) hx' hy' hhid' hmine'
      have hl2 : gs2.status.is_lost = false := by
        rw [hout.status_eq]
        rcases hinv.status_ok with h | h <;> rw [h] <;> rfl
      have hinv2 : ChordInv gs gs2 := by
        refine ⟨hout.shaped, hout.size_eq.trans hinv.size_eq,
          hout.mines_eq.trans hinv.mines_eq, by rw [hout.status_eq]; exact hinv.status_ok,
          ?_, ?_⟩
        · intro q
          by_cases hq : q ∈ P'
          · rw [hout.cell_in q hq]
            exact hinv.content_eq q
          · rw [hout.cell_out q hq]
            exact hinv.content_eq q
        · intro q hq
          by_cases hqp : q ∈ P'
          · rcases hinv.cell_cases q hq with h1 | h1
            · right
              rw [hout.cell_in q hqp, h1]
            · right
              rw [hout.cell_in q hqp, h1]
          · rw [hout.cell_out q hqp]
            exact hinv.cell_cases q hq
      obtain ⟨f1, f2, f3, f4, f5, f6, f7⟩ :=
        GameState.check_win_chord_facts gs2 hout.shaped
      have hinv3 : ChordInv gs (gs2.check_win_condition).2 := by
        refine ⟨f1, f2.trans hinv2.size_eq, f3.trans hinv2.mines_eq, ?_, ?_, ?_⟩
        · rcases f4 with h | h
          · rw [h]
            exact hinv2.status_ok
          · exact Or.inr h
        · intro q
          rw [f5 q]
          exact hinv2.content_eq q
        · intro q hq
          have hq2 : q ∉ gs2.board.mine_positions := by
            rw [hinv2.mines_eq]
            exact hq
          rw [f6 q hq2]
          exact hinv2.cell_cases q hq
      have hap : a ∈ P' := by
        refine (hout.popped a).mpr ⟨hhid', Relation.ReflTransGen.refl⟩
      have harev2 : (gs2.board.cellAt a).state = .Revealed := by
        rw [hout.cell_in a hap]
      have harev3 : (((gs2.check_win_condition).2).board.cellAt a).state = .Revealed :=
        f7 a harev2
      have hmono2 : ∀ q : CellPosition, (s.board.cellAt q).state = .Revealed →
          (((gs2.check_win_condition).2).board.cellAt q).state = .Revealed := by
        intro q hq
        refine f7 q ?_
        by_cases hqp : q ∈ P'
        · rw [hout.cell_in q hqp]
        · rw [hout.cell_out q hqp]
          exact hq
      obtain ⟨s', hloop, hinv', hall', hmono'⟩ :=
        ih (gs2.check_win_condition).2 ec true hinv3 hrest
          (fun hf => absurd hf (by simp))
      rw [if_pos (Or.inl rfl)] at hloop
      refine ⟨s', ?_, hinv', ?_, ?_⟩
      · rw [if_pos (Or.inr (by simp))]
        rw [GameState.chord_loop_cons,
          GameState.reveal_cell_eq_of_hidden hx' hy' hhid']
        rw [if_neg (by simp [hnotnew])]
        rw [harea]
        dsimp only
        rw [if_pos hl2]
        exact hloop
      · intro x hx
        rcases List.mem_cons.mp hx with rfl | hx
        · exact hmono' x harev3
        · exact hall' x hx
      · intro q hq
        exact hmono' q (hmono2 q hq)
    · -- `a` was already revealed by an earlier flood: `CantReveal`, no change.
      have harev : (s.board.cellAt a).is_revealed = true := by
        rw [Cell.is_revealed, hrevd]
        rfl
      rcases Bool.eq_false_or_eq_true rv with hrvT | hrvF
      · obtain ⟨s', hloop, hinv', hall', hmono'⟩ :=
          ih s ec rv hinv hrest
            (by intro hf; rw [hrvT] at hf; exact absurd hf (by simp))
        rw [if_pos (Or.inl hrvT)] at hloop
        refine ⟨s', ?_, hinv', ?_, hmono'⟩
        · rw [if_pos (Or.inl hrvT)]
          rw [GameState.chord_loop_cons,
            GameState.reveal_cell_cantreveal_eq hx' hy' (Or.inl harev)]
          exact hloop
        · intro x hx
          rcases List.mem_cons.mp hx with rfl | hx
          · refine hmono' x ?_
            rw [hrevd]
          · exact hall' x hx
      · exfalso
        have := hrv hrvF a (List.mem_cons_self a rest)
        rw [this] at hrevd
        have : (gs.board.cellAt a).state = .Revealed := by
          conv_lhs => rw [hrevd]
        rw [hahid] at this
        exact absurd this (by simp)

/-- C6: on a game in progress, chording a revealed unflagged cell whose
number is `k` reveals every hidden non-flagged neighbor — answering
`Continue`, or `CantReveal` when there was nothing left to reveal — if and
only if exactly `k` neighbors are flagged.  The mismatch direction (`k−1`,
`k+1`, …) needs nothing beyond reaching the branch: the early return fires
on any board, the state untouched.  Only the reveal direction carries the
board hypotheses, among them `hnonmine`, restricting it to correct flag
placements: no hidden neighbor is a mine, which is what makes "reveals the
neighbors" (rather than a loss) the claimed outcome. -/
theorem chording_reveals_iff_flag_count_matches {gs : GameState}
    {draws : List CellPosition} {pos : CellPosition}
    (hst : gs.status = .InProgress)
    (hx : pos.x < gs.board.size) (hy : pos.y < gs.board.size)
    (hrev : (gs.board.cellAt pos).state = .Revealed) :
    ((gs.board.adjacent_positions pos).countP
        (fun q => (gs.board.cellAt q).is_flagged) ≠
          (gs.board.cellAt pos).content.as_number →
      gs.chording draws pos = some (.ok (.CantReveal, gs))) ∧
    ((gs.board.adjacent_positions pos).countP
        (fun q => (gs.board.cellAt q).is_flagged) =
          (gs.board.cellAt pos).content.as_number →
      gs.board.Shaped → gs.board.noMineAdjacentToEmpty →
      gs.board.size ^ 2 < 2 ^ 64 →
      (∀ q ∈ gs.board.adjacent_positions pos,
        (gs.board.cellAt q).state = .Hidden →
        (gs.board.cellAt q).is_mine = false ∧ q ∉ gs.board.mine_positions) →
      ∃ gs', gs.chording draws pos = some (.ok
          ((if (gs.board.adjacent_positions pos).filter
              (fun q => (gs.board.cellAt q).is_flagged = false ∧
                (gs.board.cellAt q).is_hidden) ≠ [] then .Continue
            else .CantReveal), gs')) ∧
        ∀ q ∈ (gs.board.adjacent_positions pos).filter
            (fun q => (gs.board.cellAt q).is_flagged = false ∧
              (gs.board.cellAt q).is_hidden),
          (gs'.board.cellAt q).state = .Revealed) := by
  have hhidf : (gs.board.cellAt pos).is_hidden = false := by
    rw [Cell.is_hidden, hrev]
    rfl
  have hflf : (gs.board.cellAt pos).is_flagged = false := by
    rw [Cell.is_flagged, hrev]
    rfl
  unfold GameState.chording
  rw [if_neg (by rw [hst]; simp [GameStatus.is_over])]
  rw [Board.cell_inb hx hy]
  dsimp only
  rw [if_neg (by simp [hhidf, hflf])]
  constructor
  · intro hne
    rw [if_pos hne]
  · intro heq hb hnm hsz64 hnonmine
    rw [if_neg (fun hne => hne heq)]
    have hinv0 : ChordInv gs gs :=
      ⟨hb, rfl, rfl, Or.inl hst, fun q => rfl, fun q _ => Or.inl rfl⟩
    have hl0 : ∀ a ∈ (gs.board.adjacent_positions pos).filter
        (fun q => (gs.board.cellAt q).is_flagged = false ∧
          (gs.board.cellAt q).is_hidden),
        a.x < gs.board.size ∧ a.y < gs.board.size ∧
        (gs.board.cellAt a).state = .Hidden ∧ (gs.board.cellAt a).is_mine = false ∧
        a ∉ gs.board.mine_positions := by
      intro a hafil
      obtain ⟨hadj, hpred⟩ := List.mem_filter.mp hafil
      simp only [decide_eq_true_eq] at hpred
      have hahid : (gs.board.cellAt a).state = .Hidden :=
        (Cell.is_hidden_iff _).mp hpred.2
      obtain ⟨hax, hay⟩ := Board.mem_adjacent_bounds hadj
      obtain ⟨h1, h2⟩ := hnonmine a hadj hahid
      exact ⟨hax, hay, hahid, h1, h2⟩
    obtain ⟨s', hloop, hinv', hall', hmono'⟩ :=
      chord_loop_spec gs draws hnm hsz64
        ((gs.board.adjacent_positions pos).filter
          (fun q => (gs.board.cellAt q).is_flagged = false ∧
            (gs.board.cellAt q).is_hidden))
        gs ⟨0, 0⟩ false hinv0 hl0 (fun _ a _ => rfl)
    by_cases hne : (gs.board.adjacent_positions pos).filter
        (fun q => (gs.board.cellAt q).is_flagged = false ∧
          (gs.board.cellAt q).is_hidden) ≠ []
    · rw [if_pos (Or.inr hne)] at hloop
      rw [if_pos hne]
      exact ⟨s', hloop, hall'⟩
    · rw [if_neg (by simpa using hne)] at hloop
      rw [if_neg hne]
      exact ⟨s', hloop, hall'⟩

/-- A 2×2 in-progress game: mine at `(1, 1)` flagged, `(0, 0)` revealed
showing `1`, the two remaining cells hidden — the flag count matches. -/
def c6State : GameState :=
  { board :=
      { (gen2Board.setCell ⟨0, 0⟩ (fun c => { c with state := .Revealed })).setCell ⟨1, 1⟩
          (fun c => { c with state := .Flagged }) with
        revealed_count := 1
        flagged_count := 1 }
    difficulty := ⟨(2, 2), 1⟩
    status := .InProgress
    start_time := some ()
    elapsed_seconds := 0
    revealed_cells := {⟨0, 0⟩}
    flagged_cells := {⟨1, 1⟩}
    custom_flags_remaining := 0 }

/-- A 2×2 in-progress game: `(0, 0)` revealed showing `1` but nothing
flagged — the under-flagged (`k−1`) case, the mine at `(1, 1)` still a
hidden neighbor. -/
def c6StateB : GameState :=
  { board :=
      { gen2Board.setCell ⟨0, 0⟩ (fun c => { c with state := .Revealed }) with
        revealed_count := 1 }
    difficulty := ⟨(2, 2), 1⟩
    status := .InProgress
    start_time := some ()
    elapsed_seconds := 0
    revealed_cells := {⟨0, 0⟩}
    flagged_cells := ∅
    custom_flags_remaining := 0 }

theorem chording_reveals_iff_flag_count_matches_witness :
    c6StateB.chording [] ⟨0, 0⟩ = some (.ok (.CantReveal, c6StateB)) ∧
    (∃ gs', c6State.chording [] ⟨0, 0⟩ = some (.ok
        ((if (c6State.board.adjacent_positions ⟨0, 0⟩).filter
            (fun q => (c6State.board.cellAt q).is_flagged = false ∧
              (c6State.board.cellAt q).is_hidden) ≠ [] then .Continue
          else .CantReveal), gs')) ∧
      ∀ q ∈ (c6State.board.adjacent_positions ⟨0, 0⟩).filter
          (fun q => (c6State.board.cellAt q).is_flagged = false ∧
            (c6State.board.cellAt q).is_hidden),
        (gs'.board.cellAt q).state = .Revealed) :=
  ⟨(chording_reveals_iff_flag_count_matches (by decide) (by decide) (by decide)
      (by decide)).1 (by decide),
    (chording_reveals_iff_flag_count_matches (by decide) (by decide) (by decide)
      (by decide)).2 (by decide) (by decide) (by decide) (by decide) (by decide)⟩
